import Mathlib

/-!
# A shallow embedding of `vector<T>` (src/vector.h)

The C++ class manages raw storage by hand: `operator new` / `operator delete`
for buffers, placement `new` and explicit destructor calls for the elements.
The embedding makes that storage explicit.

* A `Memory T` is the free store: a list of blocks, indexed by block number.
  A block is either released (`none`) or a list of slots; a slot is raw
  memory (`none`) or holds a live `T` (`some x`).  Block numbers are never
  reused, so a pointer into a released block stays recognisable as dangling.
* A `Ptr` is a `T*`: a block (or null) and an offset into it.
* A `vector` is the triple of members `data_`, `size_`, `capacity_`.
* A member function takes the memory and the object and gives back a
  `Result`: the memory and the object afterwards, and whether the call
  returned or threw.
* The copy constructor of `T` and `operator new` may throw.  Whether the
  `k`-th call throws is fixed by the two schedules `copy_throws` and
  `new_throws` carried in the memory, with counters of the calls made so far.
  A copy that does not throw yields an equal value.
* `std::swap` on two elements exchanges the contents of the two slots and
  does not throw (the header's `nothrow(swap)` convention).
* `size_t` is modelled by `Nat`.  A buffer of `2^63` slots cannot be obtained
  from `operator new`, so `capacity() * 2` does not wrap, and `size()` is no
  more than the capacity of a buffer that exists.  The one capacity that does
  not come from an existing buffer is the argument of `reserve`: there the
  byte count `new_cap * sizeof(T)` of lines 60-61 can wrap.  The functions
  `new_storage`, `change_capacity`, `reserve`, `shrink_to_fit` and
  `change_cap_push_back` are the source for byte counts that do not wrap;
  `new_storage_exact`, `change_capacity_exact`, `reserve_exact`,
  `shrink_to_fit_exact` and `change_cap_push_back_exact` compute the byte
  count modulo `2 ^ 64` and agree with them when it does not wrap.
* An argument `T const& value` is modelled by the value referred to where the
  source reads it while the referent is intact (`push_back`, `insert`,
  `change_cap_push_back`), and by a `Ref` where the source can read it after
  the referent has been destroyed (`change_capacity` followed by
  `push_back_without_extend_checking`).
* Calls outside the C++ preconditions (undefined behaviour) are given an
  arbitrary total meaning; every theorem below carries the preconditions it
  needs.
* Every storage action is recorded in `trace`, in program order.
-/

namespace cpp_vector

/-- The two ways a call can fail: `operator new` throws, or the copy
constructor of `T` throws. -/
inductive Failure where
  | bad_alloc
  | copy_failed
  deriving DecidableEq, Repr

/-- A `T*`: the block pointed into (`none` for the null pointer) and the
offset, counted in elements. -/
structure Ptr where
  block : Option Nat
  off : Nat
  deriving DecidableEq, Repr

/-- The null pointer. -/
def nullptr : Ptr := ⟨none, 0⟩

/-- Pointer arithmetic `p + i`. -/
def Ptr.add (p : Ptr) (i : Nat) : Ptr := ⟨p.block, p.off + i⟩

/-- Pointer arithmetic `p - i`. -/
def Ptr.sub (p : Ptr) (i : Nat) : Ptr := ⟨p.block, p.off - i⟩

/-- The pointer difference `std::distance(a, b)` of two pointers into the same block. -/
def distance (a b : Ptr) : Nat := b.off - a.off

/-- Storage actions, as recorded in the trace. -/
inductive Event where
  | allocate (p : Ptr) (cap : Nat)
  | construct (p : Ptr)
  | destroy (p : Ptr)
  | release (p : Ptr)
  deriving DecidableEq, Repr

/-- The free store together with the failure schedules of the environment. -/
structure Memory (T : Type) where
  heap : List (Option (List (Option T)))
  copy_throws : Nat → Bool
  new_throws : Nat → Bool
  copies : Nat
  news : Nat
  trace : List Event

/-- The members of `vector<T>` (lines 86-88). -/
structure vector where
  data_ : Ptr
  size_ : Nat
  capacity_ : Nat
  deriving DecidableEq, Repr

/-- How a call ended. -/
inductive Ret (α : Type) where
  | returned (a : α)
  | threw (f : Failure)
  deriving DecidableEq, Repr

/-- The outcome of a member function call. -/
structure Result (T α : Type) where
  mem : Memory T
  self : vector
  ret : Ret α

variable {T : Type}

/-! ## Storage primitives -/

/-- The content of the slot `*p` in a free store: `none` when the slot is
raw, out of the block, or the block is null or released. -/
def heap_read (h : List (Option (List (Option T)))) (p : Ptr) : Option T :=
  match p.block with
  | none => none
  | some b =>
    match h[b]? with
    | some (some buf) => (buf[p.off]?).join
    | _ => none

/-- Overwrite the slot `*p` in a free store. -/
def heap_store (h : List (Option (List (Option T)))) (p : Ptr) (s : Option T) :
    List (Option (List (Option T))) :=
  match p.block with
  | none => h
  | some b =>
    match h[b]? with
    | some (some buf) => h.set b (some (buf.set p.off s))
    | _ => h

/-- The content of the slot `*p`. -/
def Memory.read (m : Memory T) (p : Ptr) : Option T := heap_read m.heap p

/-- Overwrite the slot `*p`. -/
def Memory.store (m : Memory T) (p : Ptr) (s : Option T) : Memory T :=
  { m with heap := heap_store m.heap p s }

/-- Record a storage action. -/
def Memory.log (m : Memory T) (e : Event) : Memory T :=
  { m with trace := m.trace ++ [e] }

/-- The call `operator new` for a block of `n` whole elements: the next call
of the schedule; when it does not throw, a fresh block of `n` raw slots.  The
number `n` is the one the byte count passed by the caller pays for, see
`new_storage` and `new_storage_exact`. -/
def operator_new (m : Memory T) (n : Nat) : Memory T × Option Ptr :=
  if m.new_throws (m.news + 1) then
    ({ m with news := m.news + 1 }, none)
  else
    (({ m with news := m.news + 1, heap := m.heap ++ [some (List.replicate n none)] } : Memory T).log
        (.allocate ⟨some m.heap.length, 0⟩ n),
      some ⟨some m.heap.length, 0⟩)

/-- The call `operator delete(p)`: nothing for the null pointer, otherwise the block is released. -/
def operator_delete (m : Memory T) (p : Ptr) : Memory T :=
  match p.block with
  | none => m
  | some b => ({ m with heap := m.heap.set b none } : Memory T).log (.release p)

/-- The placement construction `new (p) T(x)`: the next call of the copy
constructor; `false` when it throws (the slot is then left raw). -/
def construct (m : Memory T) (p : Ptr) (x : Option T) : Memory T × Bool :=
  if m.copy_throws (m.copies + 1) then
    ({ m with copies := m.copies + 1 }, false)
  else
    ((({ m with copies := m.copies + 1 } : Memory T).store p x).log (.construct p), true)

/-- The destructor call `p->~T()`: the slot becomes raw memory. -/
def destroy (m : Memory T) (p : Ptr) : Memory T :=
  (m.store p none).log (.destroy p)

/-- The exchange `std::swap(*p, *q)`. -/
def swap_elements (m : Memory T) (p q : Ptr) : Memory T :=
  (m.store p (m.read q)).store q (m.read p)

/-- The loop `for (j = n; j > 0; --j) p[j - 1].~T();` (lines 54-56, 66-68, 202-204, 212-214). -/
def destroy_down (p : Ptr) : Nat → Memory T → Memory T
  | 0, m => m
  | j + 1, m => destroy_down p j (destroy m (p.add j))

/-! ## The member functions -/

/-- The default constructor (line 92). -/
def vector.default : vector := ⟨nullptr, 0, 0⟩

def size (v : vector) : Nat := v.size_

def capacity (v : vector) : Nat := v.capacity_

def data (v : vector) : Ptr := v.data_

def begin (v : vector) : Ptr := v.data_

/-- The member `end()`. -/
def end_ (v : vector) : Ptr := v.data_.add v.size_

def empty (v : vector) : Bool := decide (begin v = end_ v)

/-- The reference `operator[](i)`, as the address of the element. -/
def index (v : vector) (i : Nat) : Ptr := v.data_.add i

/-- The reference `front()`. -/
def front (v : vector) : Ptr := begin v

/-- The reference `back()`. -/
def back (v : vector) : Ptr := (end_ v).sub 1

/-- The private `destroy_elements` (lines 53-57). -/
def destroy_elements (m : Memory T) (v : vector) : Memory T :=
  destroy_down v.data_ v.size_ m

/-- The expression `new_cap == 0 ? nullptr : operator new (new_cap * sizeof(T))`
(lines 60-61, 196-197), for a `new_cap` whose byte count does not wrap in
`size_t`: the block has `new_cap` slots.  For any `new_cap` see
`new_storage_exact`. -/
def new_storage (m : Memory T) (new_cap : Nat) : Memory T × Option Ptr :=
  if new_cap = 0 then (m, some nullptr) else operator_new m new_cap

/-- The copy loop with its handler (lines 62-72, 198-208): `n` more
iterations starting at index `i`.  On a throw at index `i` the slots
`i - 1, ..., 0` of the new buffer are destroyed and the new buffer released. -/
def copy_elements (src dst : Ptr) : Nat → Nat → Memory T → Memory T × Bool
  | 0, _, m => (m, true)
  | n + 1, i, m =>
    match construct m (dst.add i) (m.read (src.add i)) with
    | (m1, true) => copy_elements src dst n (i + 1) m1
    | (m1, false) => (operator_delete (destroy_down dst i m1) dst, false)

/-- The private `change_capacity` (lines 59-77). -/
def change_capacity (m : Memory T) (v : vector) (new_cap : Nat) : Result T Unit :=
  match new_storage m new_cap with
  | (m1, none) => ⟨m1, v, .threw .bad_alloc⟩
  | (m1, some new_data) =>
    match copy_elements v.data_ new_data v.size_ 0 m1 with
    | (m2, false) => ⟨m2, v, .threw .copy_failed⟩
    | (m2, true) =>
      ⟨operator_delete (destroy_elements m2 v) v.data_,
        { v with data_ := new_data, capacity_ := new_cap }, .returned ()⟩

/-- The private `push_back_without_extend_checking` (lines 81-84). -/
def push_back_without_extend_checking (m : Memory T) (v : vector) (value : Option T) :
    Result T Unit :=
  match construct m (end_ v) value with
  | (m1, true) => ⟨m1, { v with size_ := v.size_ + 1 }, .returned ()⟩
  | (m1, false) => ⟨m1, v, .threw .copy_failed⟩

/-- The private `change_cap_push_back` (lines 194-223). -/
def change_cap_push_back (m : Memory T) (v : vector) (new_cap : Nat) (value : T) :
    Result T Unit :=
  match new_storage m new_cap with
  | (m1, none) => ⟨m1, v, .threw .bad_alloc⟩
  | (m1, some new_data) =>
    match copy_elements v.data_ new_data v.size_ 0 m1 with
    | (m2, false) => ⟨m2, v, .threw .copy_failed⟩
    | (m2, true) =>
      match construct m2 (new_data.add v.size_) (some value) with
      | (m3, false) =>
        ⟨operator_delete (destroy_down new_data (size v) m3) new_data, v, .threw .copy_failed⟩
      | (m3, true) =>
        ⟨operator_delete (destroy_elements m3 v) v.data_,
          { data_ := new_data, size_ := v.size_ + 1, capacity_ := new_cap }, .returned ()⟩

/-- The member `push_back` (lines 161-169). -/
def push_back (m : Memory T) (v : vector) (value : T) : Result T Unit :=
  if size v = capacity v then
    change_cap_push_back m v (if capacity v = 0 then 1 else capacity v * 2) value
  else
    match construct m (end_ v) (some value) with
    | (m1, true) => ⟨m1, { v with size_ := v.size_ + 1 }, .returned ()⟩
    | (m1, false) => ⟨m1, v, .threw .copy_failed⟩

/-- The member `pop_back` (lines 171-175). -/
def pop_back (m : Memory T) (v : vector) : Result T Unit :=
  let v1 : vector := { v with size_ := v.size_ - 1 }
  ⟨destroy m (end_ v1), v1, .returned ()⟩

/-- The member `reserve` (lines 187-192). -/
def reserve (m : Memory T) (v : vector) (new_capacity : Nat) : Result T Unit :=
  if capacity v < new_capacity then change_capacity m v new_capacity
  else ⟨m, v, .returned ()⟩

/-- The member `shrink_to_fit` (lines 225-230). -/
def shrink_to_fit (m : Memory T) (v : vector) : Result T Unit :=
  if size v < capacity v then change_capacity m v (size v)
  else ⟨m, v, .returned ()⟩

/-- The member `clear` (lines 232-236). -/
def clear (m : Memory T) (v : vector) : Result T Unit :=
  ⟨destroy_elements m v, { v with size_ := 0 }, .returned ()⟩

/-- The destructor (lines 110-114). -/
def destructor (m : Memory T) (v : vector) : Memory T :=
  operator_delete (destroy_elements m v) v.data_

/-- The loop of the copy constructor (lines 97-99): `n` more iterations from index `i`. -/
def copy_construct_loop (other : vector) : Nat → Nat → Memory T → vector → Result T Unit
  | 0, _, m, v => ⟨m, v, .returned ()⟩
  | n + 1, i, m, v =>
    match push_back_without_extend_checking m v (m.read (other.data_.add i)) with
    | ⟨m1, v1, .returned _⟩ => copy_construct_loop other n (i + 1) m1 v1
    | ⟨m1, v1, .threw f⟩ => ⟨m1, v1, .threw f⟩

/-- The copy constructor (lines 94-100); `self` of the result is the new
object.  The constructor delegates to `vector()`, so when its body throws the
destructor of the new object runs before the exception leaves. -/
def copy_constructor (m : Memory T) (other : vector) : Result T Unit :=
  match reserve m vector.default (size other) with
  | ⟨m1, v1, .threw f⟩ => ⟨destructor m1 v1, v1, .threw f⟩
  | ⟨m1, v1, .returned _⟩ =>
    match copy_construct_loop other other.size_ 0 m1 v1 with
    | ⟨m2, v2, .threw f⟩ => ⟨destructor m2 v2, v2, .threw f⟩
    | ⟨m2, v2, .returned _⟩ => ⟨m2, v2, .returned ()⟩

/-- The loop of `insert` (lines 270-272), entered with the loop variable `i`. -/
def insert_loop (data_ : Ptr) (ind : Nat) : Nat → Memory T → Memory T
  | 0, m => m
  | i + 1, m =>
    if i + 1 > ind then insert_loop data_ ind i (swap_elements m (data_.add (i + 1)) (data_.add i))
    else m

/-- The member `insert` (lines 265-275).  The value returned is the argument `pos`. -/
def insert (m : Memory T) (v : vector) (pos : Ptr) (value : T) : Result T Ptr :=
  let ind := distance (begin v) pos
  match push_back m v value with
  | ⟨m1, v1, .threw f⟩ => ⟨m1, v1, .threw f⟩
  | ⟨m1, v1, .returned _⟩ => ⟨insert_loop v1.data_ ind (v1.size_ - 1) m1, v1, .returned pos⟩

/-- The first loop of `erase` (lines 289-291): `n` more iterations from index `i`. -/
def erase_swap_loop (data_ : Ptr) (ind1 ind2 : Nat) : Nat → Nat → Memory T → Memory T
  | 0, _, m => m
  | n + 1, i, m =>
    erase_swap_loop data_ ind1 ind2 n (i + 1)
      (swap_elements m (data_.add (ind1 + i)) (data_.add (ind2 + i)))

/-- The second loop of `erase` (lines 292-294): `n` calls of `pop_back`. -/
def erase_pop_loop : Nat → Memory T → vector → Memory T × vector
  | 0, m, v => (m, v)
  | n + 1, m, v => erase_pop_loop n (pop_back m v).mem (pop_back m v).self

/-- The member `erase(first, last)` (lines 282-297).  The value returned is the argument `first`. -/
def erase_range (m : Memory T) (v : vector) (first last : Ptr) : Result T Ptr :=
  let ind1 := distance (begin v) first
  let ind2 := distance (begin v) last
  let m1 := erase_swap_loop v.data_ ind1 ind2 (size v - ind2) 0 m
  let r := erase_pop_loop (ind2 - ind1) m1 v
  ⟨r.1, r.2, .returned first⟩

/-- The member `erase(pos)` (lines 277-280). -/
def erase (m : Memory T) (v : vector) (pos : Ptr) : Result T Ptr :=
  erase_range m v pos (pos.add 1)


/-! ## Vocabulary of the statements -/

/-- The slots of a buffer of `cap` slots whose live elements are `a`: the
elements in order, then raw memory. -/
def layout (a : List T) (cap : Nat) : List (Option T) :=
  a.map some ++ List.replicate (cap - a.length) none

/-- The vector `v` is well formed in `m` and holds the sequence `a`:
`size_` is the length of `a` and at most `capacity_`; `data_` is null exactly
when `capacity_` is zero; otherwise `data_` is the start of a live block of
`capacity_` slots whose first `size_` slots hold `a` and whose other slots
are raw. -/
def Holds (m : Memory T) (v : vector) (a : List T) : Prop :=
  v.size_ = a.length ∧ a.length ≤ v.capacity_ ∧ v.data_.off = 0 ∧
  match v.data_.block with
  | none => v.capacity_ = 0
  | some b => 0 < v.capacity_ ∧ m.heap[b]? = some (some (layout a v.capacity_))

/-- The element sequence as a caller reads it: `operator[](i)` for `i < size()`. -/
def elements (m : Memory T) (v : vector) : List (Option T) :=
  (List.range (size v)).map (fun i => m.read (index v i))

/-- No copy constructor call and no `operator new` call is scheduled to throw. -/
def NoFail (m : Memory T) : Prop :=
  ∀ k, m.copy_throws k = false ∧ m.new_throws k = false

/-- Calling `push_back` on each value of a list, in order, up to the first call that throws. -/
def push_all : Memory T → vector → List T → Result T Unit
  | m, v, [] => ⟨m, v, .returned ()⟩
  | m, v, x :: xs =>
    match push_back m v x with
    | ⟨m1, v1, .returned _⟩ => push_all m1 v1 xs
    | ⟨m1, v1, .threw f⟩ => ⟨m1, v1, .threw f⟩

/-- A memory with nothing allocated and no failure scheduled. -/
def Memory.quiet (T : Type) : Memory T := ⟨[], fun _ => false, fun _ => false, 0, 0, []⟩

/-- The memory `n` continues `m`: the schedules agree and no block number of `m` is lost. -/
def Continues (m n : Memory T) : Prop :=
  n.copy_throws = m.copy_throws ∧ n.new_throws = m.new_throws ∧ m.heap.length ≤ n.heap.length

/-- The block `c` exists in `m` and `n` has the same content there. -/
def Keeps (c : Nat) (m n : Memory T) : Prop :=
  c < m.heap.length → c < n.heap.length ∧ n.heap[c]? = m.heap[c]?

/-- A call on the object `v` in `m` with outcome `r` continues `m`, and
for every block `c` of `m` that is not the storage of `v`: the block is still
there with the same content, and it is not the storage of the object afterwards. -/
def Frame {α : Type} (v : vector) (m : Memory T) (r : Result T α) : Prop :=
  Continues m r.mem ∧
  ∀ c, c < m.heap.length → v.data_.block ≠ some c →
    c < r.mem.heap.length ∧ r.mem.heap[c]? = m.heap[c]? ∧ r.self.data_.block ≠ some c

/-- The vector reached from a default-constructed one by pushing `xs`, with nothing else
allocated and no failure scheduled. -/
def pushed (xs : List Nat) : Result Nat Unit := push_all (Memory.quiet Nat) vector.default xs

/-- The memory `m` in an environment where the `k`-th copy constructor call from now on throws
(and no other call does). -/
def Memory.with_copy_failure (m : Memory T) (k : Nat) : Memory T :=
  { m with copy_throws := fun j => decide (j = m.copies + k), new_throws := fun _ => false }

/-- The assignment `v[i] = x` through the reference `operator[](i)`. -/
def assign_at (m : Memory T) (v : vector) (i : Nat) (x : T) : Result T Unit :=
  ⟨m.store (index v i) (some x), v, .returned ()⟩

/-- The calls that change the elements of a vector, with their arguments;
positions are given as offsets from `begin()`. -/
inductive Mutation (T : Type) where
  | push_back (x : T)
  | pop_back
  | clear
  | insert (i : Nat) (x : T)
  | erase (i : Nat)
  | erase_range (i j : Nat)
  | assign_at (i : Nat) (x : T)

/-- The memory and the object after a mutating call. -/
def Mutation.apply : Mutation T → Memory T → vector → Memory T × vector
  | .push_back x, m, v => ((cpp_vector.push_back m v x).mem, (cpp_vector.push_back m v x).self)
  | .pop_back, m, v => ((cpp_vector.pop_back m v).mem, (cpp_vector.pop_back m v).self)
  | .clear, m, v => ((cpp_vector.clear m v).mem, (cpp_vector.clear m v).self)
  | .insert i x, m, v => ((cpp_vector.insert m v ((begin v).add i) x).mem, (cpp_vector.insert m v ((begin v).add i) x).self)
  | .erase i, m, v => ((cpp_vector.erase m v ((begin v).add i)).mem, (cpp_vector.erase m v ((begin v).add i)).self)
  | .erase_range i j, m, v =>
    ((cpp_vector.erase_range m v ((begin v).add i) ((begin v).add j)).mem,
      (cpp_vector.erase_range m v ((begin v).add i) ((begin v).add j)).self)
  | .assign_at i x, m, v => ((cpp_vector.assign_at m v i x).mem, (cpp_vector.assign_at m v i x).self)

/-- The memory and the object after a sequence of mutating calls on the same object. -/
def Mutation.apply_all : List (Mutation T) → Memory T → vector → Memory T × vector
  | [], m, v => (m, v)
  | μ :: μs, m, v => Mutation.apply_all μs (μ.apply m v).1 (μ.apply m v).2

/-- The storage of `v` is null or a block number of `m`. -/
def Live (m : Memory T) (v : vector) : Prop :=
  ∀ b, v.data_.block = some b → b < m.heap.length

/-- The memory and the two objects after a sequence of mutating calls, each
applied to the first object (`true`) or to the second (`false`). -/
def Mutation.apply_both :
    List (Bool × Mutation T) → Memory T → vector → vector → Memory T × vector × vector
  | [], m, s, c => (m, s, c)
  | (true, μ) :: rest, m, s, c => Mutation.apply_both rest (μ.apply m s).1 (μ.apply m s).2 c
  | (false, μ) :: rest, m, s, c => Mutation.apply_both rest (μ.apply m c).1 s (μ.apply m c).2

/-! ## Two objects: `swap` and copy assignment -/

/-- The member `swap` (lines 238-243), called on `self` with the distinct
object `other`: the two objects afterwards, `self` first.  The memory is not
touched. -/
def swap (self other : vector) : vector × vector :=
  (⟨other.data_, other.size_, other.capacity_⟩, ⟨self.data_, self.size_, self.capacity_⟩)

/-- The copy assignment `operator=` (lines 102-108) on the object `self`.
The argument is `none` when it is the object itself (`this == &other`) and
`some o` when it is another object `o`.  In the second case the temporary
`vector(other)` is built, `swap` is called on it with `*this`, and the
temporary, which then owns the old storage of `*this`, is destroyed. -/
def copy_assign (m : Memory T) (self : vector) (other : Option vector) : Result T Unit :=
  match other with
  | none => ⟨m, self, .returned ()⟩
  | some o =>
    match copy_constructor m o with
    | ⟨m1, _, .threw f⟩ => ⟨m1, self, .threw f⟩
    | ⟨m1, tmp, .returned _⟩ => ⟨destructor m1 (swap tmp self).1, (swap tmp self).2, .returned ()⟩

/-- The unfused sequence `change_capacity(new_cap)` followed by
`push_back_without_extend_checking(value)`, for an argument that refers to an
object `value` outside the free store and a `new_cap` whose byte count does
not wrap.  For any reference and any `new_cap` see
`change_capacity_then_push_back_exact`. -/
def change_capacity_then_push_back_value (m : Memory T) (v : vector) (new_cap : Nat) (value : T) :
    Result T Unit :=
  match change_capacity m v new_cap with
  | ⟨m1, v1, .threw f⟩ => ⟨m1, v1, .threw f⟩
  | ⟨m1, v1, .returned _⟩ => push_back_without_extend_checking m1 v1 (some value)

/-- The trace of constructing the slots `i, i + 1, ..., i + n - 1` of the buffer at `p`. -/
def constructions (p : Ptr) : Nat → Nat → List Event
  | 0, _ => []
  | n + 1, i => Event.construct (p.add i) :: constructions p n (i + 1)

/-- The trace of destroying the slots `j - 1, ..., 1, 0` of the buffer at `p`. -/
def destructions (p : Ptr) : Nat → List Event
  | 0 => []
  | j + 1 => Event.destroy (p.add j) :: destructions p j

/-- The trace of `operator delete(p)`. -/
def release_of (p : Ptr) : List Event :=
  match p.block with
  | none => []
  | some _ => [Event.release p]

/-- The memory `m` in an environment where the next call of `operator new` throws. -/
def Memory.with_new_failure (m : Memory T) : Memory T :=
  { m with new_throws := fun j => decide (j = m.news + 1) }

/-- Two vectors in one memory: the first reached by pushing `xs`, then the
second by pushing `ys`, with no failure scheduled. -/
def pushed_two (xs ys : List Nat) : Memory Nat × vector × vector :=
  ((push_all (pushed xs).mem vector.default ys).mem, (pushed xs).self,
    (push_all (pushed xs).mem vector.default ys).self)

/-- The representation invariant on the members: `size_ ≤ capacity_`, and
`data_` is null exactly when `capacity_` is zero. -/
def RepInv (v : vector) : Prop :=
  size v ≤ capacity v ∧ (data v = nullptr ↔ capacity v = 0)

/-- The public calls of a program that owns a list of vector objects; an
object is named by its position in the list, positions in a vector are
offsets from `begin()`. -/
inductive Call (T : Type) where
  | default_construct
  | copy_construct (j : Nat)
  | copy_assign (i j : Nat)
  | push_back (i : Nat) (x : T)
  | pop_back (i : Nat)
  | reserve (i n : Nat)
  | shrink_to_fit (i : Nat)
  | clear (i : Nat)
  | swap (i j : Nat)
  | insert (i k : Nat) (x : T)
  | erase (i k : Nat)
  | erase_range (i k l : Nat)

/-- The object at position `i`. -/
def object (vs : List vector) (i : Nat) : vector := vs.getD i vector.default

/-- The C++ preconditions of a call: the objects exist, `pop_back` is called
on a non-empty vector, `insert` at a position up to `end()`, `erase` on a
position or range within the elements. -/
def Call.pre : Call T → List vector → Prop
  | .default_construct, _ => True
  | .copy_construct j, vs => j < vs.length
  | .copy_assign i j, vs => i < vs.length ∧ j < vs.length
  | .push_back i _, vs => i < vs.length
  | .pop_back i, vs => i < vs.length ∧ 0 < size (object vs i)
  | .reserve i _, vs => i < vs.length
  | .shrink_to_fit i, vs => i < vs.length
  | .clear i, vs => i < vs.length
  | .swap i j, vs => i < vs.length ∧ j < vs.length
  | .insert i k _, vs => i < vs.length ∧ k ≤ size (object vs i)
  | .erase i k, vs => i < vs.length ∧ k < size (object vs i)
  | .erase_range i k l, vs => i < vs.length ∧ k ≤ l ∧ l ≤ size (object vs i)

/-- The memory and the objects after a call, whether it returned or threw.
A copy construction that throws adds no object; copy assignment of an object
to itself is the case `this == &other`. -/
def Call.run : Call T → Memory T → List vector → Memory T × List vector
  | .default_construct, m, vs => (m, vs ++ [vector.default])
  | .copy_construct j, m, vs =>
    match copy_constructor m (object vs j) with
    | ⟨m1, c, .returned _⟩ => (m1, vs ++ [c])
    | ⟨m1, _, .threw _⟩ => (m1, vs)
  | .copy_assign i j, m, vs =>
    ((cpp_vector.copy_assign m (object vs i) (if i = j then none else some (object vs j))).mem,
      vs.set i
        (cpp_vector.copy_assign m (object vs i) (if i = j then none else some (object vs j))).self)
  | .push_back i x, m, vs =>
    ((cpp_vector.push_back m (object vs i) x).mem,
      vs.set i (cpp_vector.push_back m (object vs i) x).self)
  | .pop_back i, m, vs =>
    ((cpp_vector.pop_back m (object vs i)).mem, vs.set i (cpp_vector.pop_back m (object vs i)).self)
  | .reserve i n, m, vs =>
    ((cpp_vector.reserve m (object vs i) n).mem,
      vs.set i (cpp_vector.reserve m (object vs i) n).self)
  | .shrink_to_fit i, m, vs =>
    ((cpp_vector.shrink_to_fit m (object vs i)).mem,
      vs.set i (cpp_vector.shrink_to_fit m (object vs i)).self)
  | .clear i, m, vs =>
    ((cpp_vector.clear m (object vs i)).mem, vs.set i (cpp_vector.clear m (object vs i)).self)
  | .swap i j, m, vs =>
    (m, (vs.set i (cpp_vector.swap (object vs i) (object vs j)).1).set j
      (cpp_vector.swap (object vs i) (object vs j)).2)
  | .insert i k x, m, vs =>
    ((cpp_vector.insert m (object vs i) ((begin (object vs i)).add k) x).mem,
      vs.set i (cpp_vector.insert m (object vs i) ((begin (object vs i)).add k) x).self)
  | .erase i k, m, vs =>
    ((cpp_vector.erase m (object vs i) ((begin (object vs i)).add k)).mem,
      vs.set i (cpp_vector.erase m (object vs i) ((begin (object vs i)).add k)).self)
  | .erase_range i k l, m, vs =>
    ((cpp_vector.erase_range m (object vs i) ((begin (object vs i)).add k)
        ((begin (object vs i)).add l)).mem,
      vs.set i (cpp_vector.erase_range m (object vs i) ((begin (object vs i)).add k)
        ((begin (object vs i)).add l)).self)

/-- The states a program reaches: it starts in any memory, with any failure
schedule, owning one default-constructed vector, and makes public calls
within their preconditions. -/
inductive Reachable : Memory T → List vector → Prop where
  | start (m : Memory T) : Reachable m [vector.default]
  | step (c : Call T) (m : Memory T) (vs : List vector) :
      Reachable m vs → c.pre vs → Reachable (c.run m vs).1 (c.run m vs).2

/-- A short program run in which the second copy constructor call throws:
from one default-constructed vector, `push_back(7)` returns, `push_back(8)`
throws while growing, and the vector is then copy-constructed. -/
def sample_program : Memory Nat × List vector :=
  Call.run (Call.copy_construct 0)
    (Call.run (Call.push_back 0 8)
      (Call.run (Call.push_back 0 7) ((Memory.quiet Nat).with_copy_failure 2)
        [vector.default]).1
      (Call.run (Call.push_back 0 7) ((Memory.quiet Nat).with_copy_failure 2)
        [vector.default]).2).1
    (Call.run (Call.push_back 0 8)
      (Call.run (Call.push_back 0 7) ((Memory.quiet Nat).with_copy_failure 2)
        [vector.default]).1
      (Call.run (Call.push_back 0 7) ((Memory.quiet Nat).with_copy_failure 2)
        [vector.default]).2).2

/-- The memory `m` in an environment where no call throws. -/
def Memory.quieted (m : Memory T) : Memory T :=
  { m with copy_throws := fun _ => false, new_throws := fun _ => false }

/-! ## The byte count of an allocation, and arguments passed by reference

The functions above take the capacity of a new buffer as the number of slots
obtained, and the appended value as a value.  That is what lines 60-61 and
196-197 give when the byte count `new_cap * sizeof(T)` does not wrap in
`size_t`, and what `T const& value` gives when the referent is not an element
of the vector itself.  The functions below make neither assumption: the byte
count is computed modulo `2 ^ 64`, and the argument is a reference that is
read where the source reads it. -/

/-- The number of whole elements in the block requested by
`operator new (new_cap * sizeof(T))` (lines 61, 197): the multiplication is
done in `size_t`, modulo `2 ^ 64`. -/
def allocated_slots (sizeof_T new_cap : Nat) : Nat :=
  (new_cap * sizeof_T % 2 ^ 64) / sizeof_T

/-- The expression `new_cap == 0 ? nullptr : operator new (new_cap * sizeof(T))`
(lines 60-61, 196-197), with the byte count computed in `size_t`. -/
def new_storage_exact (sizeof_T : Nat) (m : Memory T) (new_cap : Nat) : Memory T × Option Ptr :=
  if new_cap = 0 then (m, some nullptr) else operator_new m (allocated_slots sizeof_T new_cap)

/-- The private `change_capacity` (lines 59-77), with the byte count computed in `size_t`. -/
def change_capacity_exact (sizeof_T : Nat) (m : Memory T) (v : vector) (new_cap : Nat) :
    Result T Unit :=
  match new_storage_exact sizeof_T m new_cap with
  | (m1, none) => ⟨m1, v, .threw .bad_alloc⟩
  | (m1, some new_data) =>
    match copy_elements v.data_ new_data v.size_ 0 m1 with
    | (m2, false) => ⟨m2, v, .threw .copy_failed⟩
    | (m2, true) =>
      ⟨operator_delete (destroy_elements m2 v) v.data_,
        { v with data_ := new_data, capacity_ := new_cap }, .returned ()⟩

/-- The member `shrink_to_fit` (lines 225-230), with the byte count computed in `size_t`. -/
def shrink_to_fit_exact (sizeof_T : Nat) (m : Memory T) (v : vector) : Result T Unit :=
  if size v < capacity v then change_capacity_exact sizeof_T m v (size v)
  else ⟨m, v, .returned ()⟩

/-- An argument of type `T const&`: a reference to an object that is not in
the free store, or to the slot `*p` of the free store. -/
inductive Ref (T : Type) where
  | object (x : T)
  | element (p : Ptr)

/-- The value read through a reference, in the memory at the time of the read. -/
def Memory.deref (m : Memory T) : Ref T → Option T
  | .object x => some x
  | .element p => m.read p

/-- The private `change_cap_push_back` (lines 194-223), with the byte count
computed in `size_t` and `value` read through the reference at line 210. -/
def change_cap_push_back_exact (sizeof_T : Nat) (m : Memory T) (v : vector) (new_cap : Nat)
    (value : Ref T) : Result T Unit :=
  match new_storage_exact sizeof_T m new_cap with
  | (m1, none) => ⟨m1, v, .threw .bad_alloc⟩
  | (m1, some new_data) =>
    match copy_elements v.data_ new_data v.size_ 0 m1 with
    | (m2, false) => ⟨m2, v, .threw .copy_failed⟩
    | (m2, true) =>
      match construct m2 (new_data.add v.size_) (m2.deref value) with
      | (m3, false) =>
        ⟨operator_delete (destroy_down new_data (size v) m3) new_data, v, .threw .copy_failed⟩
      | (m3, true) =>
        ⟨operator_delete (destroy_elements m3 v) v.data_,
          { data_ := new_data, size_ := v.size_ + 1, capacity_ := new_cap }, .returned ()⟩

/-- The unfused sequence `change_capacity(new_cap)` followed by
`push_back_without_extend_checking(value)`, with the byte count computed in
`size_t` and `value` read through the reference at line 82, after
`change_capacity` has run. -/
def change_capacity_then_push_back_exact (sizeof_T : Nat) (m : Memory T) (v : vector)
    (new_cap : Nat) (value : Ref T) : Result T Unit :=
  match change_capacity_exact sizeof_T m v new_cap with
  | ⟨m1, v1, .threw f⟩ => ⟨m1, v1, .threw f⟩
  | ⟨m1, v1, .returned _⟩ => push_back_without_extend_checking m1 v1 (m1.deref value)


/-! ## Lists of slots -/

theorem set_length_append_cons {α : Type} (l : List α) (y x : α) (r : List α) :
    (l ++ y :: r).set l.length x = l ++ x :: r := by
  induction l with
  | nil => rfl
  | cons h t ih => simp [ih]

theorem layout_length (a : List T) (cap : Nat) (h : a.length ≤ cap) :
    (layout a cap).length = cap := by
  simp [layout]; omega

theorem layout_snoc (a : List T) (x : T) (cap : Nat) (h : a.length < cap) :
    (layout a cap).set a.length (some x) = layout (a ++ [x]) cap := by
  unfold layout
  obtain ⟨k, hk⟩ : ∃ k, cap - a.length = k + 1 := ⟨cap - a.length - 1, by omega⟩
  have hk2 : cap - (a ++ [x]).length = k := by simp; omega
  rw [hk, hk2, List.replicate_succ]
  have := set_length_append_cons (a.map some) none (some x) (List.replicate k none)
  simp at this
  simp [this]

theorem layout_unsnoc (a : List T) (x : T) (cap : Nat) (h : a.length < cap) :
    (layout (a ++ [x]) cap).set a.length none = layout a cap := by
  unfold layout
  obtain ⟨k, hk⟩ : ∃ k, cap - a.length = k + 1 := ⟨cap - a.length - 1, by omega⟩
  have hk2 : cap - (a ++ [x]).length = k := by simp; omega
  rw [hk, hk2, List.replicate_succ]
  have := set_length_append_cons (a.map some) (some x) none (List.replicate k none)
  simp at this
  simp [this]

theorem layout_getElem? (a : List T) (cap i : Nat) (h : i < a.length) :
    (layout a cap)[i]? = some (some (a.get ⟨i, h⟩)) := by
  unfold layout
  rw [List.getElem?_append_left (by simpa using h)]
  simp [List.getElem?_eq_getElem h]

theorem layout_getElem?_raw (a : List T) (cap i : Nat) (h : a.length ≤ i) (h2 : i < cap) :
    (layout a cap)[i]? = some none := by
  unfold layout
  rw [List.getElem?_append_right (by simpa using h)]
  simp [List.getElem?_replicate]; omega

/-! ## The storage primitives on a live block -/

theorem heap_store_live (h : List (Option (List (Option T)))) (b i : Nat)
    (buf : List (Option T)) (s : Option T) (hb : h[b]? = some (some buf)) :
    heap_store h ⟨some b, i⟩ s = h.set b (some (buf.set i s)) := by
  simp [heap_store, hb]

theorem heap_read_live (h : List (Option (List (Option T)))) (b i : Nat)
    (buf : List (Option T)) (hb : h[b]? = some (some buf)) :
    heap_read h ⟨some b, i⟩ = (buf[i]?).join := by
  simp [heap_read, hb]

theorem getElem?_set_self_of_live {α : Type} (h : List α) (b : Nat) (x y : α)
    (hb : h[b]? = some x) : (h.set b y)[b]? = some y := by
  have : b < h.length := by
    by_contra hc
    rw [List.getElem?_eq_none (by omega)] at hb
    cases hb
  simp [List.getElem?_set, this]

theorem heap_store_other (h : List (Option (List (Option T)))) (p : Ptr) (s : Option T)
    (c : Nat) (hc : p.block ≠ some c) : (heap_store h p s)[c]? = h[c]? := by
  unfold heap_store
  split
  · rfl
  · rename_i b hb
    split
    · rw [List.getElem?_set_ne]
      intro e; apply hc; rw [hb, e]
    · rfl

theorem heap_store_length (h : List (Option (List (Option T)))) (p : Ptr) (s : Option T) :
    (heap_store h p s).length = h.length := by
  unfold heap_store
  split
  · rfl
  · split
    · simp
    · rfl

/-! ## What no call changes: the schedules, and the blocks of other objects -/

theorem Continues.refl (m : Memory T) : Continues m m := ⟨rfl, rfl, Nat.le_refl _⟩

theorem Continues.trans {m n k : Memory T} (h1 : Continues m n) (h2 : Continues n k) :
    Continues m k := ⟨h2.1.trans h1.1, h2.2.1.trans h1.2.1, Nat.le_trans h1.2.2 h2.2.2⟩

theorem NoFail.of_same {m n : Memory T} (h : NoFail m) (hs : Continues m n) : NoFail n := by
  intro k
  rw [hs.1, hs.2.1]
  exact h k

theorem Keeps.same (c : Nat) (m : Memory T) : Keeps c m m := fun h => ⟨h, rfl⟩

theorem Keeps.andThen {c : Nat} {m n k : Memory T} (h1 : Keeps c m n) (h2 : Keeps c n k) :
    Keeps c m k := fun h =>
  ⟨(h2 (h1 h).1).1, ((h2 (h1 h).1).2).trans (h1 h).2⟩

theorem store_same (m : Memory T) (p : Ptr) (s : Option T) : Continues m (m.store p s) :=
  ⟨rfl, rfl, Nat.le_of_eq (heap_store_length m.heap p s).symm⟩

theorem store_keeps (m : Memory T) (p : Ptr) (s : Option T) (c : Nat) (hc : p.block ≠ some c) :
    Keeps c m (m.store p s) := fun h =>
  ⟨by simpa [Memory.store, heap_store_length] using h, heap_store_other m.heap p s c hc⟩

theorem destroy_same (m : Memory T) (p : Ptr) : Continues m (destroy m p) :=
  store_same m p none

theorem destroy_keeps (m : Memory T) (p : Ptr) (c : Nat) (hc : p.block ≠ some c) :
    Keeps c m (destroy m p) := store_keeps m p none c hc

theorem swap_elements_same (m : Memory T) (p q : Ptr) : Continues m (swap_elements m p q) :=
  (store_same m p _).trans (store_same _ q _)

theorem swap_elements_keeps (m : Memory T) (p q : Ptr) (c : Nat) (hp : p.block ≠ some c)
    (hq : q.block ≠ some c) : Keeps c m (swap_elements m p q) :=
  (store_keeps m p _ c hp).andThen (store_keeps _ q _ c hq)

theorem operator_delete_same (m : Memory T) (p : Ptr) : Continues m (operator_delete m p) := by
  unfold operator_delete
  split
  · exact Continues.refl m
  · exact ⟨rfl, rfl, by simp [Memory.log]⟩

theorem operator_delete_keeps (m : Memory T) (p : Ptr) (c : Nat) (hc : p.block ≠ some c) :
    Keeps c m (operator_delete m p) := by
  intro h
  unfold operator_delete
  split
  · exact ⟨h, rfl⟩
  · rename_i b hb
    have : b ≠ c := by intro e; apply hc; rw [hb, e]
    simp [Memory.log, List.getElem?_set_ne this, h]

theorem operator_new_same (m : Memory T) (n : Nat) : Continues m (operator_new m n).1 := by
  unfold operator_new
  split
  · exact ⟨rfl, rfl, Nat.le_refl _⟩
  · exact ⟨rfl, rfl, by simp [Memory.log]⟩

theorem operator_new_keeps (m : Memory T) (n : Nat) (c : Nat) :
    Keeps c m (operator_new m n).1 := by
  intro h
  unfold operator_new
  split
  · exact ⟨h, rfl⟩
  · simp [Memory.log, List.getElem?_append_left h]
    omega

theorem operator_new_fresh (m : Memory T) (n : Nat) (p : Ptr) (c : Nat)
    (h : (operator_new m n).2 = some p) (hc : c < m.heap.length) : p.block ≠ some c := by
  unfold operator_new at h
  split at h
  · cases h
  · simp at h
    subst h
    simp
    omega

theorem construct_same (m : Memory T) (p : Ptr) (x : Option T) :
    Continues m (construct m p x).1 := by
  unfold construct
  split
  · exact ⟨rfl, rfl, Nat.le_refl _⟩
  · exact store_same { m with copies := m.copies + 1 } p x

theorem construct_keeps (m : Memory T) (p : Ptr) (x : Option T) (c : Nat)
    (hc : p.block ≠ some c) : Keeps c m (construct m p x).1 := by
  unfold construct
  split
  · exact fun h => ⟨h, rfl⟩
  · exact store_keeps { m with copies := m.copies + 1 } p x c hc

theorem destroy_down_same (p : Ptr) : ∀ (j : Nat) (m : Memory T),
    Continues m (destroy_down p j m) := by
  intro j
  induction j with
  | zero => intro m; exact Continues.refl m
  | succ j ih => intro m; exact (destroy_same m _).trans (ih _)

theorem destroy_down_keeps (p : Ptr) (c : Nat) (hc : p.block ≠ some c) :
    ∀ (j : Nat) (m : Memory T), Keeps c m (destroy_down p j m) := by
  intro j
  induction j with
  | zero => intro m; exact Keeps.same c m
  | succ j ih => intro m; exact (destroy_keeps m (p.add j) c hc).andThen (ih _)

theorem copy_elements_same (src dst : Ptr) : ∀ (n i : Nat) (m : Memory T),
    Continues m (copy_elements src dst n i m).1 := by
  intro n
  induction n with
  | zero => intro i m; exact Continues.refl m
  | succ n ih =>
    intro i m
    have hc := construct_same m (dst.add i) (m.read (src.add i))
    unfold copy_elements
    split
    · rename_i m1 he
      rw [he] at hc
      exact hc.trans (ih _ _)
    · rename_i m1 he
      rw [he] at hc
      exact hc.trans ((destroy_down_same dst i m1).trans (operator_delete_same _ dst))

theorem copy_elements_keeps (src dst : Ptr) (c : Nat) (hc : dst.block ≠ some c) :
    ∀ (n i : Nat) (m : Memory T), Keeps c m (copy_elements src dst n i m).1 := by
  intro n
  induction n with
  | zero => intro i m; exact Keeps.same c m
  | succ n ih =>
    intro i m
    have hk := construct_keeps m (dst.add i) (m.read (src.add i)) c hc
    unfold copy_elements
    split
    · rename_i m1 he
      rw [he] at hk
      exact hk.andThen (ih _ _)
    · rename_i m1 he
      rw [he] at hk
      exact hk.andThen ((destroy_down_keeps dst c hc i m1).andThen (operator_delete_keeps _ dst c hc))

/-! ## Construction, destruction and the copy loop on live blocks -/

theorem construct_returns (m : Memory T) (p : Ptr) (x : Option T)
    (h : m.copy_throws (m.copies + 1) = false) :
    construct m p x = ((({ m with copies := m.copies + 1 } : Memory T).store p x).log (.construct p), true) := by
  simp [construct, h]

theorem construct_throws (m : Memory T) (p : Ptr) (x : Option T)
    (h : m.copy_throws (m.copies + 1) = true) :
    construct m p x = ({ m with copies := m.copies + 1 }, false) := by
  simp [construct, h]

theorem construct_copies (m : Memory T) (p : Ptr) (x : Option T) :
    (construct m p x).1.copies = m.copies + 1 := by
  unfold construct
  split <;> rfl

theorem construct_block (m : Memory T) (b i : Nat) (x : Option T) (buf : List (Option T))
    (h : m.copy_throws (m.copies + 1) = false) (hb : m.heap[b]? = some (some buf)) :
    (construct m ⟨some b, i⟩ x).1.heap[b]? = some (some (buf.set i x)) := by
  rw [construct_returns m _ x h]
  show (heap_store m.heap ⟨some b, i⟩ x)[b]? = _
  rw [heap_store_live m.heap b i buf x hb]
  exact getElem?_set_self_of_live _ _ _ _ hb

theorem destroy_block (m : Memory T) (b i : Nat) (buf : List (Option T))
    (hb : m.heap[b]? = some (some buf)) :
    (destroy m ⟨some b, i⟩).heap[b]? = some (some (buf.set i none)) := by
  show (heap_store m.heap ⟨some b, i⟩ none)[b]? = _
  rw [heap_store_live m.heap b i buf none hb]
  exact getElem?_set_self_of_live _ _ _ _ hb

theorem destroy_down_block (b cap : Nat) : ∀ (a : List T) (m : Memory T),
    a.length ≤ cap → m.heap[b]? = some (some (layout a cap)) →
    (destroy_down ⟨some b, 0⟩ a.length m).heap[b]? = some (some (layout [] cap)) := by
  intro a
  induction a using List.reverseRecOn with
  | nil => intro m _ hb; exact hb
  | append_singleton a x ih =>
    intro m hl hb
    have hl2 : a.length < cap := by simp at hl; omega
    have e : (a ++ [x]).length = a.length + 1 := by simp
    rw [e, destroy_down]
    apply ih _ (by omega)
    have := destroy_block m b a.length _ hb
    rw [layout_unsnoc a x cap hl2] at this
    simpa [Ptr.add] using this

theorem read_layout (m : Memory T) (b cap i : Nat) (a : List T) (h : i < a.length)
    (hb : m.heap[b]? = some (some (layout a cap))) :
    m.read ⟨some b, i⟩ = some (a.get ⟨i, h⟩) := by
  show heap_read m.heap ⟨some b, i⟩ = _
  rw [heap_read_live m.heap b i _ hb, layout_getElem? a cap i h]
  rfl

theorem read_layout_raw (m : Memory T) (b cap i : Nat) (a : List T) (h : a.length ≤ i)
    (hb : m.heap[b]? = some (some (layout a cap))) :
    m.read ⟨some b, i⟩ = none := by
  show heap_read m.heap ⟨some b, i⟩ = _
  rw [heap_read_live m.heap b i _ hb]
  by_cases h2 : i < cap
  · rw [layout_getElem?_raw a cap i h h2]; rfl
  · rw [List.getElem?_eq_none]
    · rfl
    · simp [layout]; omega

theorem take_succ_get (a : List T) (i : Nat) (h : i < a.length) :
    a.take (i + 1) = a.take i ++ [a.get ⟨i, h⟩] := by
  rw [List.take_succ, List.getElem?_eq_getElem h]
  rfl

theorem copy_elements_returns (src dst : Ptr) : ∀ (n i : Nat) (m : Memory T),
    (∀ j, 1 ≤ j → j ≤ n → m.copy_throws (m.copies + j) = false) →
    (copy_elements src dst n i m).2 = true ∧ (copy_elements src dst n i m).1.copies = m.copies + n := by
  intro n
  induction n with
  | zero => intro i m _; exact ⟨rfl, rfl⟩
  | succ n ih =>
    intro i m h
    have h1 := h 1 (by omega) (by omega)
    rw [copy_elements, construct_returns m _ _ h1]
    simp only
    have := ih (i + 1) (((({ m with copies := m.copies + 1 } : Memory T).store (dst.add i)
      (m.read (src.add i))).log (.construct (dst.add i)))) (by
        intro j hj1 hj2
        have := h (j + 1) (by omega) (by omega)
        simpa [Memory.log, Memory.store, Nat.add_assoc, Nat.add_comm 1 j] using this)
    refine ⟨this.1, ?_⟩
    rw [this.2]
    simp [Memory.log, Memory.store]
    omega

theorem copy_elements_throws (src dst : Ptr) : ∀ (n i : Nat) (m : Memory T) (k : Nat),
    1 ≤ k → k ≤ n → (∀ j, 1 ≤ j → j < k → m.copy_throws (m.copies + j) = false) →
    m.copy_throws (m.copies + k) = true →
    (copy_elements src dst n i m).2 = false := by
  intro n
  induction n with
  | zero => intro i m k h1 h2; omega
  | succ n ih =>
    intro i m k hk1 hk2 h hk
    by_cases h1 : m.copy_throws (m.copies + 1) = true
    · rw [copy_elements, construct_throws m _ _ h1]
    · have h1 : m.copy_throws (m.copies + 1) = false := by simpa using h1
      have hk3 : 2 ≤ k := by
        by_contra hc
        have : k = 1 := by omega
        subst this
        rw [h1] at hk
        cases hk
      rw [copy_elements, construct_returns m _ _ h1]
      simp only
      apply ih (i + 1) _ (k - 1) (by omega) (by omega)
      · intro j hj1 hj2
        have := h (j + 1) (by omega) (by omega)
        simpa [Memory.log, Memory.store, Nat.add_assoc, Nat.add_comm 1 j] using this
      · have e : m.copies + 1 + (k - 1) = m.copies + k := by omega
        simpa [Memory.log, Memory.store, e] using hk

theorem copy_elements_block (b d cap ncap : Nat) (a : List T) (hbd : d ≠ b)
    (hcap : a.length ≤ ncap) : ∀ (n i : Nat) (m : Memory T),
    i + n = a.length → NoFail m →
    m.heap[b]? = some (some (layout a cap)) →
    m.heap[d]? = some (some (layout (a.take i) ncap)) →
    (copy_elements ⟨some b, 0⟩ ⟨some d, 0⟩ n i m).1.heap[d]? = some (some (layout a ncap)) := by
  intro n
  induction n with
  | zero =>
    intro i m hi _ _ hd
    have : a.take i = a := List.take_of_length_le (by omega)
    rw [this] at hd
    exact hd
  | succ n ih =>
    intro i m hi hnf hb hd
    have hia : i < a.length := by omega
    have h1 := (hnf (m.copies + 1)).1
    have hk := construct_keeps m ⟨some d, 0 + i⟩ (m.read ⟨some b, 0 + i⟩) b (by simpa using hbd)
    have hs := construct_same m ⟨some d, 0 + i⟩ (m.read ⟨some b, 0 + i⟩)
    have hblk := construct_block m d (0 + i) (m.read ⟨some b, 0 + i⟩) _ h1 hd
    have hbl : b < m.heap.length := by
      by_contra hc
      rw [List.getElem?_eq_none (by omega)] at hb
      cases hb
    rw [copy_elements]
    simp only [Ptr.add]
    rw [construct_returns m _ _ h1] at hk hs hblk ⊢
    simp only at hk hs hblk ⊢
    apply ih (i + 1) _ (by omega) (hnf.of_same hs)
    · rw [(hk hbl).2]; exact hb
    · rw [hblk, Nat.zero_add, read_layout m b cap i a hia hb, take_succ_get a i hia]
      have hl : (a.take i).length = i := by simp; omega
      have := layout_snoc (a.take i) (a.get ⟨i, hia⟩) ncap (by omega)
      rw [hl] at this
      rw [this]

/-! ## Well-formed vectors -/

theorem lt_length_of_getElem? {α : Type} (h : List α) (b : Nat) (x : α) (hb : h[b]? = some x) :
    b < h.length := by
  by_contra hc
  rw [List.getElem?_eq_none (by omega)] at hb
  cases hb

theorem Holds.of_null {m : Memory T} {v : vector} {a : List T} (h : Holds m v a)
    (hb : v.data_.block = none) : a = [] ∧ v.size_ = 0 ∧ v.capacity_ = 0 := by
  obtain ⟨h1, h2, _, h4⟩ := h
  rw [hb] at h4
  simp only at h4
  have : a.length = 0 := by omega
  exact ⟨List.length_eq_zero.mp this, by omega, h4⟩

theorem Holds.of_live {m : Memory T} {v : vector} {a : List T} (h : Holds m v a) {b : Nat}
    (hb : v.data_.block = some b) :
    v.data_ = ⟨some b, 0⟩ ∧ 0 < v.capacity_ ∧ m.heap[b]? = some (some (layout a v.capacity_)) := by
  obtain ⟨_, _, h3, h4⟩ := h
  rw [hb] at h4
  refine ⟨?_, h4.1, h4.2⟩
  cases hd : v.data_ with
  | mk blk off =>
    rw [hd] at hb h3
    simp only at hb h3
    rw [hb, h3]

theorem Holds.live {m : Memory T} {v : vector} {a : List T} (b : Nat)
    (h1 : v.data_ = ⟨some b, 0⟩) (h2 : v.size_ = a.length) (h3 : a.length ≤ v.capacity_)
    (h4 : 0 < v.capacity_) (h5 : m.heap[b]? = some (some (layout a v.capacity_))) :
    Holds m v a := by
  refine ⟨h2, h3, by rw [h1], ?_⟩
  rw [h1]
  exact ⟨h4, h5⟩

theorem Holds.keeps {m n : Memory T} {v : vector} {a : List T} (h : Holds m v a)
    (hk : ∀ c, v.data_.block = some c → Keeps c m n) : Holds n v a := by
  cases hb : v.data_.block with
  | none =>
    obtain ⟨h1, h2, h3, h4⟩ := h
    refine ⟨h1, h2, h3, ?_⟩
    rw [hb] at h4 ⊢
    exact h4
  | some b =>
    obtain ⟨e, hc, hh⟩ := h.of_live hb
    exact Holds.live b e h.1 h.2.1 hc (by
      rw [((hk b hb) (lt_length_of_getElem? _ _ _ hh)).2]; exact hh)

theorem Holds.size_eq {m : Memory T} {v : vector} {a : List T} (h : Holds m v a) :
    size v = a.length := h.1

theorem Holds.read {m : Memory T} {v : vector} {a : List T} (h : Holds m v a) (i : Nat)
    (hi : i < a.length) : m.read (index v i) = some (a.get ⟨i, hi⟩) := by
  cases hb : v.data_.block with
  | none =>
    have := (h.of_null hb).1
    subst this
    simp at hi
  | some b =>
    obtain ⟨e, _, hh⟩ := h.of_live hb
    unfold index
    rw [e]
    simp only [Ptr.add, Nat.zero_add]
    exact read_layout m b _ i a hi hh

theorem Holds.elements_eq {m : Memory T} {v : vector} {a : List T} (h : Holds m v a) :
    elements m v = a.map some := by
  apply List.ext_getElem?
  intro i
  unfold elements
  rw [h.size_eq]
  by_cases hi : i < a.length
  · simp [List.getElem?_eq_getElem, hi, h.read i hi]
  · have e : a[i]? = none := List.getElem?_eq_none (by omega)
    simp [hi, e]
    omega

theorem Holds.default (m : Memory T) : Holds m vector.default ([] : List T) := by
  refine ⟨rfl, Nat.le_refl _, rfl, ?_⟩
  show (0 : Nat) = 0
  rfl

theorem Holds.block_lt {m : Memory T} {v : vector} {a : List T} (h : Holds m v a) {b : Nat}
    (hb : v.data_.block = some b) : b < m.heap.length :=
  lt_length_of_getElem? _ _ _ (h.of_live hb).2.2

theorem operator_new_returns (m : Memory T) (n : Nat) (h : m.new_throws (m.news + 1) = false) :
    (operator_new m n).2 = some ⟨some m.heap.length, 0⟩ ∧
    (operator_new m n).1.heap = m.heap ++ [some (List.replicate n none)] := by
  simp [operator_new, h, Memory.log]

theorem operator_delete_block (m : Memory T) (b : Nat) (x : Option (List (Option T)))
    (hb : m.heap[b]? = some x) :
    (operator_delete m ⟨some b, 0⟩).heap[b]? = some none := by
  simp only [operator_delete, Memory.log]
  exact getElem?_set_self_of_live _ _ _ _ hb

/-! ## The growth path of `push_back` -/

theorem destroy_down_length (p : Ptr) : ∀ (j : Nat) (m : Memory T),
    (destroy_down p j m).heap.length = m.heap.length := by
  intro j
  induction j with
  | zero => intro m; rfl
  | succ j ih =>
    intro m
    rw [destroy_down, ih]
    exact heap_store_length _ _ _

theorem operator_delete_released (m : Memory T) (b : Nat) (hb : b < m.heap.length) :
    (operator_delete m ⟨some b, 0⟩).heap[b]? = some none := by
  simp [operator_delete, Memory.log, List.getElem?_set, hb]

theorem layout_nil (cap : Nat) : layout ([] : List T) cap = List.replicate cap none := by
  simp [layout]

theorem change_cap_push_back_holds (m : Memory T) (v : vector) (a : List T) (new_cap : Nat)
    (x : T) (hn : NoFail m) (h : Holds m v a) (hc : a.length < new_cap) :
    (change_cap_push_back m v new_cap x).ret = .returned () ∧
    (change_cap_push_back m v new_cap x).self = ⟨⟨some m.heap.length, 0⟩, a.length + 1, new_cap⟩ ∧
    Holds (change_cap_push_back m v new_cap x).mem (change_cap_push_back m v new_cap x).self
      (a ++ [x]) ∧
    (∀ b, v.data_.block = some b →
      (change_cap_push_back m v new_cap x).mem.heap[b]? = some none) := by
  have hne : new_cap ≠ 0 := by omega
  have hnew := operator_new_returns m new_cap (hn _).2
  have hs1 := operator_new_same m new_cap
  have hk1 := operator_new_keeps m new_cap
  unfold change_cap_push_back new_storage
  rw [if_neg hne]
  rcases e1 : operator_new m new_cap with ⟨m1, op⟩
  rw [e1] at hnew hs1 hk1
  obtain ⟨hop, hh1⟩ := hnew
  simp only at hop hh1 hs1 hk1
  subst hop
  simp only
  have hn1 : NoFail m1 := hn.of_same hs1
  have hd1 : m1.heap[m.heap.length]? = some (some (layout ([] : List T) new_cap)) := by
    rw [hh1, layout_nil]; simp
  have hvd : v.data_.block ≠ some m.heap.length := by
    intro e
    have := h.block_lt e
    omega
  -- the copy loop
  have hret := copy_elements_returns v.data_ ⟨some m.heap.length, 0⟩ v.size_ 0 m1
    (fun j _ _ => (hn1 _).1)
  have hs2 := copy_elements_same v.data_ ⟨some m.heap.length, 0⟩ v.size_ 0 m1
  have hk2 : ∀ c, c ≠ m.heap.length → Keeps c m1 (copy_elements v.data_ ⟨some m.heap.length, 0⟩ v.size_ 0 m1).1 :=
    fun c hc => copy_elements_keeps v.data_ ⟨some m.heap.length, 0⟩ c
      (by simpa using Ne.symm hc) v.size_ 0 m1
  have hd2 : (copy_elements v.data_ ⟨some m.heap.length, 0⟩ v.size_ 0 m1).1.heap[m.heap.length]? =
      some (some (layout a new_cap)) := by
    cases hb : v.data_.block with
    | none =>
      obtain ⟨ha, hsz, _⟩ := h.of_null hb
      rw [hsz, ha]
      exact hd1
    | some b =>
      obtain ⟨e, _, hh⟩ := h.of_live hb
      rw [e, h.1]
      have hbl := h.block_lt hb
      apply copy_elements_block b m.heap.length v.capacity_ new_cap a (by omega) (by omega)
        a.length 0 m1 (by omega) hn1
      · rw [((hk1 b) hbl).2]; exact hh
      · simpa using hd1
  rcases e2 : copy_elements v.data_ ⟨some m.heap.length, 0⟩ v.size_ 0 m1 with ⟨m2, ok⟩
  rw [e2] at hret hs2 hk2 hd2
  simp only at hret hs2 hk2 hd2
  obtain ⟨hok, _⟩ := hret
  subst hok
  simp only
  have hn2 : NoFail m2 := hn1.of_same hs2
  -- the new element
  have h3 := (hn2 (m2.copies + 1)).1
  have hk3 : ∀ c, c ≠ m.heap.length →
      Keeps c m2 (construct m2 ((⟨some m.heap.length, 0⟩ : Ptr).add v.size_) (some x)).1 :=
    fun c hc => construct_keeps m2 _ _ c (by simpa [Ptr.add] using Ne.symm hc)
  have hd3 := construct_block m2 m.heap.length (0 + v.size_) (some x) _ h3 hd2
  have ho3 : (construct m2 ((⟨some m.heap.length, 0⟩ : Ptr).add v.size_) (some x)).2 = true := by
    rw [construct_returns m2 _ _ h3]
  rw [h.1, Nat.zero_add, layout_snoc a x new_cap hc] at hd3
  rw [h.1] at hk3 ho3
  simp only [Ptr.add, Nat.zero_add] at hk3 ho3
  rw [h.1]
  simp only [Ptr.add, Nat.zero_add]
  rcases e3 : construct m2 ⟨some m.heap.length, a.length⟩ (some x) with ⟨m3, ok3⟩
  rw [e3] at hk3 hd3 ho3
  simp only at hk3 hd3 ho3
  subst ho3
  simp only
  -- the old buffer
  have hk4 : Keeps m.heap.length m3 (operator_delete (destroy_down v.data_ v.size_ m3) v.data_) :=
    (destroy_down_keeps v.data_ m.heap.length hvd v.size_ m3).andThen
      (operator_delete_keeps _ v.data_ m.heap.length hvd)
  refine ⟨trivial, trivial, ?_, ?_⟩
  · apply Holds.live m.heap.length rfl (by simp) (by simp; omega) (by show 0 < new_cap; omega)
    have hl := lt_length_of_getElem? _ _ _ hd3
    unfold destroy_elements
    rw [(hk4 hl).2]
    exact hd3
  · intro b hb
    obtain ⟨e, _, hh⟩ := h.of_live hb
    have hbl := h.block_lt hb
    have hbd : b ≠ m.heap.length := by omega
    have l1 := ((hk1 b) hbl).1
    have l2 := ((hk2 b hbd) l1).1
    have l3 := ((hk3 b hbd) l2).1
    unfold destroy_elements
    rw [e]
    apply operator_delete_released
    rw [destroy_down_length]
    exact l3

/-! ## Frames of the member functions -/

theorem new_storage_same (m : Memory T) (n : Nat) : Continues m (new_storage m n).1 := by
  unfold new_storage
  split
  · exact Continues.refl m
  · exact operator_new_same m n

theorem new_storage_keeps (m : Memory T) (n c : Nat) : Keeps c m (new_storage m n).1 := by
  unfold new_storage
  split
  · exact Keeps.same c m
  · exact operator_new_keeps m n c

theorem new_storage_fresh (m : Memory T) (n : Nat) (p : Ptr) (c : Nat)
    (h : (new_storage m n).2 = some p) (hc : c < m.heap.length) : p.block ≠ some c := by
  unfold new_storage at h
  split at h
  · simp at h
    subst h
    simp [nullptr]
  · exact operator_new_fresh m n p c h hc

theorem Frame.of_keeps {α : Type} {v : vector} {m : Memory T} {r : Result T α}
    (hs : Continues m r.mem) (hk : ∀ c, v.data_.block ≠ some c → Keeps c m r.mem)
    (hd : ∀ c, c < m.heap.length → v.data_.block ≠ some c → r.self.data_.block ≠ some c) :
    Frame v m r :=
  ⟨hs, fun c hc hv => ⟨(hk c hv hc).1, (hk c hv hc).2, hd c hc hv⟩⟩

theorem change_capacity_frame (m : Memory T) (v : vector) (new_cap : Nat) :
    Frame v m (change_capacity m v new_cap) := by
  have hs1 := new_storage_same m new_cap
  have hk1 := new_storage_keeps m new_cap
  have hf1 := new_storage_fresh m new_cap
  unfold change_capacity
  rcases e1 : new_storage m new_cap with ⟨m1, op⟩
  rw [e1] at hs1 hk1 hf1
  simp only at hs1 hk1 hf1
  cases op with
  | none => exact Frame.of_keeps hs1 (fun c _ => hk1 c) (fun _ _ hv => hv)
  | some new_data =>
    simp only
    have hs2 := copy_elements_same v.data_ new_data v.size_ 0 m1
    have hk2 := fun c hc => copy_elements_keeps v.data_ new_data c hc v.size_ 0 m1
    rcases e2 : copy_elements v.data_ new_data v.size_ 0 m1 with ⟨m2, ok⟩
    rw [e2] at hs2 hk2
    simp only at hs2 hk2
    have hk12 : ∀ c, Keeps c m m2 := by
      intro c hc
      exact ((hk1 c).andThen (hk2 c (hf1 new_data c rfl hc))) hc
    cases ok with
    | false => exact Frame.of_keeps (hs1.trans hs2) (fun c _ => hk12 c) (fun _ _ hv => hv)
    | true =>
      simp only
      refine Frame.of_keeps ?_ ?_ ?_
      · exact (hs1.trans hs2).trans
          ((destroy_down_same v.data_ v.size_ m2).trans (operator_delete_same _ v.data_))
      · intro c hv
        exact (hk12 c).andThen ((destroy_down_keeps v.data_ c hv v.size_ m2).andThen
          (operator_delete_keeps _ v.data_ c hv))
      · intro c hc _
        exact hf1 new_data c rfl hc

theorem change_cap_push_back_frame (m : Memory T) (v : vector) (new_cap : Nat) (x : T) :
    Frame v m (change_cap_push_back m v new_cap x) := by
  have hs1 := new_storage_same m new_cap
  have hk1 := new_storage_keeps m new_cap
  have hf1 := new_storage_fresh m new_cap
  unfold change_cap_push_back
  rcases e1 : new_storage m new_cap with ⟨m1, op⟩
  rw [e1] at hs1 hk1 hf1
  simp only at hs1 hk1 hf1
  cases op with
  | none => exact Frame.of_keeps hs1 (fun c _ => hk1 c) (fun _ _ hv => hv)
  | some new_data =>
    simp only
    have hs2 := copy_elements_same v.data_ new_data v.size_ 0 m1
    have hk2 := fun c hc => copy_elements_keeps v.data_ new_data c hc v.size_ 0 m1
    rcases e2 : copy_elements v.data_ new_data v.size_ 0 m1 with ⟨m2, ok⟩
    rw [e2] at hs2 hk2
    simp only at hs2 hk2
    have hk12 : ∀ c, Keeps c m m2 := by
      intro c hc
      exact ((hk1 c).andThen (hk2 c (hf1 new_data c rfl hc))) hc
    cases ok with
    | false => exact Frame.of_keeps (hs1.trans hs2) (fun c _ => hk12 c) (fun _ _ hv => hv)
    | true =>
      simp only
      have hs3 := construct_same m2 (new_data.add v.size_) (some x)
      have hk3 := fun c hc => construct_keeps m2 (new_data.add v.size_) (some x) c hc
      rcases e3 : construct m2 (new_data.add v.size_) (some x) with ⟨m3, ok3⟩
      rw [e3] at hs3 hk3
      simp only at hs3 hk3
      have hk13 : ∀ c, Keeps c m m3 := by
        intro c hc
        exact ((hk12 c).andThen (hk3 c (hf1 new_data c rfl hc))) hc
      cases ok3 with
      | false =>
        simp only
        refine Frame.of_keeps ?_ ?_ (fun _ _ hv => hv)
        · exact ((hs1.trans hs2).trans hs3).trans
            ((destroy_down_same new_data (size v) m3).trans (operator_delete_same _ new_data))
        · intro c _ hc
          have hn := hf1 new_data c rfl hc
          exact ((hk13 c).andThen ((destroy_down_keeps new_data c hn (size v) m3).andThen
            (operator_delete_keeps _ new_data c hn))) hc
      | true =>
        simp only
        refine Frame.of_keeps ?_ ?_ ?_
        · exact ((hs1.trans hs2).trans hs3).trans
            ((destroy_down_same v.data_ v.size_ m3).trans (operator_delete_same _ v.data_))
        · intro c hv
          exact (hk13 c).andThen ((destroy_down_keeps v.data_ c hv v.size_ m3).andThen
            (operator_delete_keeps _ v.data_ c hv))
        · intro c hc _
          exact hf1 new_data c rfl hc

theorem push_back_frame (m : Memory T) (v : vector) (x : T) :
    Frame v m (push_back m v x) := by
  unfold push_back
  split
  · exact change_cap_push_back_frame m v _ x
  · have hs := construct_same m (end_ v) (some x)
    have hk := fun c hc => construct_keeps m (end_ v) (some x) c hc
    rcases e : construct m (end_ v) (some x) with ⟨m1, ok⟩
    rw [e] at hs hk
    cases ok <;> exact Frame.of_keeps hs (fun c hv => hk c hv) (fun _ _ hv => hv)

theorem pop_back_frame (m : Memory T) (v : vector) : Frame v m (pop_back m v) :=
  Frame.of_keeps (destroy_same m _) (fun c hv => destroy_keeps m _ c hv) (fun _ _ hv => hv)

theorem reserve_frame (m : Memory T) (v : vector) (n : Nat) : Frame v m (reserve m v n) := by
  unfold reserve
  split
  · exact change_capacity_frame m v n
  · exact Frame.of_keeps (Continues.refl m) (fun c _ => Keeps.same c m) (fun _ _ hv => hv)

theorem shrink_to_fit_frame (m : Memory T) (v : vector) : Frame v m (shrink_to_fit m v) := by
  unfold shrink_to_fit
  split
  · exact change_capacity_frame m v _
  · exact Frame.of_keeps (Continues.refl m) (fun c _ => Keeps.same c m) (fun _ _ hv => hv)

theorem clear_frame (m : Memory T) (v : vector) : Frame v m (clear m v) :=
  Frame.of_keeps (destroy_down_same v.data_ v.size_ m)
    (fun c hv => destroy_down_keeps v.data_ c hv v.size_ m) (fun _ _ hv => hv)
/-! ## `push_back` -/

theorem push_back_holds (m : Memory T) (v : vector) (a : List T) (x : T)
    (hn : NoFail m) (h : Holds m v a) :
    (push_back m v x).ret = .returned () ∧
    Holds (push_back m v x).mem (push_back m v x).self (a ++ [x]) ∧
    (push_back m v x).self.capacity_ =
      (if v.size_ = v.capacity_ then (if v.capacity_ = 0 then 1 else v.capacity_ * 2)
        else v.capacity_) ∧
    (push_back m v x).self.data_ =
      (if v.size_ = v.capacity_ then ⟨some m.heap.length, 0⟩ else v.data_) := by
  unfold push_back size capacity
  by_cases hg : v.size_ = v.capacity_
  · rw [if_pos hg, if_pos hg, if_pos hg]
    have hc : a.length < (if v.capacity_ = 0 then 1 else v.capacity_ * 2) := by
      have := h.1
      split <;> omega
    obtain ⟨h1, h2, h3, _⟩ := change_cap_push_back_holds m v a _ x hn h hc
    refine ⟨h1, h3, ?_, ?_⟩ <;> rw [h2]
  · rw [if_neg hg, if_neg hg, if_neg hg]
    have hlt : a.length < v.capacity_ := by
      have := h.1
      have := h.2.1
      omega
    cases hb : v.data_.block with
    | none =>
      have := (h.of_null hb).2.2
      omega
    | some b =>
      obtain ⟨e, hcap, hh⟩ := h.of_live hb
      have h1 := (hn (m.copies + 1)).1
      have hblk := construct_block m b (0 + v.size_) (some x) _ h1 hh
      have hok : (construct m (end_ v) (some x)).2 = true := by
        rw [construct_returns m _ _ h1]
      unfold end_ at hok ⊢
      rw [e] at hok ⊢
      simp only [Ptr.add] at hok ⊢
      rcases ec : construct m ⟨some b, 0 + v.size_⟩ (some x) with ⟨m1, ok⟩
      rw [ec] at hok hblk
      simp only at hok hblk
      subst hok
      simp only
      refine ⟨trivial, ?_, trivial, trivial⟩
      refine Holds.live b rfl ?_ ?_ hcap ?_
      · simp [h.1]
      · simp; omega
      · rw [hblk, h.1, Nat.zero_add, layout_snoc a x _ hlt]

theorem push_all_holds (xs : List T) : ∀ (m : Memory T) (v : vector) (a : List T),
    NoFail m → Holds m v a →
    (push_all m v xs).ret = .returned () ∧ Holds (push_all m v xs).mem (push_all m v xs).self (a ++ xs) ∧
    NoFail (push_all m v xs).mem := by
  induction xs with
  | nil => intro m v a hn h; simpa [push_all] using ⟨h, hn⟩
  | cons x xs ih =>
    intro m v a hn h
    obtain ⟨h1, h2, _, _⟩ := push_back_holds m v a x hn h
    have hs := (push_back_frame m v x).1
    unfold push_all
    rcases e : push_back m v x with ⟨m1, v1, r⟩
    rw [e] at h1 h2 hs
    simp only at h1 h2 hs
    subst h1
    simp only
    have := ih m1 v1 (a ++ [x]) (hn.of_same hs) h2
    simpa using this

theorem Holds.read_front {m : Memory T} {v : vector} {a : List T} (h : Holds m v a)
    (hne : a ≠ []) : m.read (front v) = some (a.head hne) := by
  have hl : 0 < a.length := List.length_pos.mpr hne
  have := h.read 0 hl
  rw [show front v = index v 0 from rfl, this]
  cases a with
  | nil => exact absurd rfl hne
  | cons y ys => rfl

theorem Holds.read_back {m : Memory T} {v : vector} {a : List T} (h : Holds m v a)
    (hne : a ≠ []) : m.read (back v) = some (a.getLast hne) := by
  have hl : 0 < a.length := List.length_pos.mpr hne
  have := h.read (a.length - 1) (by omega)
  have e : back v = index v (a.length - 1) := by
    unfold back end_ index Ptr.sub Ptr.add
    rw [h.1, h.2.2.1]
    simp
  rw [e, this, List.getLast_eq_getElem]
  rfl

/-- C1: starting from a default-constructed vector and calling `push_back` on
each value of `xs` in order, with no copy or allocation failure, every call
returns, `size()` is the length of `xs`, `operator[](i)` is `xs[i]` for every
`i < size()`, and for non-empty `xs` `front()` is the first and `back()` the
last pushed value. -/
theorem push_back_sequence (m : Memory T) (xs : List T) (hn : NoFail m) :
    (push_all m vector.default xs).ret = .returned () ∧
    size (push_all m vector.default xs).self = xs.length ∧
    (∀ (i : Nat) (hi : i < xs.length),
      (push_all m vector.default xs).mem.read (index (push_all m vector.default xs).self i) =
        some (xs.get ⟨i, hi⟩)) ∧
    (∀ hne : xs ≠ [],
      (push_all m vector.default xs).mem.read (front (push_all m vector.default xs).self) =
        some (xs.head hne) ∧
      (push_all m vector.default xs).mem.read (back (push_all m vector.default xs).self) =
        some (xs.getLast hne)) := by
  obtain ⟨h1, h2, _⟩ := push_all_holds xs m vector.default [] hn (Holds.default m)
  rw [List.nil_append] at h2
  exact ⟨h1, h2.size_eq, fun i hi => h2.read i hi, fun hne => ⟨h2.read_front hne, h2.read_back hne⟩⟩

theorem NoFail.quiet (T : Type) : NoFail (Memory.quiet T) := fun _ => ⟨rfl, rfl⟩

theorem push_back_sequence_witness :
    NoFail (Memory.quiet Nat) ∧
    (push_all (Memory.quiet Nat) vector.default [1, 2, 3]).ret = .returned () ∧
    size (push_all (Memory.quiet Nat) vector.default [1, 2, 3]).self = 3 ∧
    (push_all (Memory.quiet Nat) vector.default [1, 2, 3]).mem.read
      (front (push_all (Memory.quiet Nat) vector.default [1, 2, 3]).self) = some 1 ∧
    (push_all (Memory.quiet Nat) vector.default [1, 2, 3]).mem.read
      (back (push_all (Memory.quiet Nat) vector.default [1, 2, 3]).self) = some 3 :=
  have h := push_back_sequence (Memory.quiet Nat) [1, 2, 3] (NoFail.quiet Nat)
  ⟨NoFail.quiet Nat, h.1, h.2.1, (h.2.2.2 (by decide)).1, (h.2.2.2 (by decide)).2⟩

/-! ## The strong guarantee of `push_back` -/

theorem construct_threw_keeps (m : Memory T) (p : Ptr) (x : Option T) (c : Nat)
    (h : (construct m p x).2 = false) : Keeps c m (construct m p x).1 := by
  unfold construct at h ⊢
  split
  · exact fun hc => ⟨hc, rfl⟩
  · rename_i hn
    rw [if_neg hn] at h
    cases h

theorem change_cap_push_back_threw_keeps (m : Memory T) (v : vector) (new_cap : Nat) (x : T)
    (f : Failure) (h : (change_cap_push_back m v new_cap x).ret = .threw f) :
    (change_cap_push_back m v new_cap x).self = v ∧
    ∀ c, Keeps c m (change_cap_push_back m v new_cap x).mem := by
  have hk1 := new_storage_keeps m new_cap
  have hf1 := new_storage_fresh m new_cap
  unfold change_cap_push_back at h ⊢
  rcases e1 : new_storage m new_cap with ⟨m1, op⟩
  rw [e1] at hk1 hf1 h
  simp only at hk1 hf1 h
  cases op with
  | none => exact ⟨rfl, hk1⟩
  | some new_data =>
    simp only at h ⊢
    have hk2 := fun c hc => copy_elements_keeps v.data_ new_data c hc v.size_ 0 m1
    rcases e2 : copy_elements v.data_ new_data v.size_ 0 m1 with ⟨m2, ok⟩
    rw [e2] at hk2 h
    simp only at hk2 h
    have hk12 : ∀ c, Keeps c m m2 := by
      intro c hc
      exact ((hk1 c).andThen (hk2 c (hf1 new_data c rfl hc))) hc
    cases ok with
    | false => exact ⟨rfl, hk12⟩
    | true =>
      simp only at h ⊢
      have hk3 := fun c hc => construct_keeps m2 (new_data.add v.size_) (some x) c hc
      rcases e3 : construct m2 (new_data.add v.size_) (some x) with ⟨m3, ok3⟩
      rw [e3] at hk3 h
      simp only at hk3 h
      cases ok3 with
      | true => simp only at h; cases h
      | false =>
        refine ⟨rfl, ?_⟩
        intro c hc
        have hn := hf1 new_data c rfl hc
        exact ((hk12 c).andThen ((hk3 c hn).andThen ((destroy_down_keeps new_data c hn (size v) m3).andThen
          (operator_delete_keeps _ new_data c hn)))) hc

theorem push_back_threw_keeps (m : Memory T) (v : vector) (x : T)
    (f : Failure) (h : (push_back m v x).ret = .threw f) :
    (push_back m v x).self = v ∧ ∀ c, Keeps c m (push_back m v x).mem := by
  unfold push_back at h ⊢
  split
  · rename_i hg
    rw [if_pos hg] at h
    exact change_cap_push_back_threw_keeps m v _ x f h
  · rename_i hg
    rw [if_neg hg] at h
    have hk := fun c => construct_threw_keeps m (end_ v) (some x) c
    rcases e : construct m (end_ v) (some x) with ⟨m1, ok⟩
    rw [e] at h hk
    cases ok with
    | true => simp only at h; cases h
    | false => exact ⟨rfl, fun c => hk c rfl⟩

theorem Holds.keeps_all {m n : Memory T} {v : vector} {a : List T} (h : Holds m v a)
    (hk : ∀ c, Keeps c m n) : Holds n v a := h.keeps (fun c _ => hk c)

theorem operator_new_copies (m : Memory T) (n : Nat) :
    (operator_new m n).1.copies = m.copies := by
  unfold operator_new
  split <;> rfl

theorem change_cap_push_back_throws (m : Memory T) (v : vector) (new_cap : Nat) (x : T)
    (k : Nat) (hcap : new_cap ≠ 0) (hnew : m.new_throws (m.news + 1) = false)
    (hk1 : 1 ≤ k) (hk2 : k ≤ v.size_ + 1)
    (hbefore : ∀ j, 1 ≤ j → j < k → m.copy_throws (m.copies + j) = false)
    (hat : m.copy_throws (m.copies + k) = true) :
    (change_cap_push_back m v new_cap x).ret = .threw .copy_failed := by
  have hs1 := operator_new_same m new_cap
  have hc1 := operator_new_copies m new_cap
  have hr1 := (operator_new_returns m new_cap hnew).1
  unfold change_cap_push_back new_storage
  rw [if_neg hcap]
  rcases e1 : operator_new m new_cap with ⟨m1, op⟩
  rw [e1] at hs1 hc1 hr1
  simp only at hs1 hc1 hr1
  subst hr1
  simp only
  by_cases hkn : k ≤ v.size_
  · have := copy_elements_throws v.data_ ⟨some m.heap.length, 0⟩ v.size_ 0 m1 k hk1 hkn
      (by intro j h1 h2; rw [hs1.1, hc1]; exact hbefore j h1 h2)
      (by rw [hs1.1, hc1]; exact hat)
    rcases e2 : copy_elements v.data_ ⟨some m.heap.length, 0⟩ v.size_ 0 m1 with ⟨m2, ok⟩
    rw [e2] at this
    simp only at this
    subst this
    rfl
  · have hke : k = v.size_ + 1 := by omega
    have hret := copy_elements_returns v.data_ ⟨some m.heap.length, 0⟩ v.size_ 0 m1
      (by intro j h1 h2; rw [hs1.1, hc1]; exact hbefore j h1 (by omega))
    have hs2 := copy_elements_same v.data_ ⟨some m.heap.length, 0⟩ v.size_ 0 m1
    rcases e2 : copy_elements v.data_ ⟨some m.heap.length, 0⟩ v.size_ 0 m1 with ⟨m2, ok⟩
    rw [e2] at hret hs2
    simp only at hret hs2
    obtain ⟨hok, hc2⟩ := hret
    subst hok
    simp only
    have h3 : m2.copy_throws (m2.copies + 1) = true := by
      rw [hs2.1, hs1.1, hc2, hc1, Nat.add_assoc, ← hke]
      exact hat
    rw [construct_throws m2 _ _ h3]

/-- C2: strong guarantee of `push_back`.  For a vector with
`size() == capacity() == n`, if `operator new` succeeds and the `k`-th call of
the copy constructor made by `push_back(value)` throws (`1 ≤ k ≤ n + 1`, the
first `k - 1` calls having succeeded), then `push_back` throws, and the vector
has the same members (`data_`, `size_`, `capacity_`) and holds the same
element sequence as before the call. -/
theorem push_back_strong_guarantee (m : Memory T) (v : vector) (a : List T) (x : T) (k : Nat)
    (h : Holds m v a) (hfull : size v = capacity v)
    (hnew : m.new_throws (m.news + 1) = false)
    (hk1 : 1 ≤ k) (hk2 : k ≤ a.length + 1)
    (hbefore : ∀ j, 1 ≤ j → j < k → m.copy_throws (m.copies + j) = false)
    (hat : m.copy_throws (m.copies + k) = true) :
    (push_back m v x).ret = .threw .copy_failed ∧
    (push_back m v x).self = v ∧
    size (push_back m v x).self = a.length ∧
    capacity (push_back m v x).self = capacity v ∧
    Holds (push_back m v x).mem (push_back m v x).self a ∧
    elements (push_back m v x).mem (push_back m v x).self = elements m v := by
  have hthrow : (push_back m v x).ret = .threw .copy_failed := by
    unfold push_back
    rw [if_pos hfull]
    apply change_cap_push_back_throws m v _ x k _ hnew hk1 (by rw [h.1]; exact hk2) hbefore hat
    split <;> omega
  obtain ⟨hself, hkeep⟩ := push_back_threw_keeps m v x _ hthrow
  have hh : Holds (push_back m v x).mem (push_back m v x).self a := by
    rw [hself]
    exact h.keeps_all hkeep
  refine ⟨hthrow, hself, hh.size_eq, by rw [hself], hh, ?_⟩
  rw [hh.elements_eq, h.elements_eq]
/-! ## Exchanging elements, and `insert` -/

theorem swap_elements_block (m : Memory T) (b i j : Nat) (buf : List (Option T))
    (hb : m.heap[b]? = some (some buf)) :
    (swap_elements m ⟨some b, i⟩ ⟨some b, j⟩).heap[b]? =
      some (some ((buf.set i (buf[j]?).join).set j (buf[i]?).join)) := by
  show (heap_store (heap_store m.heap ⟨some b, i⟩ (heap_read m.heap ⟨some b, j⟩)) ⟨some b, j⟩
    (heap_read m.heap ⟨some b, i⟩))[b]? = _
  rw [heap_read_live m.heap b j buf hb, heap_read_live m.heap b i buf hb,
    heap_store_live m.heap b i buf _ hb]
  have h2 := getElem?_set_self_of_live m.heap b _ (some (buf.set i (buf[j]?).join)) hb
  rw [heap_store_live _ b j _ _ h2]
  exact getElem?_set_self_of_live _ _ _ _ h2

theorem swap_adjacent_list {α : Type} (A B : List (Option α)) (u w : Option α) :
    ((A ++ u :: w :: B).set (A.length + 1) ((A ++ u :: w :: B)[A.length]?).join).set A.length
      ((A ++ u :: w :: B)[A.length + 1]?).join = A ++ w :: u :: B := by
  induction A with
  | nil => simp
  | cons h t ih => simpa using ih

theorem layout_append_cons (A B : List T) (u : T) (cap : Nat) :
    layout (A ++ u :: B) cap =
      A.map some ++ some u :: (B.map some ++ List.replicate (cap - (A ++ u :: B).length) none) := by
  simp [layout]

theorem swap_adjacent_layout (A B : List T) (u w : T) (cap : Nat) :
    ((layout (A ++ u :: w :: B) cap).set (A.length + 1)
        ((layout (A ++ u :: w :: B) cap)[A.length]?).join).set A.length
      ((layout (A ++ u :: w :: B) cap)[A.length + 1]?).join = layout (A ++ w :: u :: B) cap := by
  have e1 : layout (A ++ u :: w :: B) cap = A.map some ++ some u :: some w ::
      (B.map some ++ List.replicate (cap - (A ++ u :: w :: B).length) none) := by
    simp [layout]
  have e2 : layout (A ++ w :: u :: B) cap = A.map some ++ some w :: some u ::
      (B.map some ++ List.replicate (cap - (A ++ u :: w :: B).length) none) := by
    simp [layout]
  have := swap_adjacent_list (A.map some)
    (B.map some ++ List.replicate (cap - (A ++ u :: w :: B).length) none) (some u) (some w)
  rw [List.length_map] at this
  rw [e1, e2]
  exact this

theorem drop_eq_get_cons (a : List T) (i : Nat) (h : i < a.length) :
    a.drop i = a.get ⟨i, h⟩ :: a.drop (i + 1) := by
  rw [List.drop_eq_getElem_cons h]
  rfl

theorem insert_loop_block (b cap ind : Nat) (a : List T) (x : T) :
    ∀ (i : Nat) (m : Memory T), ind ≤ i → i ≤ a.length →
    m.heap[b]? = some (some (layout (a.take i ++ x :: a.drop i) cap)) →
    (insert_loop ⟨some b, 0⟩ ind i m).heap[b]? =
      some (some (layout (a.take ind ++ x :: a.drop ind) cap)) := by
  intro i
  induction i with
  | zero =>
    intro m h1 _ hb
    have : ind = 0 := by omega
    subst this
    exact hb
  | succ i ih =>
    intro m h1 h2 hb
    unfold insert_loop
    by_cases hgt : i + 1 > ind
    · rw [if_pos hgt]
      apply ih _ (by omega) (by omega)
      have hi : i < a.length := by omega
      have hsw := swap_elements_block m b (i + 1) i _ hb
      rw [take_succ_get a i hi, List.append_assoc, List.singleton_append] at hsw
      have hl : (a.take i).length = i := by simp; omega
      have := swap_adjacent_layout (a.take i) (a.drop (i + 1)) (a.get ⟨i, hi⟩) x cap
      rw [hl] at this
      rw [this, ← drop_eq_get_cons a i hi] at hsw
      simpa [Ptr.add] using hsw
    · rw [if_neg hgt]
      have : ind = i + 1 := by omega
      subst this
      exact hb

theorem insert_loop_same (d : Ptr) (ind : Nat) : ∀ (i : Nat) (m : Memory T),
    Continues m (insert_loop d ind i m) := by
  intro i
  induction i with
  | zero => intro m; exact Continues.refl m
  | succ i ih =>
    intro m
    unfold insert_loop
    split
    · exact (swap_elements_same m _ _).trans (ih _)
    · exact Continues.refl m

theorem insert_loop_keeps (d : Ptr) (ind c : Nat) (hc : d.block ≠ some c) :
    ∀ (i : Nat) (m : Memory T), Keeps c m (insert_loop d ind i m) := by
  intro i
  induction i with
  | zero => intro m; exact Keeps.same c m
  | succ i ih =>
    intro m
    unfold insert_loop
    split
    · exact (swap_elements_keeps m (d.add (i + 1)) (d.add i) c hc hc).andThen (ih _)
    · exact Keeps.same c m

theorem insert_frame (m : Memory T) (v : vector) (pos : Ptr) (x : T) :
    Frame v m (insert m v pos x) := by
  obtain ⟨hs, hf⟩ := push_back_frame m v x
  unfold insert
  rcases e : push_back m v x with ⟨m1, v1, r⟩
  rw [e] at hs hf
  simp only at hs hf
  cases r with
  | threw f => exact ⟨hs, hf⟩
  | returned u =>
    simp only
    refine ⟨hs.trans (insert_loop_same _ _ _ _), ?_⟩
    intro c hc hv
    obtain ⟨h1, h2, h3⟩ := hf c hc hv
    have := insert_loop_keeps v1.data_ (distance (begin v) pos) c h3 (v1.size_ - 1) m1 h1
    exact ⟨this.1, this.2.trans h2, h3⟩

theorem insert_holds (m : Memory T) (v : vector) (a : List T) (i : Nat) (x : T)
    (hn : NoFail m) (h : Holds m v a) (hi : i ≤ a.length) :
    (insert m v ((begin v).add i) x).ret = .returned ((begin v).add i) ∧
    (insert m v ((begin v).add i) x).self = (push_back m v x).self ∧
    Holds (insert m v ((begin v).add i) x).mem (insert m v ((begin v).add i) x).self
      (a.take i ++ x :: a.drop i) := by
  obtain ⟨h1, h2, _, _⟩ := push_back_holds m v a x hn h
  have hd : distance (begin v) ((begin v).add i) = i := by
    simp [distance, Ptr.add]
  unfold insert
  rw [hd]
  rcases e : push_back m v x with ⟨m1, v1, r⟩
  rw [e] at h1 h2
  simp only at h1 h2
  subst h1
  simp only
  refine ⟨trivial, trivial, ?_⟩
  cases hb : v1.data_.block with
  | none =>
    have := (h2.of_null hb).1
    simp at this
  | some b =>
    obtain ⟨e1, hcap, hh⟩ := h2.of_live hb
    have hsz : v1.size_ - 1 = a.length := by rw [h2.1]; simp
    refine Holds.live b e1 ?_ ?_ hcap ?_
    · rw [h2.1]; simp; omega
    · have := h2.2.1; simp at this ⊢; omega
    · rw [e1, hsz]
      apply insert_loop_block b _ i a x a.length m1 hi (Nat.le_refl _)
      simpa using hh

/-- C3: for a vector holding the sequence `a` of length `n`, every index
`i ≤ n` and every value `x`, `insert(begin() + i, x)` without failure returns
and leaves a vector of size `n + 1` whose element sequence is `a[0..i)`, then
`x`, then `a[i..n)`; index `i` holds `x`.  The index `i = n` and the empty
vector are included. -/
theorem insert_sequence (m : Memory T) (v : vector) (a : List T) (i : Nat) (x : T)
    (hn : NoFail m) (h : Holds m v a) (hi : i ≤ a.length) :
    (∃ p, (insert m v ((begin v).add i) x).ret = .returned p) ∧
    size (insert m v ((begin v).add i) x).self = a.length + 1 ∧
    elements (insert m v ((begin v).add i) x).mem (insert m v ((begin v).add i) x).self =
      (a.take i ++ x :: a.drop i).map some ∧
    (insert m v ((begin v).add i) x).mem.read (index (insert m v ((begin v).add i) x).self i) =
      some x := by
  obtain ⟨h1, _, h3⟩ := insert_holds m v a i x hn h hi
  have hl : (a.take i ++ x :: a.drop i).length = a.length + 1 := by
    simp; omega
  refine ⟨⟨_, h1⟩, by rw [h3.size_eq, hl], h3.elements_eq, ?_⟩
  rw [h3.read i (by omega)]
  have : (a.take i).length = i := by simp; omega
  simp [List.getElem_append_right, this]
/-! ## `pop_back` and `erase` -/

theorem swap_far_list {α : Type} (A M B : List (Option α)) (u w : Option α) :
    ((A ++ u :: (M ++ w :: B)).set A.length
        ((A ++ u :: (M ++ w :: B))[A.length + (M.length + 1)]?).join).set
      (A.length + (M.length + 1)) ((A ++ u :: (M ++ w :: B))[A.length]?).join =
      A ++ w :: (M ++ u :: B) := by
  induction A with
  | nil =>
    have h1 : (u :: (M ++ w :: B))[M.length + 1]? = some w := by
      rw [List.getElem?_cons_succ, List.getElem?_append_right (Nat.le_refl _)]
      simp
    simp only [List.nil_append, List.length_nil, Nat.zero_add, h1]
    simp
  | cons h t ih =>
    have e1 : (h :: t).length + (M.length + 1) = (t.length + (M.length + 1)) + 1 := by
      simp; omega
    rw [e1]
    simpa using ih

theorem swap_self_list {α : Type} (A B : List (Option α)) (u : Option α) :
    ((A ++ u :: B).set A.length ((A ++ u :: B)[A.length]?).join).set A.length
      ((A ++ u :: B)[A.length]?).join = A ++ u :: B := by
  induction A with
  | nil => simp
  | cons h t ih => simpa using ih

theorem swap_far_layout (A M B : List T) (u w : T) (cap : Nat) :
    ((layout (A ++ u :: (M ++ w :: B)) cap).set A.length
        ((layout (A ++ u :: (M ++ w :: B)) cap)[A.length + (M.length + 1)]?).join).set
      (A.length + (M.length + 1)) ((layout (A ++ u :: (M ++ w :: B)) cap)[A.length]?).join =
      layout (A ++ w :: (M ++ u :: B)) cap := by
  have e1 : layout (A ++ u :: (M ++ w :: B)) cap = A.map some ++ some u :: (M.map some ++ some w ::
      (B.map some ++ List.replicate (cap - (A ++ u :: (M ++ w :: B)).length) none)) := by
    simp [layout]
  have e2 : layout (A ++ w :: (M ++ u :: B)) cap = A.map some ++ some w :: (M.map some ++ some u ::
      (B.map some ++ List.replicate (cap - (A ++ u :: (M ++ w :: B)).length) none)) := by
    simp [layout]
  have := swap_far_list (A.map some) (M.map some)
    (B.map some ++ List.replicate (cap - (A ++ u :: (M ++ w :: B)).length) none) (some u) (some w)
  rw [List.length_map, List.length_map] at this
  rw [e1, e2]
  exact this

theorem swap_self_layout (A B : List T) (u : T) (cap : Nat) :
    ((layout (A ++ u :: B) cap).set A.length ((layout (A ++ u :: B) cap)[A.length]?).join).set
      A.length ((layout (A ++ u :: B) cap)[A.length]?).join = layout (A ++ u :: B) cap := by
  have e1 := layout_append_cons A B u cap
  have := swap_self_list (A.map some)
    (B.map some ++ List.replicate (cap - (A ++ u :: B).length) none) (some u)
  rw [List.length_map] at this
  rw [e1]
  exact this

theorem erase_swap_loop_block (b cap : Nat) (pre : List T) :
    ∀ (rest done junk : List T) (m : Memory T),
    m.heap[b]? = some (some (layout (pre ++ (done ++ (junk ++ rest))) cap)) →
    ∃ junk2 : List T, junk2.length = junk.length ∧
      (erase_swap_loop ⟨some b, 0⟩ (pre.length) (pre.length + junk.length) rest.length
        done.length m).heap[b]? = some (some (layout (pre ++ (done ++ (rest ++ junk2))) cap)) := by
  intro rest
  induction rest with
  | nil =>
    intro done junk m hb
    exact ⟨junk, rfl, by simpa [erase_swap_loop] using hb⟩
  | cons x rest ih =>
    intro done junk m hb
    rw [List.length_cons, erase_swap_loop]
    have hsw := swap_elements_block m b (pre.length + done.length)
      (pre.length + junk.length + done.length) _ hb
    cases junk with
    | nil =>
      have key := swap_self_layout (pre ++ done) rest x cap
      simp only [List.length_append, List.append_assoc] at key
      simp only [List.nil_append, List.length_nil, Nat.add_zero] at hsw ⊢
      rw [key] at hsw
      obtain ⟨j2, hj, hres⟩ := ih (done ++ [x]) [] _ (by
        simpa [Ptr.add] using hsw)
      refine ⟨j2, hj, ?_⟩
      simpa [Ptr.add] using hres
    | cons y junk =>
      have key := swap_far_layout (pre ++ done) junk rest y x cap
      simp only [List.length_append, List.append_assoc] at key
      have eidx : pre.length + (y :: junk).length + done.length =
          pre.length + done.length + (junk.length + 1) := by
        simp; omega
      rw [eidx] at hsw
      simp only [List.cons_append] at hsw
      rw [key] at hsw
      obtain ⟨j2, hj, hres⟩ := ih (done ++ [x]) (junk ++ [y]) (swap_elements m
          ⟨some b, pre.length + done.length⟩ ⟨some b, pre.length + done.length + (junk.length + 1)⟩)
        (by simpa using hsw)
      refine ⟨j2, by simpa using hj, ?_⟩
      have e3 : pre.length + (junk ++ [y]).length = pre.length + (y :: junk).length := by simp
      have e4 : pre.length + (junk.length + 1) + done.length =
          pre.length + done.length + (junk.length + 1) := by omega
      rw [e3] at hres
      simpa [Ptr.add, e4] using hres

theorem pop_back_holds (m : Memory T) (v : vector) (l : List T) (y : T)
    (h : Holds m v (l ++ [y])) :
    Holds (pop_back m v).mem (pop_back m v).self l ∧
    (pop_back m v).self.data_ = v.data_ ∧ (pop_back m v).self.capacity_ = v.capacity_ := by
  refine ⟨?_, rfl, rfl⟩
  cases hb : v.data_.block with
  | none =>
    have := (h.of_null hb).1
    simp at this
  | some b =>
    obtain ⟨e, hcap, hh⟩ := h.of_live hb
    have hsz : v.size_ = l.length + 1 := by rw [h.1]; simp
    have hle := h.2.1
    simp only [List.length_append, List.length_singleton] at hle
    refine Holds.live b e ?_ ?_ hcap ?_
    · show v.size_ - 1 = l.length
      omega
    · show l.length ≤ v.capacity_
      omega
    · show (destroy m (end_ { v with size_ := v.size_ - 1 })).heap[b]? = _
      have := destroy_block m b l.length _ hh
      rw [layout_unsnoc l y _ (by omega)] at this
      unfold end_
      rw [e, hsz]
      simpa [Ptr.add] using this

theorem erase_pop_loop_holds (l : List T) : ∀ (junk : List T) (m : Memory T) (v : vector),
    Holds m v (l ++ junk) →
    Holds (erase_pop_loop junk.length m v).1 (erase_pop_loop junk.length m v).2 l ∧
    (erase_pop_loop junk.length m v).2.data_ = v.data_ ∧
    (erase_pop_loop junk.length m v).2.capacity_ = v.capacity_ := by
  intro junk
  induction junk using List.reverseRecOn with
  | nil =>
    intro m v h
    exact ⟨by simpa [erase_pop_loop] using h, rfl, rfl⟩
  | append_singleton junk y ih =>
    intro m v h
    have e : (junk ++ [y]).length = junk.length + 1 := by simp
    rw [e, erase_pop_loop]
    rw [← List.append_assoc] at h
    obtain ⟨h1, h2, h3⟩ := pop_back_holds m v (l ++ junk) y h
    obtain ⟨g1, g2, g3⟩ := ih _ _ h1
    exact ⟨g1, g2.trans h2, g3.trans h3⟩

theorem erase_swap_loop_same (d : Ptr) (i1 i2 : Nat) : ∀ (n i : Nat) (m : Memory T),
    Continues m (erase_swap_loop d i1 i2 n i m) := by
  intro n
  induction n with
  | zero => intro i m; exact Continues.refl m
  | succ n ih => intro i m; exact (swap_elements_same m _ _).trans (ih _ _)

theorem erase_swap_loop_keeps (d : Ptr) (i1 i2 c : Nat) (hc : d.block ≠ some c) :
    ∀ (n i : Nat) (m : Memory T), Keeps c m (erase_swap_loop d i1 i2 n i m) := by
  intro n
  induction n with
  | zero => intro i m; exact Keeps.same c m
  | succ n ih =>
    intro i m
    exact (swap_elements_keeps m (d.add (i1 + i)) (d.add (i2 + i)) c hc hc).andThen (ih _ _)

theorem erase_pop_loop_same : ∀ (n : Nat) (m : Memory T) (v : vector),
    Continues m (erase_pop_loop n m v).1 := by
  intro n
  induction n with
  | zero => intro m v; exact Continues.refl m
  | succ n ih =>
    intro m v
    exact (destroy_same m (end_ { v with size_ := v.size_ - 1 })).trans
      (ih (pop_back m v).mem (pop_back m v).self)

theorem erase_pop_loop_keeps (c : Nat) : ∀ (n : Nat) (m : Memory T) (v : vector),
    v.data_.block ≠ some c →
    Keeps c m (erase_pop_loop n m v).1 ∧ (erase_pop_loop n m v).2.data_ = v.data_ := by
  intro n
  induction n with
  | zero => intro m v _; exact ⟨Keeps.same c m, rfl⟩
  | succ n ih =>
    intro m v hv
    obtain ⟨h2, h3⟩ := ih (pop_back m v).mem (pop_back m v).self hv
    exact ⟨(destroy_keeps m (end_ { v with size_ := v.size_ - 1 }) c hv).andThen h2, h3⟩

theorem erase_range_frame (m : Memory T) (v : vector) (first last : Ptr) :
    Frame v m (erase_range m v first last) := by
  unfold erase_range
  simp only
  refine ⟨?_, ?_⟩
  · exact (erase_swap_loop_same v.data_ _ _ _ _ m).trans (erase_pop_loop_same _ _ v)
  · intro c hc hv
    obtain ⟨h2, h3⟩ := erase_pop_loop_keeps c (distance (begin v) last - distance (begin v) first)
      (erase_swap_loop v.data_ (distance (begin v) first) (distance (begin v) last)
        (size v - distance (begin v) last) 0 m) v hv
    have h1 := erase_swap_loop_keeps v.data_ (distance (begin v) first) (distance (begin v) last)
      c hv (size v - distance (begin v) last) 0 m
    have := (h1.andThen h2) hc
    exact ⟨this.1, this.2, by rw [h3]; exact hv⟩

theorem erase_frame (m : Memory T) (v : vector) (pos : Ptr) : Frame v m (erase m v pos) :=
  erase_range_frame m v pos (pos.add 1)

theorem erase_range_holds (m : Memory T) (v : vector) (a : List T) (i j : Nat)
    (h : Holds m v a) (hij : i ≤ j) (hj : j ≤ a.length) :
    (erase_range m v ((begin v).add i) ((begin v).add j)).ret = .returned ((begin v).add i) ∧
    Holds (erase_range m v ((begin v).add i) ((begin v).add j)).mem
      (erase_range m v ((begin v).add i) ((begin v).add j)).self (a.take i ++ a.drop j) ∧
    (erase_range m v ((begin v).add i) ((begin v).add j)).self.data_ = v.data_ ∧
    (erase_range m v ((begin v).add i) ((begin v).add j)).self.capacity_ = v.capacity_ := by
  have hd1 : distance (begin v) ((begin v).add i) = i := by simp [distance, Ptr.add]
  have hd2 : distance (begin v) ((begin v).add j) = j := by simp [distance, Ptr.add]
  unfold erase_range
  simp only [hd1, hd2]
  refine ⟨trivial, ?_⟩
  -- the sequence, cut at `i` and `j`
  have ea : a = a.take i ++ ((a.drop i).take (j - i) ++ a.drop j) := by
    have h1 : a.drop i = (a.drop i).take (j - i) ++ (a.drop i).drop (j - i) :=
      (List.take_append_drop _ _).symm
    have h2 : (a.drop i).drop (j - i) = a.drop j := by
      rw [List.drop_drop]
      congr 1
      omega
    rw [← h2, ← h1, List.take_append_drop]
  have hl1 : (a.take i).length = i := by simp; omega
  have hl2 : ((a.drop i).take (j - i)).length = j - i := by simp; omega
  have hl3 : (a.drop j).length = a.length - j := by simp
  obtain ⟨junk2, hjl, hsw⟩ : ∃ junk2 : List T, junk2.length = j - i ∧
      Holds (erase_swap_loop v.data_ i j (size v - j) 0 m) v (a.take i ++ (a.drop j ++ junk2)) := by
    cases hb : v.data_.block with
    | none =>
      have ha := (h.of_null hb).1
      subst ha
      have : j = 0 := by simpa using hj
      subst this
      refine ⟨[], by simp, ?_⟩
      have : size v = 0 := h.1
      rw [this]
      simpa [erase_swap_loop] using h
    | some b =>
      obtain ⟨e, hcap, hh⟩ := h.of_live hb
      rw [ea] at hh
      have := erase_swap_loop_block b v.capacity_ (a.take i) (a.drop j) []
        ((a.drop i).take (j - i)) m (by simpa using hh)
      obtain ⟨junk2, hjl, hres⟩ := this
      rw [hl1, hl2, hl3] at hres
      have e5 : i + (j - i) = j := by omega
      rw [e5] at hres
      refine ⟨junk2, by rw [hjl, hl2], ?_⟩
      have hlen : (a.take i ++ (a.drop j ++ junk2)).length = a.length := by
        simp [hjl]; omega
      refine Holds.live b e ?_ ?_ hcap ?_
      · rw [hlen]; exact h.1
      · rw [hlen]; exact h.2.1
      · rw [e, show size v = a.length from h.1]
        simpa using hres
  have := erase_pop_loop_holds (a.take i ++ a.drop j) junk2 _ v (by simpa using hsw)
  rw [hjl] at this
  exact this

/-! ## The claims on `erase` -/

theorem pushed_holds (xs : List Nat) :
    NoFail (pushed xs).mem ∧ Holds (pushed xs).mem (pushed xs).self xs := by
  obtain ⟨_, h2, h3⟩ := push_all_holds xs (Memory.quiet Nat) vector.default [] (NoFail.quiet Nat)
    (Holds.default _)
  exact ⟨h3, by simpa using h2⟩

/-- C4: for a vector holding the sequence `a` of length `n ≥ 1` and every
index `i < n`, `erase(begin() + i)` returns and leaves a vector of size
`n - 1` whose element sequence is `a[0..i)` followed by `a[i+1..n)`, with the
capacity unchanged. -/
theorem erase_single (m : Memory T) (v : vector) (a : List T) (i : Nat)
    (h : Holds m v a) (hi : i < a.length) :
    (∃ p, (erase m v ((begin v).add i)).ret = .returned p) ∧
    size (erase m v ((begin v).add i)).self = a.length - 1 ∧
    elements (erase m v ((begin v).add i)).mem (erase m v ((begin v).add i)).self =
      (a.take i ++ a.drop (i + 1)).map some ∧
    capacity (erase m v ((begin v).add i)).self = capacity v := by
  have e : erase m v ((begin v).add i) =
      erase_range m v ((begin v).add i) ((begin v).add (i + 1)) := rfl
  rw [e]
  obtain ⟨h1, h2, _, h4⟩ := erase_range_holds m v a i (i + 1) h (by omega) (by omega)
  refine ⟨⟨_, h1⟩, ?_, h2.elements_eq, h4⟩
  rw [h2.size_eq]
  simp
  omega

theorem erase_single_witness :
    elements (erase (pushed [10, 20, 30]).mem (pushed [10, 20, 30]).self
        ((begin (pushed [10, 20, 30]).self).add 1)).mem
      (erase (pushed [10, 20, 30]).mem (pushed [10, 20, 30]).self
        ((begin (pushed [10, 20, 30]).self).add 1)).self = [some 10, some 30] :=
  (erase_single (pushed [10, 20, 30]).mem (pushed [10, 20, 30]).self [10, 20, 30] 1
    (pushed_holds [10, 20, 30]).2 (by decide)).2.2.1

/-- C5: for a vector holding the sequence `a` of length `n` and indices
`i ≤ j ≤ n`, `erase(begin() + i, begin() + j)` leaves a vector of size
`n - (j - i)` whose element sequence is `a[0..i)` followed by `a[j..n)`; for
`i = j` the vector is unchanged, and for `j = n` the result is `a[0..i)`. -/
theorem erase_range_sequence (m : Memory T) (v : vector) (a : List T) (i j : Nat)
    (h : Holds m v a) (hij : i ≤ j) (hj : j ≤ a.length) :
    size (erase_range m v ((begin v).add i) ((begin v).add j)).self = a.length - (j - i) ∧
    elements (erase_range m v ((begin v).add i) ((begin v).add j)).mem
      (erase_range m v ((begin v).add i) ((begin v).add j)).self =
      (a.take i ++ a.drop j).map some ∧
    (i = j → (erase_range m v ((begin v).add i) ((begin v).add j)).self = v ∧
      elements (erase_range m v ((begin v).add i) ((begin v).add j)).mem
        (erase_range m v ((begin v).add i) ((begin v).add j)).self = elements m v) ∧
    (j = a.length → elements (erase_range m v ((begin v).add i) ((begin v).add j)).mem
      (erase_range m v ((begin v).add i) ((begin v).add j)).self = (a.take i).map some) := by
  obtain ⟨_, h2, h3, h4⟩ := erase_range_holds m v a i j h hij hj
  have hsz : size (erase_range m v ((begin v).add i) ((begin v).add j)).self =
      a.length - (j - i) := by
    rw [h2.size_eq]
    simp
    omega
  refine ⟨hsz, h2.elements_eq, ?_, ?_⟩
  · intro e
    subst e
    constructor
    · have hs : (erase_range m v ((begin v).add i) ((begin v).add i)).self.size_ = v.size_ := by
        have := hsz
        unfold size at this
        rw [this, h.1]
        omega
      cases hv : v with
      | mk d s c =>
        cases hr : (erase_range m v ((begin v).add i) ((begin v).add i)).self with
        | mk d2 s2 c2 =>
          rw [hr, hv] at h3 h4 hs
          simp only at h3 h4 hs
          rw [hv] at hr
          rw [hr, h3, h4, hs]
    · rw [h2.elements_eq, h.elements_eq, List.take_append_drop]
  · intro e
    subst e
    rw [h2.elements_eq]
    simp

theorem erase_range_sequence_witness :
    elements (erase_range (pushed [10, 20, 30, 40]).mem (pushed [10, 20, 30, 40]).self
        ((begin (pushed [10, 20, 30, 40]).self).add 1)
        ((begin (pushed [10, 20, 30, 40]).self).add 3)).mem
      (erase_range (pushed [10, 20, 30, 40]).mem (pushed [10, 20, 30, 40]).self
        ((begin (pushed [10, 20, 30, 40]).self).add 1)
        ((begin (pushed [10, 20, 30, 40]).self).add 3)).self = [some 10, some 40] :=
  (erase_range_sequence (pushed [10, 20, 30, 40]).mem (pushed [10, 20, 30, 40]).self
    [10, 20, 30, 40] 1 3 (pushed_holds [10, 20, 30, 40]).2 (by decide) (by decide)).2.1

/-- C6: for a vector holding `a` of length `n` and indices `i ≤ j ≤ n`, the
iterator returned by `erase(begin() + i, begin() + j)` is at offset `i` of the
storage of the vector after the call; when `j < n` it designates `a[j]`, and
when `j = n` it equals `end()` of the resulting vector. -/
theorem erase_range_iterator (m : Memory T) (v : vector) (a : List T) (i j : Nat)
    (h : Holds m v a) (hij : i ≤ j) (hj : j ≤ a.length) :
    (erase_range m v ((begin v).add i) ((begin v).add j)).ret =
      .returned ((begin (erase_range m v ((begin v).add i) ((begin v).add j)).self).add i) ∧
    (∀ hjn : j < a.length,
      (erase_range m v ((begin v).add i) ((begin v).add j)).mem.read
        ((begin (erase_range m v ((begin v).add i) ((begin v).add j)).self).add i) =
        some (a.get ⟨j, hjn⟩)) ∧
    (j = a.length →
      (begin (erase_range m v ((begin v).add i) ((begin v).add j)).self).add i =
        end_ (erase_range m v ((begin v).add i) ((begin v).add j)).self) := by
  obtain ⟨h1, h2, h3, _⟩ := erase_range_holds m v a i j h hij hj
  have hl : (a.take i).length = i := by simp; omega
  unfold begin at h1 h2 h3 ⊢
  refine ⟨?_, ?_, ?_⟩
  · rw [h1, h3]
  · intro hjn
    have := h2.read i (by simp; omega)
    unfold index at this
    rw [this]
    simp [List.getElem_append_right, hl]
  · intro e
    subst e
    unfold end_
    rw [h2.1]
    have e2 : (a.take i ++ a.drop a.length).length = i := by simp; omega
    rw [e2]

theorem erase_range_iterator_witness :
    (erase_range (pushed [10, 20, 30, 40]).mem (pushed [10, 20, 30, 40]).self
        ((begin (pushed [10, 20, 30, 40]).self).add 1)
        ((begin (pushed [10, 20, 30, 40]).self).add 3)).mem.read
      ((begin (erase_range (pushed [10, 20, 30, 40]).mem (pushed [10, 20, 30, 40]).self
        ((begin (pushed [10, 20, 30, 40]).self).add 1)
        ((begin (pushed [10, 20, 30, 40]).self).add 3)).self).add 1) = some 40 :=
  (erase_range_iterator (pushed [10, 20, 30, 40]).mem (pushed [10, 20, 30, 40]).self
    [10, 20, 30, 40] 1 3 (pushed_holds [10, 20, 30, 40]).2 (by decide) (by decide)).2.1 (by decide)
/-! ## Concrete runs -/

theorem push_back_strong_guarantee_witness :
    (push_back ((pushed [10, 20]).mem.with_copy_failure 2) (pushed [10, 20]).self 30).ret =
      .threw .copy_failed ∧
    elements (push_back ((pushed [10, 20]).mem.with_copy_failure 2) (pushed [10, 20]).self 30).mem
      (push_back ((pushed [10, 20]).mem.with_copy_failure 2) (pushed [10, 20]).self 30).self =
      [some 10, some 20] :=
  have h := push_back_strong_guarantee ((pushed [10, 20]).mem.with_copy_failure 2)
    (pushed [10, 20]).self [10, 20] 30 2 (pushed_holds [10, 20]).2 (by decide) rfl (by decide)
    (by decide)
    (by
      intro j h1 h2
      have : j = 1 := by omega
      subst this
      decide)
    (by decide)
  ⟨h.1, h.2.2.2.2.2.trans (pushed_holds [10, 20]).2.elements_eq⟩

theorem insert_sequence_witness :
    NoFail (pushed [10, 20, 30]).mem ∧
    elements (insert (pushed [10, 20, 30]).mem (pushed [10, 20, 30]).self
        ((begin (pushed [10, 20, 30]).self).add 1) 99).mem
      (insert (pushed [10, 20, 30]).mem (pushed [10, 20, 30]).self
        ((begin (pushed [10, 20, 30]).self).add 1) 99).self =
      [some 10, some 99, some 20, some 30] :=
  ⟨(pushed_holds [10, 20, 30]).1,
    (insert_sequence (pushed [10, 20, 30]).mem (pushed [10, 20, 30]).self [10, 20, 30] 1 99
      (pushed_holds [10, 20, 30]).1 (pushed_holds [10, 20, 30]).2 (by decide)).2.2.1⟩

/-- C7 fails on the code: `insert` returns its argument `pos`.  On the vector
`[10]` with `size() == capacity() == 1`, `insert(begin(), 99)` moves the
elements to a new block and returns the old `begin()`: the returned iterator
is not `begin() + 0` of the vector after the call, its block has been
released, and nothing can be read through it, while the inserted `99` is at
`begin() + 0` of the new storage. -/
theorem insert_returns_stale_iterator :
    (insert (pushed [10]).mem (pushed [10]).self ((begin (pushed [10]).self).add 0) 99).ret =
      .returned ⟨some 0, 0⟩ ∧
    (begin (insert (pushed [10]).mem (pushed [10]).self
      ((begin (pushed [10]).self).add 0) 99).self).add 0 = ⟨some 1, 0⟩ ∧
    (insert (pushed [10]).mem (pushed [10]).self
      ((begin (pushed [10]).self).add 0) 99).mem.heap[0]? = some none ∧
    (insert (pushed [10]).mem (pushed [10]).self
      ((begin (pushed [10]).self).add 0) 99).mem.read ⟨some 0, 0⟩ = none ∧
    (insert (pushed [10]).mem (pushed [10]).self
      ((begin (pushed [10]).self).add 0) 99).mem.read ⟨some 1, 0⟩ = some 99 := by
  decide
/-! ## `change_capacity`, `reserve` and `shrink_to_fit` -/

theorem change_capacity_holds (m : Memory T) (v : vector) (a : List T) (new_cap : Nat)
    (hn : NoFail m) (h : Holds m v a) (hc : a.length ≤ new_cap) :
    (change_capacity m v new_cap).ret = .returned () ∧
    (change_capacity m v new_cap).self =
      ⟨if new_cap = 0 then nullptr else ⟨some m.heap.length, 0⟩, v.size_, new_cap⟩ ∧
    Holds (change_capacity m v new_cap).mem (change_capacity m v new_cap).self a ∧
    (∀ b, v.data_.block = some b → (change_capacity m v new_cap).mem.heap[b]? = some none) := by
  have hrel : ∀ (m3 : Memory T) (b : Nat), v.data_.block = some b → b < m3.heap.length →
      (operator_delete (destroy_elements m3 v) v.data_).heap[b]? = some none := by
    intro m3 b hb hl
    obtain ⟨e, _, _⟩ := h.of_live hb
    unfold destroy_elements
    rw [e]
    apply operator_delete_released
    rw [destroy_down_length]
    exact hl
  by_cases hne : new_cap = 0
  · subst hne
    have ha : a = [] := List.length_eq_zero.mp (by omega)
    subst ha
    have hsz : v.size_ = 0 := h.1
    unfold change_capacity new_storage
    rw [if_pos rfl, if_pos rfl]
    simp only [hsz, copy_elements]
    refine ⟨trivial, trivial, ?_, ?_⟩
    · exact ⟨rfl, Nat.le_refl _, rfl, rfl⟩
    · intro b hb
      exact hrel m b hb (h.block_lt hb)
  · have hnew := operator_new_returns m new_cap (hn _).2
    have hs1 := operator_new_same m new_cap
    have hk1 := operator_new_keeps m new_cap
    unfold change_capacity new_storage
    rw [if_neg hne, if_neg hne]
    rcases e1 : operator_new m new_cap with ⟨m1, op⟩
    rw [e1] at hnew hs1 hk1
    obtain ⟨hop, hh1⟩ := hnew
    simp only at hop hh1 hs1 hk1
    subst hop
    simp only
    have hn1 : NoFail m1 := hn.of_same hs1
    have hd1 : m1.heap[m.heap.length]? = some (some (layout ([] : List T) new_cap)) := by
      rw [hh1, layout_nil]; simp
    have hvd : v.data_.block ≠ some m.heap.length := by
      intro e
      have := h.block_lt e
      omega
    have hret := copy_elements_returns v.data_ ⟨some m.heap.length, 0⟩ v.size_ 0 m1
      (fun j _ _ => (hn1 _).1)
    have hk2 : ∀ c, c ≠ m.heap.length →
        Keeps c m1 (copy_elements v.data_ ⟨some m.heap.length, 0⟩ v.size_ 0 m1).1 :=
      fun c hc => copy_elements_keeps v.data_ ⟨some m.heap.length, 0⟩ c
        (by simpa using Ne.symm hc) v.size_ 0 m1
    have hd2 : (copy_elements v.data_ ⟨some m.heap.length, 0⟩ v.size_ 0 m1).1.heap[m.heap.length]? =
        some (some (layout a new_cap)) := by
      cases hb : v.data_.block with
      | none =>
        obtain ⟨ha, hsz, _⟩ := h.of_null hb
        rw [hsz, ha]
        exact hd1
      | some b =>
        obtain ⟨e, _, hh⟩ := h.of_live hb
        rw [e, h.1]
        have hbl := h.block_lt hb
        apply copy_elements_block b m.heap.length v.capacity_ new_cap a (by omega) hc
          a.length 0 m1 (by omega) hn1
        · rw [((hk1 b) hbl).2]; exact hh
        · simpa using hd1
    rcases e2 : copy_elements v.data_ ⟨some m.heap.length, 0⟩ v.size_ 0 m1 with ⟨m2, ok⟩
    rw [e2] at hret hk2 hd2
    simp only at hret hk2 hd2
    obtain ⟨hok, _⟩ := hret
    subst hok
    simp only
    have hk4 : Keeps m.heap.length m2 (operator_delete (destroy_down v.data_ v.size_ m2) v.data_) :=
      (destroy_down_keeps v.data_ m.heap.length hvd v.size_ m2).andThen
        (operator_delete_keeps _ v.data_ m.heap.length hvd)
    refine ⟨trivial, trivial, ?_, ?_⟩
    · refine Holds.live m.heap.length rfl h.1 hc (by show 0 < new_cap; omega) ?_
      have hl := lt_length_of_getElem? _ _ _ hd2
      unfold destroy_elements
      rw [(hk4 hl).2]
      exact hd2
    · intro b hb
      have hbl := h.block_lt hb
      have hbd : b ≠ m.heap.length := by omega
      exact hrel m2 b hb ((hk2 b hbd) ((hk1 b) hbl).1).1

/-- C9: after `shrink_to_fit()` completes without failure, `capacity() == size()`,
and the size and the element sequence are those before the call; an empty
vector with capacity above zero ends with capacity zero and null storage. -/
theorem shrink_to_fit_capacity (m : Memory T) (v : vector) (a : List T)
    (hn : NoFail m) (h : Holds m v a) :
    (shrink_to_fit m v).ret = .returned () ∧
    capacity (shrink_to_fit m v).self = size (shrink_to_fit m v).self ∧
    size (shrink_to_fit m v).self = size v ∧
    elements (shrink_to_fit m v).mem (shrink_to_fit m v).self = elements m v ∧
    (size v = 0 → 0 < capacity v →
      capacity (shrink_to_fit m v).self = 0 ∧ (shrink_to_fit m v).self.data_ = nullptr) := by
  unfold shrink_to_fit
  by_cases hlt : size v < capacity v
  · rw [if_pos hlt]
    have hc : a.length ≤ size v := by rw [h.size_eq]
    obtain ⟨h1, h2, h3, _⟩ := change_capacity_holds m v a (size v) hn h hc
    refine ⟨h1, ?_, ?_, ?_, ?_⟩
    · rw [h2]; rfl
    · rw [h2]; rfl
    · rw [h3.elements_eq, h.elements_eq]
    · intro hz _
      rw [h2, hz]
      exact ⟨rfl, rfl⟩
  · rw [if_neg hlt]
    have hle : size v ≤ capacity v := by
      have := h.1
      have := h.2.1
      unfold size capacity
      omega
    refine ⟨rfl, ?_, rfl, rfl, ?_⟩
    · show capacity v = size v
      omega
    · intro hz hp
      omega

theorem shrink_to_fit_capacity_witness :
    capacity (shrink_to_fit (pushed [10, 20, 30]).mem (pushed [10, 20, 30]).self).self = 3 ∧
    elements (shrink_to_fit (pushed [10, 20, 30]).mem (pushed [10, 20, 30]).self).mem
      (shrink_to_fit (pushed [10, 20, 30]).mem (pushed [10, 20, 30]).self).self =
      [some 10, some 20, some 30] :=
  have h := shrink_to_fit_capacity (pushed [10, 20, 30]).mem (pushed [10, 20, 30]).self
    [10, 20, 30] (pushed_holds [10, 20, 30]).1 (pushed_holds [10, 20, 30]).2
  ⟨h.2.1.trans h.2.2.1, h.2.2.2.1.trans (pushed_holds [10, 20, 30]).2.elements_eq⟩

/-! ## The copy constructor -/

theorem push_back_without_extend_checking_holds (m : Memory T) (v : vector) (l : List T)
    (x : T) (hn : NoFail m) (h : Holds m v l) (hlt : l.length < v.capacity_) :
    (push_back_without_extend_checking m v (some x)).ret = .returned () ∧
    (push_back_without_extend_checking m v (some x)).self = { v with size_ := v.size_ + 1 } ∧
    Holds (push_back_without_extend_checking m v (some x)).mem
      (push_back_without_extend_checking m v (some x)).self (l ++ [x]) ∧
    Continues m (push_back_without_extend_checking m v (some x)).mem ∧
    ∀ c, v.data_.block ≠ some c → Keeps c m (push_back_without_extend_checking m v (some x)).mem := by
  have hs := construct_same m (end_ v) (some x)
  have hk := fun c hc => construct_keeps m (end_ v) (some x) c hc
  cases hb : v.data_.block with
  | none =>
    have := (h.of_null hb).2.2
    omega
  | some b =>
    obtain ⟨e, hcap, hh⟩ := h.of_live hb
    have h1 := (hn (m.copies + 1)).1
    have hblk := construct_block m b (0 + v.size_) (some x) _ h1 hh
    have hok : (construct m (end_ v) (some x)).2 = true := by
      rw [construct_returns m _ _ h1]
    have hend : end_ v = ⟨some b, 0 + v.size_⟩ := by
      unfold end_
      rw [e]
      rfl
    unfold push_back_without_extend_checking
    rw [hend] at hok hs hk ⊢
    rcases ec : construct m ⟨some b, 0 + v.size_⟩ (some x) with ⟨m1, ok⟩
    rw [ec] at hok hblk hs hk
    simp only at hok hblk hs hk
    subst hok
    simp only
    refine ⟨trivial, trivial, ?_, hs, ?_⟩
    · refine Holds.live b e ?_ ?_ hcap ?_
      · simp [h.1]
      · simp; omega
      · rw [hblk, h.1, Nat.zero_add, layout_snoc l x _ hlt]
    · intro c hc
      exact hk c hc

theorem copy_construct_loop_holds (s : vector) (a : List T) :
    ∀ (n i : Nat) (m : Memory T) (v : vector), i + n = a.length → NoFail m →
    Holds m s a → Holds m v (a.take i) → v.capacity_ = a.length →
    (∀ b, s.data_.block = some b → v.data_.block ≠ some b) →
    (copy_construct_loop s n i m v).ret = .returned () ∧
    Holds (copy_construct_loop s n i m v).mem (copy_construct_loop s n i m v).self a ∧
    Holds (copy_construct_loop s n i m v).mem s a ∧
    (copy_construct_loop s n i m v).self.data_ = v.data_ ∧
    (copy_construct_loop s n i m v).self.capacity_ = v.capacity_ ∧
    Continues m (copy_construct_loop s n i m v).mem := by
  intro n
  induction n with
  | zero =>
    intro i m v hi _ hs hv _ _
    have : a.take i = a := List.take_of_length_le (by omega)
    rw [this] at hv
    exact ⟨rfl, hv, hs, rfl, rfl, Continues.refl m⟩
  | succ n ih =>
    intro i m v hi hn hs hv hcap hsep
    have hia : i < a.length := by omega
    have hl : (a.take i).length = i := by simp; omega
    have hrd := hs.read i hia
    unfold index at hrd
    obtain ⟨h1, h2, h3, h4, h5⟩ := push_back_without_extend_checking_holds m v (a.take i)
      (a.get ⟨i, hia⟩) hn hv (by rw [hl, hcap]; exact hia)
    unfold copy_construct_loop
    rw [hrd]
    rcases e : push_back_without_extend_checking m v (some (a.get ⟨i, hia⟩)) with ⟨m1, v1, r⟩
    rw [e] at h1 h2 h3 h4 h5
    simp only at h1 h2 h3 h4 h5
    subst h1
    simp only
    rw [← take_succ_get a i hia] at h3
    have hs1 : Holds m1 s a := hs.keeps (fun c hc => h5 c (fun e2 => hsep c hc e2))
    have hd : v1.data_ = v.data_ := by rw [h2]
    have hc1 : v1.capacity_ = v.capacity_ := by rw [h2]
    obtain ⟨g1, g2, g3, g4, g5, g6⟩ := ih (i + 1) m1 v1 (by omega) (hn.of_same h4) hs1 h3
      (by rw [hc1]; exact hcap) (by rw [hd]; exact hsep)
    exact ⟨g1, g2, g3, g4.trans hd, g5.trans hc1, h4.trans g6⟩

theorem copy_constructor_holds (m : Memory T) (s : vector) (a : List T)
    (hn : NoFail m) (h : Holds m s a) :
    (copy_constructor m s).ret = .returned () ∧
    Holds (copy_constructor m s).mem (copy_constructor m s).self a ∧
    Holds (copy_constructor m s).mem s a ∧
    (∀ b, s.data_.block = some b → (copy_constructor m s).self.data_.block ≠ some b) ∧
    NoFail (copy_constructor m s).mem := by
  unfold copy_constructor reserve
  by_cases hz : capacity vector.default < size s
  · rw [if_pos hz]
    have hsz : size s = a.length := h.1
    obtain ⟨h1, h2, h3, _⟩ := change_capacity_holds m vector.default ([] : List T) (size s) hn
      (Holds.default m) (by simp)
    obtain ⟨hs1, hf1⟩ := change_capacity_frame m vector.default (size s)
    rcases e : change_capacity m vector.default (size s) with ⟨m1, v1, r⟩
    rw [e] at h1 h2 h3 hs1 hf1
    simp only at h1 h2 h3 hs1 hf1
    subst h1
    simp only
    have hne : size s ≠ 0 := by
      unfold capacity vector.default at hz
      simp only at hz
      omega
    rw [if_neg hne] at h2
    have hsm1 : Holds m1 s a := h.keeps (fun c hc hl =>
      ⟨(hf1 c hl (by simp [vector.default, nullptr])).1,
        (hf1 c hl (by simp [vector.default, nullptr])).2.1⟩)
    have hsep : ∀ b, s.data_.block = some b → v1.data_.block ≠ some b := by
      intro b hb
      have := h.block_lt hb
      rw [h2]
      simp
      omega
    obtain ⟨g1, g2, g3, g4, _, g6⟩ := copy_construct_loop_holds s a s.size_ 0 m1 v1
      (by rw [← hsz]; simp [size]) (hn.of_same hs1) hsm1 (by simpa using h3)
      (by rw [h2]; exact hsz) hsep
    rcases e2 : copy_construct_loop s s.size_ 0 m1 v1 with ⟨m2, v2, r2⟩
    rw [e2] at g1 g2 g3 g4 g6
    simp only at g1 g2 g3 g4 g6
    subst g1
    simp only
    exact ⟨trivial, g2, g3, by rw [g4]; exact hsep, hn.of_same (hs1.trans g6)⟩
  · rw [if_neg hz]
    have hsz : s.size_ = 0 := by
      unfold capacity vector.default size at hz
      simp only at hz
      omega
    have ha : a = [] := List.length_eq_zero.mp (by rw [← h.1]; exact hsz)
    subst ha
    simp only [hsz, copy_construct_loop]
    exact ⟨trivial, Holds.default m, h, by simp [vector.default, nullptr], hn⟩

/-! ## Independence of two vectors -/

theorem assign_at_frame (m : Memory T) (v : vector) (i : Nat) (x : T) :
    Frame v m (assign_at m v i x) :=
  Frame.of_keeps (store_same m _ _) (fun c hv => store_keeps m (index v i) (some x) c hv)
    (fun _ _ hv => hv)

theorem Mutation.apply_frame (μ : Mutation T) (m : Memory T) (v : vector) :
    Continues m (μ.apply m v).1 ∧
    ∀ c, c < m.heap.length → v.data_.block ≠ some c →
      c < (μ.apply m v).1.heap.length ∧ (μ.apply m v).1.heap[c]? = m.heap[c]? ∧
      (μ.apply m v).2.data_.block ≠ some c := by
  cases μ with
  | push_back x => exact push_back_frame m v x
  | pop_back => exact pop_back_frame m v
  | clear => exact clear_frame m v
  | insert i x => exact insert_frame m v _ x
  | erase i => exact erase_frame m v _
  | erase_range i j => exact erase_range_frame m v _ _
  | assign_at i x => exact assign_at_frame m v i x

theorem Mutation.apply_all_frame (μs : List (Mutation T)) : ∀ (m : Memory T) (v : vector),
    Continues m (Mutation.apply_all μs m v).1 ∧
    ∀ c, c < m.heap.length → v.data_.block ≠ some c →
      c < (Mutation.apply_all μs m v).1.heap.length ∧
      (Mutation.apply_all μs m v).1.heap[c]? = m.heap[c]? ∧
      (Mutation.apply_all μs m v).2.data_.block ≠ some c := by
  induction μs with
  | nil => intro m v; exact ⟨Continues.refl m, fun c hc hv => ⟨hc, rfl, hv⟩⟩
  | cons μ μs ih =>
    intro m v
    obtain ⟨hs, hf⟩ := μ.apply_frame m v
    obtain ⟨hs2, hf2⟩ := ih (μ.apply m v).1 (μ.apply m v).2
    refine ⟨hs.trans hs2, ?_⟩
    intro c hc hv
    obtain ⟨h1, h2, h3⟩ := hf c hc hv
    obtain ⟨g1, g2, g3⟩ := hf2 c h1 h3
    exact ⟨g1, g2.trans h2, g3⟩

theorem Holds.apply_all {m : Memory T} {w : vector} {a : List T} (h : Holds m w a)
    (v : vector) (hsep : ∀ b, w.data_.block = some b → v.data_.block ≠ some b)
    (μs : List (Mutation T)) : Holds (Mutation.apply_all μs m v).1 w a :=
  h.keeps (fun c hc hl =>
    ⟨((Mutation.apply_all_frame μs m v).2 c hl (hsep c hc)).1,
      ((Mutation.apply_all_frame μs m v).2 c hl (hsep c hc)).2.1⟩)
/-! ## Two vectors under interleaved calls -/

theorem Live.continues {m n : Memory T} {v : vector} (h : Live m v) (hc : Continues m n) :
    Live n v := fun b hb => Nat.lt_of_lt_of_le (h b hb) hc.2.2

theorem Holds.to_live {m : Memory T} {v : vector} {a : List T} (h : Holds m v a) : Live m v :=
  fun _ hb => h.block_lt hb

theorem new_storage_live (m : Memory T) (n : Nat) (p : Ptr) (h : (new_storage m n).2 = some p)
    (b : Nat) (hb : p.block = some b) : b < (new_storage m n).1.heap.length := by
  unfold new_storage at h ⊢
  split at h
  · simp at h
    subst h
    simp [nullptr] at hb
  · rename_i hne
    rw [if_neg hne]
    unfold operator_new at h ⊢
    split at h
    · cases h
    · rename_i hth
      rw [if_neg hth]
      simp at h
      subst h
      simp at hb
      subst hb
      simp [Memory.log]

theorem change_capacity_live (m : Memory T) (v : vector) (new_cap : Nat) (h : Live m v) :
    Live (change_capacity m v new_cap).mem (change_capacity m v new_cap).self := by
  have hc := (change_capacity_frame m v new_cap).1
  have hs1 := new_storage_same m new_cap
  have hl1 := new_storage_live m new_cap
  unfold change_capacity at hc ⊢
  rcases e1 : new_storage m new_cap with ⟨m1, op⟩
  rw [e1] at hc hs1 hl1
  simp only at hc hs1 hl1
  cases op with
  | none => exact h.continues hc
  | some new_data =>
    simp only at hc ⊢
    have hs2 := copy_elements_same v.data_ new_data v.size_ 0 m1
    rcases e2 : copy_elements v.data_ new_data v.size_ 0 m1 with ⟨m2, ok⟩
    rw [e2] at hc hs2
    simp only at hs2
    cases ok with
    | false => exact h.continues hc
    | true =>
      simp only at hc ⊢
      intro b hb
      have := hl1 new_data rfl b hb
      exact Nat.lt_of_lt_of_le this (hs2.trans
        ((destroy_down_same v.data_ v.size_ m2).trans (operator_delete_same _ v.data_))).2.2

theorem change_cap_push_back_live (m : Memory T) (v : vector) (new_cap : Nat) (x : T)
    (h : Live m v) :
    Live (change_cap_push_back m v new_cap x).mem (change_cap_push_back m v new_cap x).self := by
  have hc := (change_cap_push_back_frame m v new_cap x).1
  have hs1 := new_storage_same m new_cap
  have hl1 := new_storage_live m new_cap
  unfold change_cap_push_back at hc ⊢
  rcases e1 : new_storage m new_cap with ⟨m1, op⟩
  rw [e1] at hc hs1 hl1
  simp only at hc hs1 hl1
  cases op with
  | none => exact h.continues hc
  | some new_data =>
    simp only at hc ⊢
    have hs2 := copy_elements_same v.data_ new_data v.size_ 0 m1
    rcases e2 : copy_elements v.data_ new_data v.size_ 0 m1 with ⟨m2, ok⟩
    rw [e2] at hc hs2
    simp only at hs2
    cases ok with
    | false => exact h.continues hc
    | true =>
      simp only at hc ⊢
      have hs3 := construct_same m2 (new_data.add v.size_) (some x)
      rcases e3 : construct m2 (new_data.add v.size_) (some x) with ⟨m3, ok3⟩
      rw [e3] at hc hs3
      simp only at hs3
      cases ok3 with
      | false => exact h.continues hc
      | true =>
        simp only at hc ⊢
        intro b hb
        have := hl1 new_data rfl b hb
        exact Nat.lt_of_lt_of_le this ((hs2.trans hs3).trans
          ((destroy_down_same v.data_ v.size_ m3).trans (operator_delete_same _ v.data_))).2.2

theorem push_back_live (m : Memory T) (v : vector) (x : T) (h : Live m v) :
    Live (push_back m v x).mem (push_back m v x).self := by
  have hc := (push_back_frame m v x).1
  unfold push_back at hc ⊢
  split
  · exact change_cap_push_back_live m v _ x h
  · rename_i hg
    rw [if_neg hg] at hc
    rcases e : construct m (end_ v) (some x) with ⟨m1, ok⟩
    rw [e] at hc
    cases ok <;> exact h.continues hc

theorem insert_live (m : Memory T) (v : vector) (pos : Ptr) (x : T) (h : Live m v) :
    Live (insert m v pos x).mem (insert m v pos x).self := by
  have hl := push_back_live m v x h
  unfold insert
  rcases e : push_back m v x with ⟨m1, v1, r⟩
  rw [e] at hl
  cases r with
  | threw f => exact hl
  | returned u => exact hl.continues (insert_loop_same _ _ _ _)

theorem erase_range_live (m : Memory T) (v : vector) (first last : Ptr) (h : Live m v) :
    Live (erase_range m v first last).mem (erase_range m v first last).self := by
  have hc := (erase_range_frame m v first last).1
  intro b hb
  have hd : ∀ (n : Nat) (m1 : Memory T) (u : vector), (erase_pop_loop n m1 u).2.data_ = u.data_ := by
    intro n
    induction n with
    | zero => intro m1 u; rfl
    | succ n ih => intro m1 u; exact ih _ _
  have e : (erase_range m v first last).self.data_ = v.data_ := hd _ _ v
  rw [e] at hb
  exact Nat.lt_of_lt_of_le (h b hb) hc.2.2

theorem Mutation.apply_live (μ : Mutation T) (m : Memory T) (v : vector) (h : Live m v) :
    Live (μ.apply m v).1 (μ.apply m v).2 := by
  cases μ with
  | push_back x => exact push_back_live m v x h
  | pop_back => exact h.continues (pop_back_frame m v).1
  | clear => exact h.continues (clear_frame m v).1
  | insert i x => exact insert_live m v _ x h
  | erase i => exact erase_range_live m v _ _ h
  | erase_range i j => exact erase_range_live m v _ _ h
  | assign_at i x => exact h.continues (assign_at_frame m v i x).1

theorem elements_congr (m n : Memory T) (v : vector)
    (h : ∀ b, v.data_.block = some b → n.heap[b]? = m.heap[b]?) :
    elements n v = elements m v := by
  unfold elements
  apply List.map_congr_left
  intro i _
  show heap_read n.heap (index v i) = heap_read m.heap (index v i)
  unfold heap_read
  cases hb : (index v i).block with
  | none => rfl
  | some b =>
    simp only
    rw [h b hb]

theorem Mutation.apply_separate (μ : Mutation T) (m : Memory T) (v w : vector)
    (hv : Live m v) (hw : Live m w) (hsep : ∀ b, w.data_.block = some b → v.data_.block ≠ some b) :
    elements (μ.apply m v).1 w = elements m w ∧
    Live (μ.apply m v).1 (μ.apply m v).2 ∧ Live (μ.apply m v).1 w ∧
    (∀ b, w.data_.block = some b → (μ.apply m v).2.data_.block ≠ some b) := by
  obtain ⟨hc, hf⟩ := μ.apply_frame m v
  refine ⟨?_, μ.apply_live m v hv, hw.continues hc, ?_⟩
  · apply elements_congr
    intro b hb
    exact (hf b (hw b hb) (hsep b hb)).2.1
  · intro b hb
    exact (hf b (hw b hb) (hsep b hb)).2.2

theorem Mutation.apply_both_separate (μs : List (Bool × Mutation T)) :
    ∀ (m : Memory T) (s c : vector), Live m s → Live m c →
    (∀ b, s.data_.block = some b → c.data_.block ≠ some b) →
    Live (Mutation.apply_both μs m s c).1 (Mutation.apply_both μs m s c).2.1 ∧
    Live (Mutation.apply_both μs m s c).1 (Mutation.apply_both μs m s c).2.2 ∧
    (∀ b, (Mutation.apply_both μs m s c).2.1.data_.block = some b →
      (Mutation.apply_both μs m s c).2.2.data_.block ≠ some b) := by
  induction μs with
  | nil => intro m s c hs hc hsep; exact ⟨hs, hc, hsep⟩
  | cons p μs ih =>
    intro m s c hs hc hsep
    obtain ⟨t, μ⟩ := p
    cases t with
    | true =>
      obtain ⟨_, h2, h3, h4⟩ := μ.apply_separate m s c hs hc (fun b hb e => hsep b e hb)
      exact ih _ _ _ h2 h3 (fun b hb e => h4 b e hb)
    | false =>
      obtain ⟨_, h2, h3, h4⟩ := μ.apply_separate m c s hc hs hsep
      exact ih _ _ _ h3 h2 h4

/-! ## The iterator returned by `insert` -/

theorem insert_iterator_no_growth (m : Memory T) (v : vector) (a : List T) (i : Nat) (x : T)
    (hn : NoFail m) (h : Holds m v a) (hi : i ≤ a.length) (hlt : size v < capacity v) :
    (insert m v ((begin v).add i) x).ret =
      .returned ((begin (insert m v ((begin v).add i) x).self).add i) := by
  obtain ⟨h1, h2, _⟩ := insert_holds m v a i x hn h hi
  obtain ⟨_, _, _, g4⟩ := push_back_holds m v a x hn h
  have hne : v.size_ ≠ v.capacity_ := by
    unfold size capacity at hlt
    omega
  rw [if_neg hne] at g4
  have hd : (insert m v ((begin v).add i) x).self.data_ = v.data_ := by rw [h2, g4]
  rw [h1]
  show Ret.returned (v.data_.add i) = Ret.returned ((insert m v ((begin v).add i) x).self.data_.add i)
  rw [hd]

theorem insert_iterator_growth (m : Memory T) (v : vector) (a : List T) (i : Nat) (x : T)
    (hn : NoFail m) (h : Holds m v a) (hi : i ≤ a.length) (hfull : size v = capacity v) :
    (insert m v ((begin v).add i) x).ret = .returned ((begin v).add i) ∧
    (begin (insert m v ((begin v).add i) x).self).add i = ⟨some m.heap.length, i⟩ ∧
    (begin v).add i ≠ (begin (insert m v ((begin v).add i) x).self).add i ∧
    (insert m v ((begin v).add i) x).mem.read ((begin v).add i) = none := by
  obtain ⟨h1, h2, h3⟩ := insert_holds m v a i x hn h hi
  obtain ⟨_, g2, _, g4⟩ := push_back_holds m v a x hn h
  have hfull2 : v.size_ = v.capacity_ := hfull
  rw [if_pos hfull2] at g4
  have hd : (insert m v ((begin v).add i) x).self.data_ = ⟨some m.heap.length, 0⟩ := by
    rw [h2, g4]
  have hb2 : (begin (insert m v ((begin v).add i) x).self).add i = ⟨some m.heap.length, i⟩ := by
    show (insert m v ((begin v).add i) x).self.data_.add i = _
    rw [hd]
    simp [Ptr.add]
  have hne : (begin v).add i ≠ ⟨some m.heap.length, i⟩ := by
    intro e
    have e2 : v.data_.block = some m.heap.length := congrArg Ptr.block e
    have := h.block_lt e2
    omega
  refine ⟨h1, hb2, by rw [hb2]; exact hne, ?_⟩
  show heap_read _ _ = none
  unfold heap_read
  cases hb : ((begin v).add i).block with
  | none => rfl
  | some b =>
    have hvb : v.data_.block = some b := hb
    simp only
    -- the old block was released by `push_back` and is not touched by the exchange loop
    have hrel : (push_back m v x).mem.heap[b]? = some none := by
      unfold push_back
      rw [if_pos hfull]
      have hc : a.length < (if capacity v = 0 then 1 else capacity v * 2) := by
        have := h.1
        show a.length < (if v.capacity_ = 0 then 1 else v.capacity_ * 2)
        split <;> omega
      exact (change_cap_push_back_holds m v a _ x hn h hc).2.2.2 b hvb
    have hnb : (push_back m v x).self.data_.block ≠ some b := by
      rw [g4]
      have := h.block_lt hvb
      simp
      omega
    have hkeep := insert_loop_keeps (push_back m v x).self.data_ i b hnb
      ((push_back m v x).self.size_ - 1) (push_back m v x).mem
      (lt_length_of_getElem? _ _ _ hrel)
    have hmem : (insert m v ((begin v).add i) x).mem.heap[b]? = some none := by
      have hd : distance (begin v) ((begin v).add i) = i := by simp [distance, Ptr.add]
      unfold insert
      rw [hd]
      have hret := (push_back_holds m v a x hn h).1
      rcases e : push_back m v x with ⟨m1, v1, r⟩
      rw [e] at hkeep hrel hret
      simp only at hkeep hrel hret
      subst hret
      simp only
      rw [hkeep.2, hrel]
    rw [hmem]
/-! ## Copy assignment -/

theorem reserve_default_fresh (m : Memory T) (n c : Nat) (hc : c < m.heap.length) :
    c < (reserve m vector.default n).mem.heap.length ∧
    (reserve m vector.default n).mem.heap[c]? = m.heap[c]? ∧
    (reserve m vector.default n).self.data_.block ≠ some c :=
  (reserve_frame m vector.default n).2 c hc (by simp [vector.default, nullptr])

theorem push_back_without_extend_checking_frame (m : Memory T) (v : vector) (x : Option T) :
    Frame v m (push_back_without_extend_checking m v x) ∧
    (push_back_without_extend_checking m v x).self.data_ = v.data_ := by
  have hs := construct_same m (end_ v) x
  have hk := fun c hc => construct_keeps m (end_ v) x c hc
  unfold push_back_without_extend_checking
  rcases e : construct m (end_ v) x with ⟨m1, ok⟩
  rw [e] at hs hk
  cases ok
  · exact ⟨Frame.of_keeps hs (fun c hv => hk c hv) (fun _ _ hv => hv), rfl⟩
  · exact ⟨Frame.of_keeps hs (fun c hv => hk c hv) (fun _ _ hv => hv), rfl⟩

theorem copy_construct_loop_frame (other : vector) : ∀ (n i : Nat) (m : Memory T) (v : vector),
    Frame v m (copy_construct_loop other n i m v) ∧
    (copy_construct_loop other n i m v).self.data_ = v.data_ := by
  intro n
  induction n with
  | zero =>
    intro i m v
    exact ⟨Frame.of_keeps (Continues.refl m) (fun c _ => Keeps.same c m) (fun _ _ hv => hv), rfl⟩
  | succ n ih =>
    intro i m v
    obtain ⟨⟨hs, hf⟩, hd⟩ := push_back_without_extend_checking_frame m v
      (m.read (other.data_.add i))
    unfold copy_construct_loop
    rcases e : push_back_without_extend_checking m v (m.read (other.data_.add i)) with ⟨m1, v1, r⟩
    rw [e] at hs hf hd
    simp only at hs hf hd
    cases r with
    | threw f => exact ⟨⟨hs, hf⟩, hd⟩
    | returned u =>
      simp only
      obtain ⟨⟨hs2, hf2⟩, hd2⟩ := ih (i + 1) m1 v1
      refine ⟨⟨hs.trans hs2, ?_⟩, hd2.trans hd⟩
      intro c hc hv
      obtain ⟨h1, h2, h3⟩ := hf c hc hv
      obtain ⟨g1, g2, g3⟩ := hf2 c h1 h3
      exact ⟨g1, g2.trans h2, g3⟩

theorem destructor_frame (m : Memory T) (v : vector) :
    Continues m (destructor m v) ∧ ∀ c, v.data_.block ≠ some c → Keeps c m (destructor m v) :=
  ⟨(destroy_down_same v.data_ v.size_ m).trans (operator_delete_same _ v.data_),
    fun c hv => (destroy_down_keeps v.data_ c hv v.size_ m).andThen
      (operator_delete_keeps _ v.data_ c hv)⟩

/-- The copy constructor touches no block that existed before the call, and
the storage of the new object is none of them. -/
theorem copy_constructor_fresh (m : Memory T) (other : vector) :
    Continues m (copy_constructor m other).mem ∧
    ∀ c, c < m.heap.length →
      c < (copy_constructor m other).mem.heap.length ∧
      (copy_constructor m other).mem.heap[c]? = m.heap[c]? ∧
      (copy_constructor m other).self.data_.block ≠ some c := by
  have hs1 := (reserve_frame m vector.default (size other)).1
  have hf1 := reserve_default_fresh m (size other)
  unfold copy_constructor
  rcases e1 : reserve m vector.default (size other) with ⟨m1, v1, r1⟩
  rw [e1] at hs1 hf1
  simp only at hs1 hf1
  cases r1 with
  | threw f =>
    simp only
    obtain ⟨hd1, hd2⟩ := destructor_frame m1 v1
    refine ⟨hs1.trans hd1, ?_⟩
    intro c hc
    obtain ⟨h1, h2, h3⟩ := hf1 c hc
    have := hd2 c h3 h1
    exact ⟨this.1, this.2.trans h2, h3⟩
  | returned u =>
    simp only
    obtain ⟨⟨hs2, hf2⟩, hd2⟩ := copy_construct_loop_frame other other.size_ 0 m1 v1
    rcases e2 : copy_construct_loop other other.size_ 0 m1 v1 with ⟨m2, v2, r2⟩
    rw [e2] at hs2 hf2 hd2
    simp only at hs2 hf2 hd2
    cases r2 with
    | threw f =>
      simp only
      obtain ⟨hd3, hd4⟩ := destructor_frame m2 v2
      refine ⟨(hs1.trans hs2).trans hd3, ?_⟩
      intro c hc
      obtain ⟨h1, h2, h3⟩ := hf1 c hc
      obtain ⟨g1, g2, g3⟩ := hf2 c h1 h3
      have := hd4 c g3 g1
      exact ⟨this.1, (this.2.trans g2).trans h2, g3⟩
    | returned u2 =>
      simp only
      refine ⟨hs1.trans hs2, ?_⟩
      intro c hc
      obtain ⟨h1, h2, h3⟩ := hf1 c hc
      obtain ⟨g1, g2, g3⟩ := hf2 c h1 h3
      exact ⟨g1, g2.trans h2, g3⟩
/-! ## A call that returns does what it does when nothing is scheduled to throw -/

theorem NoFail.quieted (m : Memory T) : NoFail m.quieted := fun _ => ⟨rfl, rfl⟩

theorem Holds.of_quieted {m : Memory T} {v : vector} {a : List T} (h : Holds m.quieted v a) :
    Holds m v a := h

theorem Holds.to_quieted {m : Memory T} {v : vector} {a : List T} (h : Holds m v a) :
    Holds m.quieted v a := h

theorem destroy_down_quieted (p : Ptr) : ∀ (j : Nat) (m : Memory T),
    destroy_down p j m.quieted = (destroy_down p j m).quieted := by
  intro j
  induction j with
  | zero => intro m; rfl
  | succ j ih => intro m; exact ih (destroy m (p.add j))

theorem operator_delete_quieted (m : Memory T) (p : Ptr) :
    operator_delete m.quieted p = (operator_delete m p).quieted := by
  unfold operator_delete
  split <;> rfl

theorem destructor_quieted (m : Memory T) (v : vector) :
    destructor m.quieted v = (destructor m v).quieted := by
  unfold destructor destroy_elements
  rw [destroy_down_quieted, operator_delete_quieted]

theorem construct_quieted (m : Memory T) (p : Ptr) (x : Option T)
    (h : (construct m p x).2 = true) :
    construct m.quieted p x = ((construct m p x).1.quieted, true) := by
  unfold construct at h ⊢
  by_cases ht : m.copy_throws (m.copies + 1) = true
  · rw [if_pos ht] at h
    cases h
  · rw [if_neg ht]
    simp [Memory.quieted, Memory.store, Memory.log]

theorem operator_new_quieted (m : Memory T) (n : Nat) (p : Ptr)
    (h : (operator_new m n).2 = some p) :
    operator_new m.quieted n = ((operator_new m n).1.quieted, some p) := by
  unfold operator_new at h ⊢
  by_cases ht : m.new_throws (m.news + 1) = true
  · rw [if_pos ht] at h
    cases h
  · rw [if_neg ht] at h ⊢
    simp only [Option.some.injEq] at h
    subst h
    simp [Memory.quieted, Memory.log]

theorem new_storage_quieted (m : Memory T) (n : Nat) (p : Ptr)
    (h : (new_storage m n).2 = some p) :
    new_storage m.quieted n = ((new_storage m n).1.quieted, some p) := by
  unfold new_storage at h ⊢
  split
  · rename_i h0
    rw [if_pos h0] at h
    simp only [Option.some.injEq] at h
    rw [h]
  · rename_i h0
    rw [if_neg h0] at h
    exact operator_new_quieted m n p h

theorem copy_elements_quieted (src dst : Ptr) : ∀ (n i : Nat) (m : Memory T),
    (copy_elements src dst n i m).2 = true →
    copy_elements src dst n i m.quieted = ((copy_elements src dst n i m).1.quieted, true) := by
  intro n
  induction n with
  | zero => intro i m _; rfl
  | succ n ih =>
    intro i m h
    have hq := construct_quieted m (dst.add i) (m.read (src.add i))
    rcases e : construct m (dst.add i) (m.read (src.add i)) with ⟨m1, ok⟩
    rw [e] at hq
    cases ok with
    | false =>
      rw [copy_elements, e] at h
      cases h
    | true =>
      have key : copy_elements src dst (n + 1) i m = copy_elements src dst n (i + 1) m1 := by
        rw [copy_elements, e]
      have keyq : copy_elements src dst (n + 1) i m.quieted =
          copy_elements src dst n (i + 1) m1.quieted := by
        rw [copy_elements]
        show (match construct m.quieted (dst.add i) (m.read (src.add i)) with
          | (m1, true) => copy_elements src dst n (i + 1) m1
          | (m1, false) => (operator_delete (destroy_down dst i m1) dst, false)) = _
        rw [hq rfl]
      rw [key] at h ⊢
      rw [keyq]
      exact ih (i + 1) m1 h

theorem change_capacity_quieted (m : Memory T) (v : vector) (new_cap : Nat)
    (h : (change_capacity m v new_cap).ret = .returned ()) :
    change_capacity m.quieted v new_cap =
      ⟨(change_capacity m v new_cap).mem.quieted, (change_capacity m v new_cap).self,
        .returned ()⟩ := by
  have hq1 := new_storage_quieted m new_cap
  unfold change_capacity at h ⊢
  rcases e1 : new_storage m new_cap with ⟨m1, op⟩
  rw [e1] at h hq1
  cases op with
  | none => simp only at h; cases h
  | some new_data =>
    simp only at h hq1 ⊢
    rw [hq1 new_data rfl]
    simp only
    have hq2 := copy_elements_quieted v.data_ new_data v.size_ 0 m1
    rcases e2 : copy_elements v.data_ new_data v.size_ 0 m1 with ⟨m2, ok⟩
    rw [e2] at h hq2
    cases ok with
    | false => simp only at h; cases h
    | true =>
      simp only at hq2 ⊢
      rw [hq2 trivial]
      simp only
      unfold destroy_elements
      rw [destroy_down_quieted, operator_delete_quieted]

theorem reserve_quieted (m : Memory T) (v : vector) (n : Nat)
    (h : (reserve m v n).ret = .returned ()) :
    reserve m.quieted v n =
      ⟨(reserve m v n).mem.quieted, (reserve m v n).self, .returned ()⟩ := by
  unfold reserve at h ⊢
  split
  · rename_i hlt
    rw [if_pos hlt] at h
    exact change_capacity_quieted m v n h
  · rfl

theorem push_back_without_extend_checking_quieted (m : Memory T) (v : vector) (x : Option T)
    (h : (push_back_without_extend_checking m v x).ret = .returned ()) :
    push_back_without_extend_checking m.quieted v x =
      ⟨(push_back_without_extend_checking m v x).mem.quieted,
        (push_back_without_extend_checking m v x).self, .returned ()⟩ := by
  have hq := construct_quieted m (end_ v) x
  unfold push_back_without_extend_checking at h ⊢
  rcases e : construct m (end_ v) x with ⟨m1, ok⟩
  rw [e] at h hq
  cases ok with
  | false => simp only at h; cases h
  | true =>
    simp only at hq ⊢
    rw [hq trivial]

theorem copy_construct_loop_quieted (other : vector) : ∀ (n i : Nat) (m : Memory T) (v : vector),
    (copy_construct_loop other n i m v).ret = .returned () →
    copy_construct_loop other n i m.quieted v =
      ⟨(copy_construct_loop other n i m v).mem.quieted, (copy_construct_loop other n i m v).self,
        .returned ()⟩ := by
  intro n
  induction n with
  | zero => intro i m v _; rfl
  | succ n ih =>
    intro i m v h
    have hq := push_back_without_extend_checking_quieted m v (m.read (other.data_.add i))
    rcases e : push_back_without_extend_checking m v (m.read (other.data_.add i)) with ⟨m1, v1, r⟩
    rw [e] at hq
    cases r with
    | threw f =>
      rw [copy_construct_loop, e] at h
      cases h
    | returned u =>
      have key : copy_construct_loop other (n + 1) i m v =
          copy_construct_loop other n (i + 1) m1 v1 := by
        rw [copy_construct_loop, e]
      have keyq : copy_construct_loop other (n + 1) i m.quieted v =
          copy_construct_loop other n (i + 1) m1.quieted v1 := by
        rw [copy_construct_loop]
        show (match push_back_without_extend_checking m.quieted v
            (m.read (other.data_.add i)) with
          | ⟨m1, v1, .returned _⟩ => copy_construct_loop other n (i + 1) m1 v1
          | ⟨m1, v1, .threw f⟩ => ⟨m1, v1, .threw f⟩) = _
        rw [hq rfl]
      rw [key] at h ⊢
      rw [keyq]
      exact ih (i + 1) m1 v1 h

theorem copy_constructor_quieted (m : Memory T) (other : vector)
    (h : (copy_constructor m other).ret = .returned ()) :
    copy_constructor m.quieted other =
      ⟨(copy_constructor m other).mem.quieted, (copy_constructor m other).self,
        .returned ()⟩ := by
  have hq1 := reserve_quieted m vector.default (size other)
  unfold copy_constructor at h ⊢
  rcases e1 : reserve m vector.default (size other) with ⟨m1, v1, r1⟩
  rw [e1] at h hq1
  cases r1 with
  | threw f => simp only at h; cases h
  | returned u =>
    simp only at h hq1 ⊢
    rw [hq1 trivial]
    simp only
    have hq2 := copy_construct_loop_quieted other other.size_ 0 m1 v1
    rcases e2 : copy_construct_loop other other.size_ 0 m1 v1 with ⟨m2, v2, r2⟩
    rw [e2] at h hq2
    cases r2 with
    | threw f => simp only at h; cases h
    | returned u2 =>
      simp only at hq2 ⊢
      rw [hq2 trivial]

/-- The copy constructor, whenever it returns: the new object holds the
elements of the source, the source is unchanged, and the two have separate
storage. -/
theorem copy_constructor_returned (m : Memory T) (s : vector) (a : List T)
    (h : Holds m s a) (hret : (copy_constructor m s).ret = .returned ()) :
    Holds (copy_constructor m s).mem (copy_constructor m s).self a ∧
    Holds (copy_constructor m s).mem s a := by
  obtain ⟨_, h2, h3, _, _⟩ := copy_constructor_holds m.quieted s a (NoFail.quieted m)
    h.to_quieted
  rw [copy_constructor_quieted m s hret] at h2 h3
  exact ⟨h2.of_quieted, h3.of_quieted⟩
/-- C10: copy construction from a vector `s`, whenever it returns, gives a vector
`c` with `c.size() == s.size()` and `c[i] == s[i]` for every `i < size`,
leaves `s` unchanged, and gives `c` storage of its own.  After any later
`push_back`, `pop_back`, `clear`, `insert`, `erase` or element writes applied
to `c`, `s` has the size and element sequence it had, and the other way
round; and in every state reached by such calls applied to `s` and `c` in any
order, one more call on either leaves the element sequence of the other as it
was.  (This holds for all arguments of the calls, in particular for those
that meet the C++ preconditions.) -/
theorem copy_constructor_independent (m : Memory T) (s : vector) (a : List T)
    (h : Holds m s a) (hret : (copy_constructor m s).ret = .returned ()) :
    ∃ (mc : Memory T) (c : vector), copy_constructor m s = ⟨mc, c, .returned ()⟩ ∧
      size c = size s ∧
      (∀ i, i < size s → mc.read (index c i) = m.read (index s i)) ∧
      elements mc c = a.map some ∧
      elements mc s = elements m s ∧
      (∀ b, s.data_.block = some b → c.data_.block ≠ some b) ∧
      (∀ μs : List (Mutation T), elements (Mutation.apply_all μs mc c).1 s = elements m s) ∧
      (∀ μs : List (Mutation T), elements (Mutation.apply_all μs mc s).1 c = elements mc c) ∧
      (∀ (μs : List (Bool × Mutation T)) (μ : Mutation T),
        elements (μ.apply (Mutation.apply_both μs mc s c).1 (Mutation.apply_both μs mc s c).2.1).1
            (Mutation.apply_both μs mc s c).2.2 =
          elements (Mutation.apply_both μs mc s c).1 (Mutation.apply_both μs mc s c).2.2 ∧
        elements (μ.apply (Mutation.apply_both μs mc s c).1 (Mutation.apply_both μs mc s c).2.2).1
            (Mutation.apply_both μs mc s c).2.1 =
          elements (Mutation.apply_both μs mc s c).1 (Mutation.apply_both μs mc s c).2.1) := by
  obtain ⟨h2, h3⟩ := copy_constructor_returned m s a h hret
  have h4 : ∀ b, s.data_.block = some b → (copy_constructor m s).self.data_.block ≠ some b :=
    fun b hb => ((copy_constructor_fresh m s).2 b (h.block_lt hb)).2.2
  have h1 := hret
  rcases e : copy_constructor m s with ⟨mc, c, r⟩
  rw [e] at h1 h2 h3 h4
  simp only at h1 h2 h3 h4
  subst h1
  refine ⟨mc, c, rfl, ?_, ?_, h2.elements_eq, ?_, h4, ?_, ?_, ?_⟩
  · rw [h2.size_eq, h.size_eq]
  · intro i hi
    rw [h.size_eq] at hi
    rw [h2.read i hi, h.read i hi]
  · rw [h3.elements_eq, h.elements_eq]
  · intro μs
    rw [(h3.apply_all c h4 μs).elements_eq, h.elements_eq]
  · intro μs
    rw [(h2.apply_all s (fun b hb e => h4 b e hb) μs).elements_eq, h2.elements_eq]
  · intro μs μ
    obtain ⟨g1, g2, g3⟩ := Mutation.apply_both_separate μs mc s c h3.to_live h2.to_live h4
    exact ⟨(μ.apply_separate _ _ _ g1 g2 (fun b hb e => g3 b e hb)).1,
      (μ.apply_separate _ _ _ g2 g1 g3).1⟩

theorem copy_constructor_independent_witness :
    ∃ (mc : Memory Nat) (c : vector),
      copy_constructor ((pushed [10, 20, 30]).mem.with_copy_failure 4)
        (pushed [10, 20, 30]).self = ⟨mc, c, .returned ()⟩ ∧
      elements mc c = [some 10, some 20, some 30] ∧
      (push_back mc c 40).ret = .threw .copy_failed ∧
      elements (Mutation.apply_all
        [Mutation.push_back 40, Mutation.assign_at 0 7, Mutation.erase 1] mc c).1
        (pushed [10, 20, 30]).self = [some 10, some 20, some 30] := by
  obtain ⟨mc, c, h1, _, _, h4, _, _, h7, _⟩ :=
    copy_constructor_independent ((pushed [10, 20, 30]).mem.with_copy_failure 4)
      (pushed [10, 20, 30]).self [10, 20, 30] (pushed_holds [10, 20, 30]).2 (by decide)
  refine ⟨mc, c, h1, h4, ?_, (h7 _).trans (pushed_holds [10, 20, 30]).2.elements_eq⟩
  have hm : mc = (copy_constructor ((pushed [10, 20, 30]).mem.with_copy_failure 4)
      (pushed [10, 20, 30]).self).mem := by rw [h1]
  have hc : c = (copy_constructor ((pushed [10, 20, 30]).mem.with_copy_failure 4)
      (pushed [10, 20, 30]).self).self := by rw [h1]
  rw [hm, hc]
  decide
theorem push_all_frame (xs : List T) : ∀ (m : Memory T) (v : vector),
    Frame v m (push_all m v xs) := by
  induction xs with
  | nil =>
    intro m v
    exact Frame.of_keeps (Continues.refl m) (fun c _ => Keeps.same c m) (fun _ _ hv => hv)
  | cons x xs ih =>
    intro m v
    obtain ⟨hs, hf⟩ := push_back_frame m v x
    unfold push_all
    rcases e : push_back m v x with ⟨m1, v1, r⟩
    rw [e] at hs hf
    simp only at hs hf
    cases r with
    | threw f => exact ⟨hs, hf⟩
    | returned u =>
      simp only
      obtain ⟨hs2, hf2⟩ := ih m1 v1
      refine ⟨hs.trans hs2, ?_⟩
      intro c hc hv
      obtain ⟨h1, h2, h3⟩ := hf c hc hv
      obtain ⟨g1, g2, g3⟩ := hf2 c h1 h3
      exact ⟨g1, g2.trans h2, g3⟩

theorem pushed_two_holds (xs ys : List Nat) :
    NoFail (pushed_two xs ys).1 ∧
    Holds (pushed_two xs ys).1 (pushed_two xs ys).2.1 xs ∧
    Holds (pushed_two xs ys).1 (pushed_two xs ys).2.2 ys ∧
    (∀ c, (pushed_two xs ys).2.1.data_.block = some c →
      (pushed_two xs ys).2.2.data_.block ≠ some c) := by
  obtain ⟨hn, h1⟩ := pushed_holds xs
  obtain ⟨_, h2, h3⟩ := push_all_holds ys (pushed xs).mem vector.default [] hn (Holds.default _)
  obtain ⟨_, hf⟩ := push_all_frame ys (pushed xs).mem vector.default
  have hnull : ∀ c, vector.default.data_.block ≠ some c := by
    intro c
    simp [vector.default, nullptr]
  refine ⟨h3, ?_, by simpa using h2, ?_⟩
  · exact h1.keeps (fun c hc hl => ⟨(hf c hl (hnull c)).1, (hf c hl (hnull c)).2.1⟩)
  · intro c hc
    exact (hf c (h1.block_lt hc) (hnull c)).2.2

theorem swap_fst (a b : vector) : (swap a b).1 = b := rfl

theorem swap_snd (a b : vector) : (swap a b).2 = a := rfl

/-- C11: copy assignment `a = b` is atomic.  If building the temporary copy
of `b` throws (allocation or element copy), the assignment throws the same
failure and `a` has the members and the element sequence it had.  If building
the copy returns, the assignment returns, the size and element sequence of
`a` are those of `b`, and `b` is unchanged.  Self-assignment `a = a` returns
and leaves the memory and `a` untouched. -/
theorem copy_assign_atomic (m : Memory T) (a b : vector) (xa xb : List T)
    (ha : Holds m a xa) (hb : Holds m b xb)
    (hsep : ∀ c, a.data_.block = some c → b.data_.block ≠ some c) :
    (∀ f, (copy_constructor m b).ret = .threw f →
      (copy_assign m a (some b)).ret = .threw f ∧
      (copy_assign m a (some b)).self = a ∧
      size (copy_assign m a (some b)).self = size a ∧
      capacity (copy_assign m a (some b)).self = capacity a ∧
      elements (copy_assign m a (some b)).mem (copy_assign m a (some b)).self = elements m a) ∧
    ((copy_constructor m b).ret = .returned () →
      (copy_assign m a (some b)).ret = .returned () ∧
      size (copy_assign m a (some b)).self = size b ∧
      elements (copy_assign m a (some b)).mem (copy_assign m a (some b)).self = elements m b ∧
      elements (copy_assign m a (some b)).mem b = elements m b) ∧
    ((copy_assign m a none).ret = .returned () ∧ (copy_assign m a none).mem = m ∧
      (copy_assign m a none).self = a) := by
  refine ⟨?_, ?_, rfl, rfl, rfl⟩
  · intro f hf
    obtain ⟨_, hfr⟩ := copy_constructor_fresh m b
    simp only [copy_assign]
    rcases e : copy_constructor m b with ⟨m1, tmp, r⟩
    rw [e] at hf hfr
    simp only at hf hfr
    subst hf
    simp only
    have hh : Holds m1 a xa :=
      ha.keeps (fun c _ hl => ⟨(hfr c hl).1, (hfr c hl).2.1⟩)
    exact ⟨trivial, trivial, trivial, trivial, by rw [hh.elements_eq, ha.elements_eq]⟩
  · intro h1
    obtain ⟨h2, h3⟩ := copy_constructor_returned m b xb hb h1
    obtain ⟨_, hfr⟩ := copy_constructor_fresh m b
    simp only [copy_assign]
    rcases e : copy_constructor m b with ⟨m1, tmp, r⟩
    rw [e] at h1 h2 h3 hfr
    simp only at h1 h2 h3 hfr
    subst h1
    simp only [swap_fst, swap_snd]
    obtain ⟨_, hd⟩ := destructor_frame m1 a
    have ht : Holds (destructor m1 a) tmp xb := h2.keeps (fun c hc => hd c (by
      intro e2
      exact (hfr c (ha.block_lt e2)).2.2 hc))
    have hb2 : Holds (destructor m1 a) b xb := h3.keeps (fun c hc => hd c (by
      intro e2
      exact hsep c e2 hc))
    refine ⟨trivial, ?_, ?_, ?_⟩
    · rw [ht.size_eq, hb.size_eq]
    · rw [ht.elements_eq, hb.elements_eq]
    · rw [hb2.elements_eq, hb.elements_eq]

theorem copy_assign_atomic_witness :
    (copy_assign (pushed_two [1, 2] [10, 20, 30]).1.with_new_failure
        (pushed_two [1, 2] [10, 20, 30]).2.1 (some (pushed_two [1, 2] [10, 20, 30]).2.2)).ret =
      .threw .bad_alloc ∧
    elements (copy_assign (pushed_two [1, 2] [10, 20, 30]).1.with_new_failure
        (pushed_two [1, 2] [10, 20, 30]).2.1 (some (pushed_two [1, 2] [10, 20, 30]).2.2)).mem
      (copy_assign (pushed_two [1, 2] [10, 20, 30]).1.with_new_failure
        (pushed_two [1, 2] [10, 20, 30]).2.1 (some (pushed_two [1, 2] [10, 20, 30]).2.2)).self =
      [some 1, some 2] ∧
    elements (copy_assign (pushed_two [1, 2] [10, 20, 30]).1
        (pushed_two [1, 2] [10, 20, 30]).2.1 (some (pushed_two [1, 2] [10, 20, 30]).2.2)).mem
      (copy_assign (pushed_two [1, 2] [10, 20, 30]).1
        (pushed_two [1, 2] [10, 20, 30]).2.1 (some (pushed_two [1, 2] [10, 20, 30]).2.2)).self =
      [some 10, some 20, some 30] :=
  have hp := pushed_two_holds [1, 2] [10, 20, 30]
  have h := copy_assign_atomic (pushed_two [1, 2] [10, 20, 30]).1.with_new_failure
    (pushed_two [1, 2] [10, 20, 30]).2.1 (pushed_two [1, 2] [10, 20, 30]).2.2 [1, 2] [10, 20, 30]
    hp.2.1 hp.2.2.1 hp.2.2.2
  have g := copy_assign_atomic (pushed_two [1, 2] [10, 20, 30]).1
    (pushed_two [1, 2] [10, 20, 30]).2.1 (pushed_two [1, 2] [10, 20, 30]).2.2 [1, 2] [10, 20, 30]
    hp.2.1 hp.2.2.1 hp.2.2.2
  ⟨(h.1 .bad_alloc (by decide)).1,
    (h.1 .bad_alloc (by decide)).2.2.2.2.trans hp.2.1.elements_eq,
    (g.2.1 (by decide)).2.2.1.trans hp.2.2.1.elements_eq⟩
/-! ## `swap` and `clear` -/

/-- C12: after `a.swap(b)` the storage pointer, size, capacity and element
sequence of `a` are those `b` had before and those of `b` are those `a` had
before; the call has no failing outcome and does not touch the memory; and
calling `swap` twice restores both objects. -/
theorem swap_exchanges (m : Memory T) (a b : vector) :
    (swap a b).1 = b ∧ (swap a b).2 = a ∧
    data (swap a b).1 = data b ∧ size (swap a b).1 = size b ∧
    capacity (swap a b).1 = capacity b ∧ elements m (swap a b).1 = elements m b ∧
    data (swap a b).2 = data a ∧ size (swap a b).2 = size a ∧
    capacity (swap a b).2 = capacity a ∧ elements m (swap a b).2 = elements m a ∧
    swap (swap a b).1 (swap a b).2 = (a, b) :=
  ⟨rfl, rfl, rfl, rfl, rfl, rfl, rfl, rfl, rfl, rfl, rfl⟩

theorem clear_holds (m : Memory T) (v : vector) (a : List T) (h : Holds m v a) :
    Holds (clear m v).mem (clear m v).self [] := by
  cases hb : v.data_.block with
  | none =>
    obtain ⟨_, hsz, hcap⟩ := h.of_null hb
    refine ⟨rfl, Nat.zero_le _, h.2.2.1, ?_⟩
    show (match v.data_.block with
      | none => v.capacity_ = 0
      | some b => 0 < v.capacity_ ∧ (clear m v).mem.heap[b]? = some (some (layout [] v.capacity_)))
    rw [hb]
    exact hcap
  | some b =>
    obtain ⟨e, hcap, hh⟩ := h.of_live hb
    refine Holds.live b e rfl (Nat.zero_le _) hcap ?_
    show (destroy_down v.data_ v.size_ m).heap[b]? = _
    rw [e, h.1]
    exact destroy_down_block b v.capacity_ a m h.2.1 hh

/-- C16: `clear()` has no failing outcome; it returns with `size() == 0`, so
`empty()` is true and `begin() == end()`, while `capacity()` and the storage
pointer are those before the call.  On a well-formed vector every slot of the
buffer is raw afterwards. -/
theorem clear_keeps_capacity (m : Memory T) (v : vector) :
    (clear m v).ret = .returned () ∧
    size (clear m v).self = 0 ∧
    empty (clear m v).self = true ∧
    begin (clear m v).self = end_ (clear m v).self ∧
    capacity (clear m v).self = capacity v ∧
    data (clear m v).self = data v ∧
    (∀ a : List T, Holds m v a → Holds (clear m v).mem (clear m v).self []) := by
  refine ⟨rfl, rfl, ?_, rfl, rfl, rfl, fun a h => clear_holds m v a h⟩
  simp [empty, begin, end_, clear, Ptr.add]

theorem clear_keeps_capacity_witness :
    capacity (clear (pushed [10, 20, 30]).mem (pushed [10, 20, 30]).self).self = 4 ∧
    elements (clear (pushed [10, 20, 30]).mem (pushed [10, 20, 30]).self).mem
      (clear (pushed [10, 20, 30]).mem (pushed [10, 20, 30]).self).self = [] :=
  have h := clear_keeps_capacity (pushed [10, 20, 30]).mem (pushed [10, 20, 30]).self
  ⟨h.2.2.2.2.1, (h.2.2.2.2.2.2 [10, 20, 30] (pushed_holds [10, 20, 30]).2).elements_eq⟩
/-! ## The growth policy -/

theorem change_cap_push_back_returned (m : Memory T) (v : vector) (new_cap : Nat) (x : T)
    (h : (change_cap_push_back m v new_cap x).ret = .returned ()) :
    (change_cap_push_back m v new_cap x).self.size_ = v.size_ + 1 ∧
    (change_cap_push_back m v new_cap x).self.capacity_ = new_cap ∧
    ∃ p, (new_storage m new_cap).2 = some p ∧
      (change_cap_push_back m v new_cap x).self.data_ = p := by
  unfold change_cap_push_back at h ⊢
  rcases e1 : new_storage m new_cap with ⟨m1, op⟩
  rw [e1] at h
  cases op with
  | none => simp only at h; cases h
  | some new_data =>
    simp only at h ⊢
    rcases e2 : copy_elements v.data_ new_data v.size_ 0 m1 with ⟨m2, ok⟩
    rw [e2] at h
    cases ok with
    | false => simp only at h; cases h
    | true =>
      simp only at h ⊢
      rcases e3 : construct m2 (new_data.add v.size_) (some x) with ⟨m3, ok3⟩
      rw [e3] at h
      cases ok3 with
      | false => simp only at h; cases h
      | true => exact ⟨rfl, rfl, new_data, rfl, rfl⟩

theorem push_back_returned (m : Memory T) (v : vector) (x : T)
    (h : (push_back m v x).ret = .returned ()) :
    (push_back m v x).self.size_ = v.size_ + 1 ∧
    (push_back m v x).self.capacity_ =
      (if v.size_ = v.capacity_ then (if v.capacity_ = 0 then 1 else v.capacity_ * 2)
        else v.capacity_) := by
  unfold push_back size capacity at h ⊢
  by_cases hg : v.size_ = v.capacity_
  · rw [if_pos hg] at h ⊢
    rw [if_pos hg]
    obtain ⟨h1, h2, _⟩ := change_cap_push_back_returned m v _ x h
    exact ⟨h1, h2⟩
  · rw [if_neg hg] at h ⊢
    rw [if_neg hg]
    rcases e : construct m (end_ v) (some x) with ⟨m1, ok⟩
    rw [e] at h
    cases ok with
    | false => simp only at h; cases h
    | true => exact ⟨rfl, rfl⟩

theorem push_back_capacity_of_room (m : Memory T) (v : vector) (x : T)
    (h : v.size_ ≠ v.capacity_) : (push_back m v x).self.capacity_ = v.capacity_ := by
  unfold push_back size capacity
  rw [if_neg h]
  rcases e : construct m (end_ v) (some x) with ⟨m1, ok⟩
  cases ok <;> rfl

/-- C14: growth policy.  A `push_back` that returns, called with
`size() == capacity() == c`, leaves `capacity() == max(1, 2 * c)`, which is
`1` for `c = 0` and `2 * c` otherwise; a `push_back` called with
`size() < c` leaves the capacity equal to `c`; and on a well-formed vector
with no failure scheduled the call does return. -/
theorem push_back_growth (m : Memory T) (v : vector) (x : T) :
    (size v = capacity v → (push_back m v x).ret = .returned () →
      capacity (push_back m v x).self = max 1 (2 * capacity v) ∧
      (capacity v = 0 → capacity (push_back m v x).self = 1) ∧
      (capacity v ≠ 0 → capacity (push_back m v x).self = 2 * capacity v)) ∧
    (size v < capacity v → capacity (push_back m v x).self = capacity v) ∧
    (∀ a : List T, NoFail m → Holds m v a → (push_back m v x).ret = .returned ()) := by
  refine ⟨?_, ?_, fun a hn h => (push_back_holds m v a x hn h).1⟩
  · intro hfull hret
    have hc := (push_back_returned m v x hret).2
    have hfull2 : v.size_ = v.capacity_ := hfull
    rw [if_pos hfull2] at hc
    unfold capacity
    rw [hc]
    refine ⟨?_, ?_, ?_⟩
    · split <;> omega
    · intro h0; rw [if_pos h0]
    · intro h0; rw [if_neg h0]; omega
  · intro hlt
    exact push_back_capacity_of_room m v x (by unfold size capacity at hlt; omega)

theorem push_back_growth_witness :
    capacity (push_back (pushed [10, 20]).mem (pushed [10, 20]).self 30).self = 4 ∧
    capacity (push_back (pushed [10, 20, 30]).mem (pushed [10, 20, 30]).self 40).self = 4 ∧
    capacity (push_back (Memory.quiet Nat) vector.default 10).self = 1 :=
  ⟨((push_back_growth (pushed [10, 20]).mem (pushed [10, 20]).self 30).1 (by decide)
      (by decide)).2.2 (by decide),
    (push_back_growth (pushed [10, 20, 30]).mem (pushed [10, 20, 30]).self 40).2.1 (by decide),
    ((push_back_growth (Memory.quiet Nat) vector.default 10).1 (by decide) (by decide)).2.1
      (by decide)⟩

/-- The capacities reached by doubling from one: zero with no element, else
a power of two that is at least the size and less than twice the size. -/
theorem push_back_doubling (m : Memory T) (v : vector) (x : T)
    (hret : (push_back m v x).ret = .returned ())
    (h : (v.size_ = 0 ∧ v.capacity_ = 0) ∨
      ∃ k, v.capacity_ = 2 ^ k ∧ v.size_ ≤ v.capacity_ ∧ v.capacity_ < 2 * v.size_) :
    ∃ k, (push_back m v x).self.capacity_ = 2 ^ k ∧
      (push_back m v x).self.size_ ≤ (push_back m v x).self.capacity_ ∧
      (push_back m v x).self.capacity_ < 2 * (push_back m v x).self.size_ := by
  obtain ⟨h1, h2⟩ := push_back_returned m v x hret
  rw [h1, h2]
  rcases h with ⟨hs, hc⟩ | ⟨k, hk, hle, hlt⟩
  · refine ⟨0, ?_, ?_, ?_⟩ <;> simp [hs, hc]
  · by_cases hg : v.size_ = v.capacity_
    · have hpos : 0 < 2 ^ k := Nat.pow_pos (by decide)
      have hne : v.capacity_ ≠ 0 := by omega
      refine ⟨k + 1, ?_, ?_, ?_⟩
      · rw [if_pos hg, if_neg hne, hk, Nat.pow_succ]
      · rw [if_pos hg, if_neg hne]; omega
      · rw [if_pos hg, if_neg hne]; omega
    · refine ⟨k, ?_, ?_, ?_⟩
      · rw [if_neg hg, hk]
      · rw [if_neg hg]; omega
      · rw [if_neg hg]; omega

theorem push_all_doubling (xs : List T) : ∀ (m : Memory T) (v : vector),
    (push_all m v xs).ret = .returned () → xs ≠ [] →
    ((v.size_ = 0 ∧ v.capacity_ = 0) ∨
      ∃ k, v.capacity_ = 2 ^ k ∧ v.size_ ≤ v.capacity_ ∧ v.capacity_ < 2 * v.size_) →
    (push_all m v xs).self.size_ = v.size_ + xs.length ∧
    ∃ k, (push_all m v xs).self.capacity_ = 2 ^ k ∧
      (push_all m v xs).self.size_ ≤ (push_all m v xs).self.capacity_ ∧
      (push_all m v xs).self.capacity_ < 2 * (push_all m v xs).self.size_ := by
  induction xs with
  | nil => intro m v _ hne; exact absurd rfl hne
  | cons x xs ih =>
    intro m v hret _ hinv
    unfold push_all at hret ⊢
    have hd := push_back_doubling m v x
    have hr := push_back_returned m v x
    rcases e : push_back m v x with ⟨m1, v1, r⟩
    rw [e] at hret hd hr
    cases r with
    | threw f => simp only at hret; cases hret
    | returned u =>
      simp only at hret hd hr ⊢
      obtain ⟨k, hk1, hk2, hk3⟩ := hd trivial hinv
      obtain ⟨hs1, _⟩ := hr trivial
      cases xs with
      | nil =>
        simp only [push_all, List.length_singleton]
        exact ⟨hs1, k, hk1, hk2, hk3⟩
      | cons y ys =>
        obtain ⟨g1, g2⟩ := ih m1 v1 hret (by simp) (Or.inr ⟨k, hk1, hk2, hk3⟩)
        refine ⟨?_, g2⟩
        rw [g1, hs1]
        simp only [List.length_cons]
        omega

/-- C18: a vector built from a default-constructed one by `n ≥ 1` calls of
`push_back` that all return, and nothing else, has a capacity that is the
smallest power of two that is at least `n`; so `n ≤ capacity() < 2 * n`. -/
theorem push_all_capacity (m : Memory T) (xs : List T) (hne : xs ≠ [])
    (hret : (push_all m vector.default xs).ret = .returned ()) :
    size (push_all m vector.default xs).self = xs.length ∧
    (∃ k, capacity (push_all m vector.default xs).self = 2 ^ k ∧
      xs.length ≤ 2 ^ k ∧ ∀ j, xs.length ≤ 2 ^ j → 2 ^ k ≤ 2 ^ j) ∧
    xs.length ≤ capacity (push_all m vector.default xs).self ∧
    capacity (push_all m vector.default xs).self < 2 * xs.length := by
  obtain ⟨h1, k, h2, h3, h4⟩ := push_all_doubling xs m vector.default hret hne
    (Or.inl ⟨rfl, rfl⟩)
  have hs : (push_all m vector.default xs).self.size_ = xs.length := by
    rw [h1]
    show 0 + xs.length = xs.length
    omega
  rw [hs] at h3 h4
  unfold size capacity
  refine ⟨hs, ⟨k, h2, by omega, ?_⟩, h3, h4⟩
  intro j hj
  by_contra hlt
  have hjk : j < k := by
    by_contra hge
    exact hlt (Nat.pow_le_pow_right (by decide) (by omega))
  have : 2 ^ (j + 1) ≤ 2 ^ k := Nat.pow_le_pow_right (by decide) hjk
  rw [Nat.pow_succ] at this
  omega

theorem push_all_capacity_witness :
    capacity (push_all (Memory.quiet Nat) vector.default [1, 2, 3, 4, 5]).self = 8 ∧
    ∃ k, capacity (push_all (Memory.quiet Nat) vector.default [1, 2, 3, 4, 5]).self = 2 ^ k ∧
      [1, 2, 3, 4, 5].length ≤ 2 ^ k ∧ ∀ j, [1, 2, 3, 4, 5].length ≤ 2 ^ j → 2 ^ k ≤ 2 ^ j :=
  ⟨by decide,
    (push_all_capacity (Memory.quiet Nat) [1, 2, 3, 4, 5] (by decide) (by decide)).2.1⟩
theorem insert_loop_quieted (d : Ptr) (ind : Nat) : ∀ (i : Nat) (m : Memory T),
    insert_loop d ind i m.quieted = (insert_loop d ind i m).quieted := by
  intro i
  induction i with
  | zero => intro m; rfl
  | succ i ih =>
    intro m
    unfold insert_loop
    split
    · exact ih (swap_elements m (d.add (i + 1)) (d.add i))
    · rfl

theorem change_cap_push_back_quieted (m : Memory T) (v : vector) (new_cap : Nat) (x : T)
    (h : (change_cap_push_back m v new_cap x).ret = .returned ()) :
    change_cap_push_back m.quieted v new_cap x =
      ⟨(change_cap_push_back m v new_cap x).mem.quieted, (change_cap_push_back m v new_cap x).self,
        .returned ()⟩ := by
  have hq1 := new_storage_quieted m new_cap
  unfold change_cap_push_back at h ⊢
  rcases e1 : new_storage m new_cap with ⟨m1, op⟩
  rw [e1] at h hq1
  cases op with
  | none => simp only at h; cases h
  | some new_data =>
    simp only at h hq1 ⊢
    rw [hq1 new_data rfl]
    simp only
    have hq2 := copy_elements_quieted v.data_ new_data v.size_ 0 m1
    rcases e2 : copy_elements v.data_ new_data v.size_ 0 m1 with ⟨m2, ok⟩
    rw [e2] at h hq2
    cases ok with
    | false => simp only at h; cases h
    | true =>
      simp only at h hq2 ⊢
      rw [hq2 trivial]
      simp only
      have hq3 := construct_quieted m2 (new_data.add v.size_) (some x)
      rcases e3 : construct m2 (new_data.add v.size_) (some x) with ⟨m3, ok3⟩
      rw [e3] at h hq3
      cases ok3 with
      | false => simp only at h; cases h
      | true =>
        simp only at hq3 ⊢
        rw [hq3 trivial]
        simp only
        unfold destroy_elements
        rw [destroy_down_quieted, operator_delete_quieted]

theorem push_back_quieted (m : Memory T) (v : vector) (x : T)
    (h : (push_back m v x).ret = .returned ()) :
    push_back m.quieted v x =
      ⟨(push_back m v x).mem.quieted, (push_back m v x).self, .returned ()⟩ := by
  unfold push_back at h ⊢
  split
  · rename_i hfull
    rw [if_pos hfull] at h
    exact change_cap_push_back_quieted m v _ x h
  · rename_i hne
    rw [if_neg hne] at h
    have hq := construct_quieted m (end_ v) (some x)
    rcases e : construct m (end_ v) (some x) with ⟨m1, ok⟩
    rw [e] at h hq
    cases ok with
    | false => simp only at h; cases h
    | true =>
      simp only at hq ⊢
      rw [hq trivial]

theorem insert_quieted (m : Memory T) (v : vector) (pos : Ptr) (x : T)
    (h : (push_back m v x).ret = .returned ()) :
    insert m.quieted v pos x =
      ⟨(insert m v pos x).mem.quieted, (insert m v pos x).self, (insert m v pos x).ret⟩ := by
  have hq := push_back_quieted m v x h
  unfold insert
  rw [hq]
  rcases e : push_back m v x with ⟨m1, v1, r⟩
  rw [e] at h
  simp only at h
  subst h
  simp only
  rw [insert_loop_quieted]

theorem insert_returns_iff (m : Memory T) (v : vector) (pos : Ptr) (x : T) :
    (∀ f, (insert m v pos x).ret ≠ .threw f) ↔ (push_back m v x).ret = .returned () := by
  unfold insert
  rcases e : push_back m v x with ⟨m1, v1, r⟩
  cases r with
  | threw f =>
    simp only
    constructor
    · intro h; exact absurd rfl (h f)
    · intro h; cases h
  | returned u =>
    simp only
    constructor
    · intro _; trivial
    · intro _ f hf; cases hf

/-- The call `insert(begin() + i, x)`, whenever it does not throw. -/
theorem insert_returned (m : Memory T) (v : vector) (a : List T) (i : Nat) (x : T)
    (h : Holds m v a) (hi : i ≤ a.length)
    (hret : ∀ f, (insert m v ((begin v).add i) x).ret ≠ .threw f) :
    (insert m v ((begin v).add i) x).ret = .returned ((begin v).add i) ∧
    Holds (insert m v ((begin v).add i) x).mem (insert m v ((begin v).add i) x).self
      (a.take i ++ x :: a.drop i) ∧
    v.capacity_ ≤ (insert m v ((begin v).add i) x).self.capacity_ := by
  have hp := (insert_returns_iff m v ((begin v).add i) x).mp hret
  obtain ⟨h1, h2, h3⟩ := insert_holds m.quieted v a i x (NoFail.quieted m) h.to_quieted hi
  obtain ⟨_, _, g3, _⟩ := push_back_holds m.quieted v a x (NoFail.quieted m) h.to_quieted
  rw [insert_quieted m v _ x hp] at h1 h2 h3
  rw [push_back_quieted m v x hp] at h2 g3
  simp only at h1 h2 h3 g3
  refine ⟨h1, h3.of_quieted, ?_⟩
  rw [h2, g3]
  split
  · split <;> omega
  · exact Nat.le_refl _
/-! ## `insert` followed by `erase` -/

theorem take_drop_insert (a : List T) (i : Nat) (x : T) (hi : i ≤ a.length) :
    (a.take i ++ x :: a.drop i).take i ++ (a.take i ++ x :: a.drop i).drop (i + 1) = a := by
  have hl : (a.take i).length = i := by simp; omega
  have h1 : (a.take i ++ x :: a.drop i).take i = a.take i := by
    rw [List.take_append_of_le_length (by omega), List.take_of_length_le (by omega)]
  have h2 : (a.take i ++ x :: a.drop i).drop (i + 1) = a.drop i := by
    have e : i + 1 = (a.take i).length + 1 := by omega
    rw [e, List.drop_append]
    rfl
  rw [h1, h2, List.take_append_drop]

/-- C20: for a vector holding the sequence `a` of length `n`, every index
`i ≤ n` and every value `x`, `insert(begin() + i, x)` followed by
`erase(begin() + i)` on the result yields, whenever the `insert` does not
throw, a vector of size `n` whose element sequence is `a`; the capacity is
not smaller than before. -/
theorem insert_erase_round_trip (m : Memory T) (v : vector) (a : List T) (i : Nat) (x : T)
    (h : Holds m v a) (hi : i ≤ a.length)
    (hret : ∀ f, (insert m v ((begin v).add i) x).ret ≠ .threw f) :
    (∃ p, (insert m v ((begin v).add i) x).ret = .returned p) ∧
    (∃ q, (erase (insert m v ((begin v).add i) x).mem (insert m v ((begin v).add i) x).self
      ((begin (insert m v ((begin v).add i) x).self).add i)).ret = .returned q) ∧
    size (erase (insert m v ((begin v).add i) x).mem (insert m v ((begin v).add i) x).self
      ((begin (insert m v ((begin v).add i) x).self).add i)).self = a.length ∧
    elements (erase (insert m v ((begin v).add i) x).mem (insert m v ((begin v).add i) x).self
        ((begin (insert m v ((begin v).add i) x).self).add i)).mem
      (erase (insert m v ((begin v).add i) x).mem (insert m v ((begin v).add i) x).self
        ((begin (insert m v ((begin v).add i) x).self).add i)).self = a.map some ∧
    capacity v ≤ capacity (erase (insert m v ((begin v).add i) x).mem
      (insert m v ((begin v).add i) x).self
      ((begin (insert m v ((begin v).add i) x).self).add i)).self := by
  obtain ⟨h1, h3, hcap⟩ := insert_returned m v a i x h hi hret
  have hl : (a.take i ++ x :: a.drop i).length = a.length + 1 := by
    simp; omega
  obtain ⟨e1, e2, _, e4⟩ := erase_range_holds (insert m v ((begin v).add i) x).mem
    (insert m v ((begin v).add i) x).self (a.take i ++ x :: a.drop i) i (i + 1) h3
    (by omega) (by omega)
  rw [take_drop_insert a i x hi] at e2
  have ee : ∀ (m2 : Memory T) (v2 : vector), erase m2 v2 ((begin v2).add i) =
      erase_range m2 v2 ((begin v2).add i) ((begin v2).add (i + 1)) := fun _ _ => rfl
  rw [ee]
  refine ⟨⟨_, h1⟩, ⟨_, e1⟩, e2.size_eq, e2.elements_eq, ?_⟩
  unfold capacity
  rw [e4]
  exact hcap

theorem insert_erase_round_trip_witness :
    elements (erase (insert (pushed [10, 20, 30]).mem (pushed [10, 20, 30]).self
        ((begin (pushed [10, 20, 30]).self).add 1) 99).mem
        (insert (pushed [10, 20, 30]).mem (pushed [10, 20, 30]).self
          ((begin (pushed [10, 20, 30]).self).add 1) 99).self
        ((begin (insert (pushed [10, 20, 30]).mem (pushed [10, 20, 30]).self
          ((begin (pushed [10, 20, 30]).self).add 1) 99).self).add 1)).mem
      (erase (insert (pushed [10, 20, 30]).mem (pushed [10, 20, 30]).self
        ((begin (pushed [10, 20, 30]).self).add 1) 99).mem
        (insert (pushed [10, 20, 30]).mem (pushed [10, 20, 30]).self
          ((begin (pushed [10, 20, 30]).self).add 1) 99).self
        ((begin (insert (pushed [10, 20, 30]).mem (pushed [10, 20, 30]).self
          ((begin (pushed [10, 20, 30]).self).add 1) 99).self).add 1)).self =
      [some 10, some 20, some 30] :=
  (insert_erase_round_trip (pushed [10, 20, 30]).mem (pushed [10, 20, 30]).self [10, 20, 30] 1 99
    (pushed_holds [10, 20, 30]).2 (by decide) (fun f => by cases f <;> decide)).2.2.2.1
/-! ## Failure of a reallocation -/

theorem change_capacity_threw_keeps (m : Memory T) (v : vector) (new_cap : Nat)
    (f : Failure) (h : (change_capacity m v new_cap).ret = .threw f) :
    (change_capacity m v new_cap).self = v ∧
    ∀ c, Keeps c m (change_capacity m v new_cap).mem := by
  have hk1 := new_storage_keeps m new_cap
  have hf1 := new_storage_fresh m new_cap
  unfold change_capacity at h ⊢
  rcases e1 : new_storage m new_cap with ⟨m1, op⟩
  rw [e1] at hk1 hf1 h
  simp only at hk1 hf1 h
  cases op with
  | none => exact ⟨rfl, hk1⟩
  | some new_data =>
    simp only at h ⊢
    have hk2 := fun c hc => copy_elements_keeps v.data_ new_data c hc v.size_ 0 m1
    rcases e2 : copy_elements v.data_ new_data v.size_ 0 m1 with ⟨m2, ok⟩
    rw [e2] at hk2 h
    simp only at hk2 h
    cases ok with
    | false =>
      refine ⟨rfl, ?_⟩
      intro c hc
      exact ((hk1 c).andThen (hk2 c (hf1 new_data c rfl hc))) hc
    | true => simp only at h; cases h

theorem change_capacity_throws (m : Memory T) (v : vector) (new_cap : Nat)
    (k : Nat) (hcap : new_cap ≠ 0) (hnew : m.new_throws (m.news + 1) = false)
    (hk1 : 1 ≤ k) (hk2 : k ≤ v.size_)
    (hbefore : ∀ j, 1 ≤ j → j < k → m.copy_throws (m.copies + j) = false)
    (hat : m.copy_throws (m.copies + k) = true) :
    (change_capacity m v new_cap).ret = .threw .copy_failed := by
  have hs1 := operator_new_same m new_cap
  have hc1 := operator_new_copies m new_cap
  have hr1 := (operator_new_returns m new_cap hnew).1
  unfold change_capacity new_storage
  rw [if_neg hcap]
  rcases e1 : operator_new m new_cap with ⟨m1, op⟩
  rw [e1] at hs1 hc1 hr1
  simp only at hs1 hc1 hr1
  subst hr1
  simp only
  have := copy_elements_throws v.data_ ⟨some m.heap.length, 0⟩ v.size_ 0 m1 k hk1 hk2
    (by intro j h1 h2; rw [hs1.1, hc1]; exact hbefore j h1 h2)
    (by rw [hs1.1, hc1]; exact hat)
  rcases e2 : copy_elements v.data_ ⟨some m.heap.length, 0⟩ v.size_ 0 m1 with ⟨m2, ok⟩
  rw [e2] at this
  simp only at this
  subst this
  rfl

/-! ## The fused helper against the unfused sequence -/

/-- The fused helper against the unfused sequence, for a capacity given as
the number of slots obtained and a value that is not read through a
reference into the vector. -/
theorem change_cap_push_back_fused_value (m : Memory T) (v : vector) (a : List T) (new_cap : Nat)
    (x : T) (h : Holds m v a) (hc : a.length < new_cap) :
    (NoFail m →
      (change_cap_push_back m v new_cap x).ret = .returned () ∧
      (change_capacity_then_push_back_value m v new_cap x).ret = .returned () ∧
      (change_cap_push_back m v new_cap x).self =
        (change_capacity_then_push_back_value m v new_cap x).self ∧
      size (change_cap_push_back m v new_cap x).self = a.length + 1 ∧
      capacity (change_cap_push_back m v new_cap x).self = new_cap ∧
      elements (change_cap_push_back m v new_cap x).mem (change_cap_push_back m v new_cap x).self
        = (a ++ [x]).map some ∧
      elements (change_capacity_then_push_back_value m v new_cap x).mem
        (change_capacity_then_push_back_value m v new_cap x).self = (a ++ [x]).map some) ∧
    (∀ k, m.new_throws (m.news + 1) = false → 1 ≤ k → k ≤ a.length →
      (∀ j, 1 ≤ j → j < k → m.copy_throws (m.copies + j) = false) →
      m.copy_throws (m.copies + k) = true →
      (change_cap_push_back m v new_cap x).ret = .threw .copy_failed ∧
      (change_capacity_then_push_back_value m v new_cap x).ret = .threw .copy_failed ∧
      (change_cap_push_back m v new_cap x).self = v ∧
      (change_capacity_then_push_back_value m v new_cap x).self = v ∧
      elements (change_cap_push_back m v new_cap x).mem (change_cap_push_back m v new_cap x).self
        = elements m v ∧
      elements (change_capacity_then_push_back_value m v new_cap x).mem
        (change_capacity_then_push_back_value m v new_cap x).self = elements m v) := by
  have hne : new_cap ≠ 0 := by omega
  constructor
  · intro hn
    obtain ⟨f1, f2, f3, _⟩ := change_cap_push_back_holds m v a new_cap x hn h hc
    obtain ⟨c1, c2, c3, _⟩ := change_capacity_holds m v a new_cap hn h (by omega)
    have hs := (change_capacity_frame m v new_cap).1
    have hu : (change_capacity_then_push_back_value m v new_cap x).ret = .returned () ∧
        (change_capacity_then_push_back_value m v new_cap x).self =
          ⟨⟨some m.heap.length, 0⟩, a.length + 1, new_cap⟩ ∧
        Holds (change_capacity_then_push_back_value m v new_cap x).mem
          (change_capacity_then_push_back_value m v new_cap x).self (a ++ [x]) := by
      unfold change_capacity_then_push_back_value
      rcases e : change_capacity m v new_cap with ⟨m1, v1, r⟩
      rw [e] at c1 c2 c3 hs
      simp only at c1 c2 c3 hs
      subst c1
      simp only
      rw [if_neg hne] at c2
      obtain ⟨p1, p2, p3, _⟩ := push_back_without_extend_checking_holds m1 v1 a x
        (hn.of_same hs) c3 (by rw [c2]; exact hc)
      refine ⟨p1, ?_, p3⟩
      rw [p2, c2, h.1]
    obtain ⟨u1, u2, u3⟩ := hu
    refine ⟨f1, u1, by rw [f2, u2], by rw [f2]; rfl, by rw [f2]; rfl, f3.elements_eq,
      u3.elements_eq⟩
  · intro k hnew hk1 hk2 hbefore hat
    have t1 := change_cap_push_back_throws m v new_cap x k hne hnew hk1
      (by rw [h.1]; omega) hbefore hat
    have t2 := change_capacity_throws m v new_cap k hne hnew hk1 (by rw [h.1]; exact hk2)
      hbefore hat
    obtain ⟨s1, s2⟩ := change_cap_push_back_threw_keeps m v new_cap x _ t1
    obtain ⟨s3, s4⟩ := change_capacity_threw_keeps m v new_cap _ t2
    have hu : (change_capacity_then_push_back_value m v new_cap x).ret = .threw .copy_failed ∧
        (change_capacity_then_push_back_value m v new_cap x).self = v ∧
        Holds (change_capacity_then_push_back_value m v new_cap x).mem
          (change_capacity_then_push_back_value m v new_cap x).self a := by
      unfold change_capacity_then_push_back_value
      rcases e : change_capacity m v new_cap with ⟨m1, v1, r⟩
      rw [e] at t2 s3 s4
      simp only at t2 s3 s4
      subst t2
      subst s3
      exact ⟨rfl, rfl, h.keeps_all s4⟩
    obtain ⟨u1, u2, u3⟩ := hu
    have hf : Holds (change_cap_push_back m v new_cap x).mem
        (change_cap_push_back m v new_cap x).self a := by
      rw [s1]
      exact h.keeps_all s2
    exact ⟨t1, u1, s1, u2, by rw [hf.elements_eq, h.elements_eq],
      by rw [u3.elements_eq, h.elements_eq]⟩

/-! ## Traces -/

theorem construct_trace (m : Memory T) (p : Ptr) (x : Option T)
    (h : m.copy_throws (m.copies + 1) = false) :
    (construct m p x).1.trace = m.trace ++ [Event.construct p] := by
  rw [construct_returns m p x h]
  rfl

theorem destroy_down_trace (p : Ptr) : ∀ (j : Nat) (m : Memory T),
    (destroy_down p j m).trace = m.trace ++ destructions p j := by
  intro j
  induction j with
  | zero => intro m; simp [destroy_down, destructions]
  | succ j ih =>
    intro m
    rw [destroy_down, ih]
    show (m.trace ++ [Event.destroy (p.add j)]) ++ destructions p j = _
    simp [destructions]

theorem operator_delete_trace (m : Memory T) (p : Ptr) :
    (operator_delete m p).trace = m.trace ++ release_of p := by
  unfold operator_delete release_of
  split
  · simp
  · rfl

theorem operator_new_trace (m : Memory T) (n : Nat) (h : m.new_throws (m.news + 1) = false) :
    (operator_new m n).1.trace = m.trace ++ [Event.allocate ⟨some m.heap.length, 0⟩ n] := by
  simp [operator_new, h, Memory.log]

theorem copy_elements_trace_returns (src dst : Ptr) : ∀ (n i : Nat) (m : Memory T),
    (∀ j, 1 ≤ j → j ≤ n → m.copy_throws (m.copies + j) = false) →
    (copy_elements src dst n i m).1.trace = m.trace ++ constructions dst n i := by
  intro n
  induction n with
  | zero => intro i m _; simp [copy_elements, constructions]
  | succ n ih =>
    intro i m h
    have h1 := h 1 (by omega) (by omega)
    have ht := construct_trace m (dst.add i) (m.read (src.add i)) h1
    have hs := construct_same m (dst.add i) (m.read (src.add i))
    have hc := construct_copies m (dst.add i) (m.read (src.add i))
    have hok : (construct m (dst.add i) (m.read (src.add i))).2 = true := by
      rw [construct_returns m _ _ h1]
    rw [copy_elements]
    rcases e : construct m (dst.add i) (m.read (src.add i)) with ⟨m1, ok⟩
    rw [e] at ht hs hc hok
    simp only at ht hs hc hok
    subst hok
    simp only
    rw [ih (i + 1) m1 (by
      intro j hj1 hj2
      rw [hs.1, hc]
      have := h (j + 1) (by omega) (by omega)
      rw [← this]
      congr 1
      omega), ht]
    simp [constructions]

theorem change_cap_push_back_trace (m : Memory T) (v : vector) (new_cap : Nat) (x : T)
    (hn : NoFail m) (hcap : new_cap ≠ 0) :
    (change_cap_push_back m v new_cap x).ret = .returned () ∧
    (change_cap_push_back m v new_cap x).self =
      ⟨⟨some m.heap.length, 0⟩, v.size_ + 1, new_cap⟩ ∧
    (change_cap_push_back m v new_cap x).mem.trace = m.trace ++
      (Event.allocate ⟨some m.heap.length, 0⟩ new_cap ::
        (constructions ⟨some m.heap.length, 0⟩ v.size_ 0 ++
          (Event.construct ⟨some m.heap.length, v.size_⟩ ::
            (destructions v.data_ v.size_ ++ release_of v.data_)))) := by
  have hs1 := operator_new_same m new_cap
  have hr1 := (operator_new_returns m new_cap (hn _).2).1
  have ht1 := operator_new_trace m new_cap (hn _).2
  unfold change_cap_push_back new_storage
  rw [if_neg hcap]
  rcases e1 : operator_new m new_cap with ⟨m1, op⟩
  rw [e1] at hs1 hr1 ht1
  simp only at hs1 hr1 ht1
  subst hr1
  simp only
  have hn1 : NoFail m1 := hn.of_same hs1
  have hret := copy_elements_returns v.data_ ⟨some m.heap.length, 0⟩ v.size_ 0 m1
    (fun j _ _ => (hn1 _).1)
  have hs2 := copy_elements_same v.data_ ⟨some m.heap.length, 0⟩ v.size_ 0 m1
  have ht2 := copy_elements_trace_returns v.data_ ⟨some m.heap.length, 0⟩ v.size_ 0 m1
    (fun j _ _ => (hn1 _).1)
  rcases e2 : copy_elements v.data_ ⟨some m.heap.length, 0⟩ v.size_ 0 m1 with ⟨m2, ok⟩
  rw [e2] at hret hs2 ht2
  simp only at hret hs2 ht2
  obtain ⟨hok, _⟩ := hret
  subst hok
  simp only
  have hn2 : NoFail m2 := hn1.of_same hs2
  have h3 := (hn2 (m2.copies + 1)).1
  have ht3 := construct_trace m2 ((⟨some m.heap.length, 0⟩ : Ptr).add v.size_) (some x) h3
  have ho3 : (construct m2 ((⟨some m.heap.length, 0⟩ : Ptr).add v.size_) (some x)).2 = true := by
    rw [construct_returns m2 _ _ h3]
  rcases e3 : construct m2 ((⟨some m.heap.length, 0⟩ : Ptr).add v.size_) (some x) with ⟨m3, ok3⟩
  rw [e3] at ht3 ho3
  simp only at ht3 ho3
  subst ho3
  simp only
  refine ⟨trivial, trivial, ?_⟩
  unfold destroy_elements
  rw [operator_delete_trace, destroy_down_trace, ht3, ht2, ht1]
  simp [Ptr.add]

/-- C17, as the code has it: in a `push_back` that grows
(`size() == capacity()`) and does not fail, the storage actions are, in this
order: the allocation of the new buffer; the copy construction of every
existing element into it in index order; the construction of the new element
in slot `size()` of the new buffer; only then the destruction of the old
elements, from the last to the first, and the release of the old buffer.
The members afterwards are the new buffer, `size() + 1` and the new capacity. -/
theorem push_back_growth_order (m : Memory T) (v : vector) (x : T)
    (hn : NoFail m) (hfull : size v = capacity v) :
    (push_back m v x).ret = .returned () ∧
    (push_back m v x).mem.trace = m.trace ++
      (Event.allocate ⟨some m.heap.length, 0⟩ (if capacity v = 0 then 1 else capacity v * 2) ::
        (constructions ⟨some m.heap.length, 0⟩ (size v) 0 ++
          (Event.construct ⟨some m.heap.length, size v⟩ ::
            (destructions (data v) (size v) ++ release_of (data v))))) ∧
    (push_back m v x).self =
      ⟨⟨some m.heap.length, 0⟩, size v + 1, if capacity v = 0 then 1 else capacity v * 2⟩ := by
  have hc : (if capacity v = 0 then 1 else capacity v * 2) ≠ 0 := by
    split <;> omega
  obtain ⟨h1, h2, h3⟩ := change_cap_push_back_trace m v _ x hn hc
  unfold push_back
  rw [if_pos hfull]
  exact ⟨h1, h3, h2⟩

theorem push_back_growth_order_witness :
    (push_back (pushed [10, 20]).mem (pushed [10, 20]).self 30).mem.trace =
      (pushed [10, 20]).mem.trace ++
        [Event.allocate ⟨some 2, 0⟩ 4, Event.construct ⟨some 2, 0⟩, Event.construct ⟨some 2, 1⟩,
          Event.construct ⟨some 2, 2⟩, Event.destroy ⟨some 1, 1⟩, Event.destroy ⟨some 1, 0⟩,
          Event.release ⟨some 1, 0⟩] :=
  (push_back_growth_order (pushed [10, 20]).mem (pushed [10, 20]).self 30
    (pushed_holds [10, 20]).1 (by decide)).2.1

/-- C17 fails on the code: on the vector `[10, 20]` with
`size() == capacity() == 2`, `push_back(30)` constructs the new element (slot
2 of the new block 2) before it destroys the old elements (slots 1 and 0 of
the old block 1): in the trace of the call the construction is the fourth
action and the first destruction the fifth. -/
theorem push_back_constructs_before_destroying :
    ((push_back (pushed [10, 20]).mem (pushed [10, 20]).self 30).mem.trace.drop
      (pushed [10, 20]).mem.trace.length) =
      [Event.allocate ⟨some 2, 0⟩ 4, Event.construct ⟨some 2, 0⟩, Event.construct ⟨some 2, 1⟩,
        Event.construct ⟨some 2, 2⟩, Event.destroy ⟨some 1, 1⟩, Event.destroy ⟨some 1, 0⟩,
        Event.release ⟨some 1, 0⟩] ∧
    ((push_back (pushed [10, 20]).mem (pushed [10, 20]).self 30).mem.trace.drop
      (pushed [10, 20]).mem.trace.length).indexOf (Event.construct ⟨some 2, 2⟩) <
    ((push_back (pushed [10, 20]).mem (pushed [10, 20]).self 30).mem.trace.drop
      (pushed [10, 20]).mem.trace.length).indexOf (Event.destroy ⟨some 1, 1⟩) := by
  decide
/-! ## The representation invariant -/

theorem RepInv.of_default : RepInv vector.default :=
  ⟨Nat.le_refl _, fun _ => rfl, fun _ => rfl⟩

theorem RepInv.of_holds {m : Memory T} {v : vector} {a : List T} (h : Holds m v a) :
    RepInv v := by
  refine ⟨by rw [h.size_eq]; exact h.2.1, ?_⟩
  cases hb : v.data_.block with
  | none =>
    obtain ⟨_, _, hc⟩ := h.of_null hb
    constructor
    · intro _; exact hc
    · intro _
      cases hv : v.data_ with
      | mk blk off =>
        have h3 := h.2.2.1
        rw [hv] at hb h3
        simp only at hb h3
        show v.data_ = nullptr
        rw [hv, hb, h3]
        rfl
  | some b =>
    obtain ⟨e, hc, _⟩ := h.of_live hb
    constructor
    · intro hn
      have : v.data_ = nullptr := hn
      rw [e] at this
      cases this
    · intro h0
      have : v.capacity_ = 0 := h0
      omega

theorem new_storage_null_iff (m : Memory T) (n : Nat) (p : Ptr)
    (h : (new_storage m n).2 = some p) : p = nullptr ↔ n = 0 := by
  unfold new_storage at h
  split at h
  · rename_i h0
    simp at h
    subst h
    exact ⟨fun _ => h0, fun _ => rfl⟩
  · rename_i h0
    unfold operator_new at h
    split at h
    · cases h
    · simp at h
      subst h
      constructor
      · intro e; cases e
      · intro e; exact absurd e h0

theorem change_capacity_inv (m : Memory T) (v : vector) (new_cap : Nat)
    (h : RepInv v) (hc : size v ≤ new_cap) : RepInv (change_capacity m v new_cap).self := by
  have hn := new_storage_null_iff m new_cap
  unfold change_capacity
  rcases e1 : new_storage m new_cap with ⟨m1, op⟩
  rw [e1] at hn
  cases op with
  | none => exact h
  | some new_data =>
    simp only at hn ⊢
    rcases e2 : copy_elements v.data_ new_data v.size_ 0 m1 with ⟨m2, ok⟩
    cases ok with
    | false => exact h
    | true => exact ⟨hc, hn new_data rfl⟩

theorem reserve_inv (m : Memory T) (v : vector) (n : Nat) (h : RepInv v) :
    RepInv (reserve m v n).self := by
  unfold reserve
  split
  · rename_i hlt
    exact change_capacity_inv m v n h (Nat.le_trans h.1 (Nat.le_of_lt hlt))
  · exact h

theorem shrink_to_fit_inv (m : Memory T) (v : vector) (h : RepInv v) :
    RepInv (shrink_to_fit m v).self := by
  unfold shrink_to_fit
  split
  · exact change_capacity_inv m v (size v) h (Nat.le_refl _)
  · exact h

theorem change_cap_push_back_inv (m : Memory T) (v : vector) (new_cap : Nat) (x : T)
    (h : RepInv v) (hc : size v < new_cap) :
    RepInv (change_cap_push_back m v new_cap x).self := by
  have hn := new_storage_null_iff m new_cap
  unfold change_cap_push_back
  rcases e1 : new_storage m new_cap with ⟨m1, op⟩
  rw [e1] at hn
  cases op with
  | none => exact h
  | some new_data =>
    simp only at hn ⊢
    rcases e2 : copy_elements v.data_ new_data v.size_ 0 m1 with ⟨m2, ok⟩
    cases ok with
    | false => exact h
    | true =>
      simp only
      rcases e3 : construct m2 (new_data.add v.size_) (some x) with ⟨m3, ok3⟩
      cases ok3 with
      | false => exact h
      | true => exact ⟨hc, hn new_data rfl⟩

theorem push_back_inv (m : Memory T) (v : vector) (x : T) (h : RepInv v) :
    RepInv (push_back m v x).self := by
  unfold push_back
  split
  · rename_i hfull
    apply change_cap_push_back_inv m v _ x h
    split <;> omega
  · rename_i hne
    have hlt : v.size_ < v.capacity_ := by
      have := h.1
      unfold size capacity at this hne
      omega
    rcases e : construct m (end_ v) (some x) with ⟨m1, ok⟩
    cases ok with
    | false => exact h
    | true => exact ⟨hlt, h.2⟩

theorem pop_back_inv (m : Memory T) (v : vector) (h : RepInv v) :
    RepInv (pop_back m v).self :=
  ⟨Nat.le_trans (Nat.sub_le _ _) h.1, h.2⟩

theorem clear_inv (m : Memory T) (v : vector) (h : RepInv v) : RepInv (clear m v).self :=
  ⟨Nat.zero_le _, h.2⟩

theorem insert_inv (m : Memory T) (v : vector) (pos : Ptr) (x : T) (h : RepInv v) :
    RepInv (insert m v pos x).self := by
  have hp := push_back_inv m v x h
  unfold insert
  rcases e : push_back m v x with ⟨m1, v1, r⟩
  rw [e] at hp
  cases r <;> exact hp

theorem erase_pop_loop_inv : ∀ (n : Nat) (m : Memory T) (v : vector), RepInv v →
    RepInv (erase_pop_loop n m v).2 := by
  intro n
  induction n with
  | zero => intro m v h; exact h
  | succ n ih => intro m v h; exact ih _ _ (pop_back_inv m v h)

theorem erase_range_inv (m : Memory T) (v : vector) (first last : Ptr) (h : RepInv v) :
    RepInv (erase_range m v first last).self :=
  erase_pop_loop_inv _ _ v h

theorem copy_construct_loop_returned (other : vector) : ∀ (n i : Nat) (m : Memory T) (v : vector),
    (copy_construct_loop other n i m v).ret = .returned () →
    (copy_construct_loop other n i m v).self = { v with size_ := v.size_ + n } := by
  intro n
  induction n with
  | zero => intro i m v _; rfl
  | succ n ih =>
    intro i m v h
    unfold copy_construct_loop at h ⊢
    unfold push_back_without_extend_checking at h ⊢
    rcases e : construct m (end_ v) (m.read (other.data_.add i)) with ⟨m1, ok⟩
    rw [e] at h
    cases ok with
    | false => simp only at h; cases h
    | true =>
      simp only at h ⊢
      rw [ih (i + 1) m1 _ h]
      show (⟨v.data_, v.size_ + 1 + n, v.capacity_⟩ : vector) = ⟨v.data_, v.size_ + (n + 1), v.capacity_⟩
      rw [Nat.add_assoc, Nat.add_comm 1 n]

theorem reserve_returned (m : Memory T) (v : vector) (n : Nat)
    (h : (reserve m v n).ret = .returned ()) :
    n ≤ (reserve m v n).self.capacity_ ∧ (reserve m v n).self.size_ = v.size_ := by
  unfold reserve at h ⊢
  by_cases hlt : capacity v < n
  · rw [if_pos hlt] at h ⊢
    unfold change_capacity at h ⊢
    rcases e1 : new_storage m n with ⟨m1, op⟩
    rw [e1] at h
    cases op with
    | none => simp only at h; cases h
    | some new_data =>
      simp only at h ⊢
      rcases e2 : copy_elements v.data_ new_data v.size_ 0 m1 with ⟨m2, ok⟩
      rw [e2] at h
      cases ok with
      | false => simp only at h; cases h
      | true => exact ⟨Nat.le_refl _, rfl⟩
  · rw [if_neg hlt]
    refine ⟨?_, rfl⟩
    show n ≤ v.capacity_
    unfold capacity at hlt
    omega

theorem copy_constructor_inv (m : Memory T) (other : vector)
    (h : (copy_constructor m other).ret = .returned ()) :
    RepInv (copy_constructor m other).self := by
  have hr := reserve_returned m vector.default (size other)
  have hi := reserve_inv m vector.default (size other) RepInv.of_default
  unfold copy_constructor at h ⊢
  rcases e1 : reserve m vector.default (size other) with ⟨m1, v1, r1⟩
  rw [e1] at h hr hi
  cases r1 with
  | threw f => simp only at h; cases h
  | returned u =>
    simp only at h hr hi ⊢
    obtain ⟨hcap, hsz⟩ := hr trivial
    have hl := copy_construct_loop_returned other other.size_ 0 m1 v1
    rcases e2 : copy_construct_loop other other.size_ 0 m1 v1 with ⟨m2, v2, r2⟩
    rw [e2] at h hl
    cases r2 with
    | threw f => simp only at h; cases h
    | returned u2 =>
      simp only at hl ⊢
      rw [hl trivial]
      refine ⟨?_, hi.2⟩
      show v1.size_ + other.size_ ≤ v1.capacity_
      have : v1.size_ = 0 := hsz
      unfold size at hcap
      omega

theorem copy_assign_inv (m : Memory T) (a : vector) (other : Option vector) (h : RepInv a) :
    RepInv (copy_assign m a other).self := by
  cases other with
  | none => exact h
  | some o =>
    have hc := copy_constructor_inv m o
    simp only [copy_assign]
    rcases e : copy_constructor m o with ⟨m1, tmp, r⟩
    rw [e] at hc
    cases r with
    | threw f => exact h
    | returned u => exact hc rfl

theorem object_inv (vs : List vector) (h : ∀ v ∈ vs, RepInv v) (i : Nat) :
    RepInv (object vs i) := by
  unfold object
  by_cases hi : i < vs.length
  · rw [List.getD_eq_getElem vs vector.default hi]
    exact h _ (List.getElem_mem hi)
  · rw [List.getD_eq_default vs vector.default (by omega)]
    exact RepInv.of_default

theorem set_inv (vs : List vector) (h : ∀ v ∈ vs, RepInv v) (i : Nat) (w : vector)
    (hw : RepInv w) : ∀ v ∈ vs.set i w, RepInv v := by
  intro v hv
  rcases List.mem_or_eq_of_mem_set hv with h1 | h1
  · exact h v h1
  · rw [h1]; exact hw

theorem Call.run_inv (c : Call T) (m : Memory T) (vs : List vector)
    (h : ∀ v ∈ vs, RepInv v) : ∀ v ∈ (c.run m vs).2, RepInv v := by
  cases c with
  | default_construct =>
    intro v hv
    simp only [Call.run, List.mem_append, List.mem_singleton] at hv
    rcases hv with h1 | h1
    · exact h v h1
    · rw [h1]; exact RepInv.of_default
  | copy_construct j =>
    have hc := copy_constructor_inv m (object vs j)
    simp only [Call.run]
    rcases e : copy_constructor m (object vs j) with ⟨m1, c, r⟩
    rw [e] at hc
    cases r with
    | threw f => exact h
    | returned u =>
      intro v hv
      simp only [List.mem_append, List.mem_singleton] at hv
      rcases hv with h1 | h1
      · exact h v h1
      · rw [h1]; exact hc rfl
  | copy_assign i j => exact set_inv vs h i _ (copy_assign_inv m _ _ (object_inv vs h i))
  | push_back i x => exact set_inv vs h i _ (push_back_inv m _ x (object_inv vs h i))
  | pop_back i => exact set_inv vs h i _ (pop_back_inv m _ (object_inv vs h i))
  | reserve i n => exact set_inv vs h i _ (reserve_inv m _ n (object_inv vs h i))
  | shrink_to_fit i => exact set_inv vs h i _ (shrink_to_fit_inv m _ (object_inv vs h i))
  | clear i => exact set_inv vs h i _ (clear_inv m _ (object_inv vs h i))
  | swap i j =>
    exact set_inv _ (set_inv vs h i _ (object_inv vs h j)) j _ (object_inv vs h i)
  | insert i k x => exact set_inv vs h i _ (insert_inv m _ _ x (object_inv vs h i))
  | erase i k => exact set_inv vs h i _ (erase_range_inv m _ _ _ (object_inv vs h i))
  | erase_range i k l => exact set_inv vs h i _ (erase_range_inv m _ _ _ (object_inv vs h i))

/-- C13: representation invariant.  In every state a program reaches from a
default-constructed vector by public calls within their preconditions
(default and copy construction, copy assignment, `push_back`, `pop_back` on
a non-empty vector, `reserve`, `shrink_to_fit`, `clear`, `swap`, `insert`,
`erase` within range), under any schedule of failures and so also after
calls that threw, every vector has `size() ≤ capacity()` and a storage
pointer that is null exactly when `capacity() == 0`. -/
theorem representation_invariant (m : Memory T) (vs : List vector) (h : Reachable m vs) :
    ∀ v ∈ vs, size v ≤ capacity v ∧ (data v = nullptr ↔ capacity v = 0) := by
  induction h with
  | start m =>
    intro v hv
    simp only [List.mem_singleton] at hv
    rw [hv]
    exact RepInv.of_default
  | step c m vs _ _ ih => exact c.run_inv m vs ih

theorem sample_program_reachable : Reachable sample_program.1 sample_program.2 :=
  Reachable.step (Call.copy_construct 0) _ _
    (Reachable.step (Call.push_back 0 8) _ _
      (Reachable.step (Call.push_back 0 7) _ _ (Reachable.start _)
        (by simp [Call.pre]))
      (by simp [Call.pre, Call.run]))
    (by simp [Call.pre, Call.run])

theorem representation_invariant_witness :
    sample_program.2 = [⟨⟨some 0, 0⟩, 1, 1⟩, ⟨⟨some 2, 0⟩, 1, 1⟩] ∧
    size (object sample_program.2 1) ≤ capacity (object sample_program.2 1) ∧
    (data (object sample_program.2 1) = nullptr ↔ capacity (object sample_program.2 1) = 0) :=
  ⟨by decide,
    representation_invariant sample_program.1 sample_program.2 sample_program_reachable
      (object sample_program.2 1) (by decide)⟩
/-! ## Capacities whose byte count does not wrap, and referents outside the vector -/

theorem allocated_slots_eq (sizeof_T new_cap : Nat) (hs : 0 < sizeof_T)
    (hw : new_cap * sizeof_T < 2 ^ 64) : allocated_slots sizeof_T new_cap = new_cap := by
  unfold allocated_slots
  rw [Nat.mod_eq_of_lt hw, Nat.mul_div_cancel _ hs]

theorem new_storage_exact_eq (sizeof_T : Nat) (m : Memory T) (new_cap : Nat)
    (hs : 0 < sizeof_T) (hw : new_cap * sizeof_T < 2 ^ 64) :
    new_storage_exact sizeof_T m new_cap = new_storage m new_cap := by
  unfold new_storage_exact new_storage
  rw [allocated_slots_eq sizeof_T new_cap hs hw]

theorem change_capacity_exact_eq (sizeof_T : Nat) (m : Memory T) (v : vector) (new_cap : Nat)
    (hs : 0 < sizeof_T) (hw : new_cap * sizeof_T < 2 ^ 64) :
    change_capacity_exact sizeof_T m v new_cap = change_capacity m v new_cap := by
  unfold change_capacity_exact change_capacity
  rw [new_storage_exact_eq sizeof_T m new_cap hs hw]

theorem read_of_heap_eq (m n : Memory T) (p : Ptr)
    (h : ∀ c, p.block = some c → n.heap[c]? = m.heap[c]?) : n.read p = m.read p := by
  show heap_read n.heap p = heap_read m.heap p
  unfold heap_read
  cases hb : p.block with
  | none => rfl
  | some c =>
    simp only
    rw [h c hb]

/-- A referent outside the vector `v`: an object that is not in the free
store, or a slot of a block of `m` other than the storage of `v`. -/
theorem deref_of_frame {α : Type} (m : Memory T) (v : vector) (r : Result T α) (value : Ref T)
    (hf : Frame v m r)
    (hout : ∀ p, value = .element p →
      ∃ c, p.block = some c ∧ c < m.heap.length ∧ v.data_.block ≠ some c) :
    r.mem.deref value = m.deref value := by
  cases value with
  | object x => rfl
  | element p =>
    obtain ⟨c, hc, hl, hv⟩ := hout p rfl
    apply read_of_heap_eq
    intro c2 hc2
    rw [hc] at hc2
    cases hc2
    exact (hf.2 c hl hv).2.1

theorem shrink_to_fit_exact_eq (sizeof_T : Nat) (m : Memory T) (v : vector)
    (hs : 0 < sizeof_T) (hw : size v * sizeof_T < 2 ^ 64) :
    shrink_to_fit_exact sizeof_T m v = shrink_to_fit m v := by
  unfold shrink_to_fit_exact shrink_to_fit
  rw [change_capacity_exact_eq sizeof_T m v (size v) hs hw]

theorem read_some_block (m : Memory T) (p : Ptr) (x : T) (h : m.read p = some x) :
    ∃ c, p.block = some c ∧ c < m.heap.length := by
  change heap_read m.heap p = some x at h
  unfold heap_read at h
  cases hb : p.block with
  | none =>
    rw [hb] at h
    cases h
  | some c =>
    refine ⟨c, rfl, ?_⟩
    rw [hb] at h
    simp only at h
    by_contra hl
    rw [List.getElem?_eq_none (Nat.le_of_not_lt hl)] at h
    cases h

theorem deref_of_keeps (m n : Memory T) (value : Ref T) (x : T) (hx : m.deref value = some x)
    (hk : ∀ p c, value = .element p → p.block = some c → Keeps c m n) :
    n.deref value = some x := by
  cases value with
  | object y => exact hx
  | element p =>
    obtain ⟨c, hc, hl⟩ := read_some_block m p x hx
    rw [← hx]
    apply read_of_heap_eq
    intro c2 hc2
    rw [hc] at hc2
    cases hc2
    exact ((hk p c rfl hc) hl).2

/-- The fused helper reads `value` at line 210, before the old buffer is
touched: whatever the referent, it constructs the value the reference had at
the call. -/
theorem change_cap_push_back_exact_eq (sizeof_T : Nat) (m : Memory T) (v : vector)
    (new_cap : Nat) (value : Ref T) (x : T) (hs : 0 < sizeof_T)
    (hw : new_cap * sizeof_T < 2 ^ 64) (hx : m.deref value = some x) :
    change_cap_push_back_exact sizeof_T m v new_cap value = change_cap_push_back m v new_cap x := by
  unfold change_cap_push_back_exact change_cap_push_back
  rw [new_storage_exact_eq sizeof_T m new_cap hs hw]
  rcases e1 : new_storage m new_cap with ⟨m1, op⟩
  cases op with
  | none => rfl
  | some new_data =>
    simp only
    rcases e2 : copy_elements v.data_ new_data v.size_ 0 m1 with ⟨m2, ok⟩
    cases ok with
    | false => rfl
    | true =>
      simp only
      have hd : m2.deref value = some x := by
        apply deref_of_keeps m m2 value x hx
        intro p c _ _ hl
        have k1 : Keeps c m m1 := by
          have := new_storage_keeps m new_cap c
          rw [e1] at this
          exact this
        have hfresh : new_data.block ≠ some c :=
          new_storage_fresh m new_cap new_data c (by rw [e1]) hl
        have k2 := copy_elements_keeps v.data_ new_data c hfresh v.size_ 0 m1
        rw [e2] at k2
        exact (k1.andThen k2) hl
      rw [hd]

/-- The unfused sequence reads `value` at line 82, after `change_capacity`
has destroyed the old elements and released the old buffer: it constructs the
value the reference had at the call when the referent is not in that buffer. -/
theorem change_capacity_then_push_back_exact_eq (sizeof_T : Nat) (m : Memory T) (v : vector)
    (new_cap : Nat) (value : Ref T) (x : T) (hs : 0 < sizeof_T)
    (hw : new_cap * sizeof_T < 2 ^ 64) (hx : m.deref value = some x)
    (hout : ∀ p, value = .element p → p.block ≠ v.data_.block) :
    change_capacity_then_push_back_exact sizeof_T m v new_cap value =
      change_capacity_then_push_back_value m v new_cap x := by
  have hd : (change_capacity m v new_cap).mem.deref value = some x := by
    rw [← hx]
    apply deref_of_frame m v _ value (change_capacity_frame m v new_cap)
    intro p hp
    subst hp
    obtain ⟨c, hc, hl⟩ := read_some_block m p x hx
    refine ⟨c, hc, hl, ?_⟩
    intro hv
    exact hout p rfl (by rw [hc, hv])
  unfold change_capacity_then_push_back_exact change_capacity_then_push_back_value
  rw [change_capacity_exact_eq sizeof_T m v new_cap hs hw]
  rcases e : change_capacity m v new_cap with ⟨m1, v1, r⟩
  rw [e] at hd
  simp only at hd
  cases r with
  | threw f => rfl
  | returned u =>
    simp only
    rw [hd]

/-- The C19 counterexample: on a vector holding `[10, 20]` at full capacity,
with `value` a reference to its own first element (the call
`push_back(v[0])`) and `new_cap = 4`.  The fused helper copies `value` before
the old buffer is released and gives `[10, 20, 10]`; the unfused sequence
reads `value` after `change_capacity` has destroyed the referent and released
its buffer, where there is nothing to read. -/
theorem unfused_reads_destroyed_element :
    (pushed [10, 20]).mem.deref (.element (index (pushed [10, 20]).self 0)) = some 10 ∧
    (change_cap_push_back_exact 4 (pushed [10, 20]).mem (pushed [10, 20]).self 4
      (.element (index (pushed [10, 20]).self 0))).ret = .returned () ∧
    (change_capacity_then_push_back_exact 4 (pushed [10, 20]).mem (pushed [10, 20]).self 4
      (.element (index (pushed [10, 20]).self 0))).ret = .returned () ∧
    elements
      (change_cap_push_back_exact 4 (pushed [10, 20]).mem (pushed [10, 20]).self 4
        (.element (index (pushed [10, 20]).self 0))).mem
      (change_cap_push_back_exact 4 (pushed [10, 20]).mem (pushed [10, 20]).self 4
        (.element (index (pushed [10, 20]).self 0))).self = [some 10, some 20, some 10] ∧
    elements
      (change_capacity_then_push_back_exact 4 (pushed [10, 20]).mem (pushed [10, 20]).self 4
        (.element (index (pushed [10, 20]).self 0))).mem
      (change_capacity_then_push_back_exact 4 (pushed [10, 20]).mem (pushed [10, 20]).self 4
        (.element (index (pushed [10, 20]).self 0))).self = [some 10, some 20, none] ∧
    (change_capacity_exact 4 (pushed [10, 20]).mem (pushed [10, 20]).self 4).mem.deref
      (.element (index (pushed [10, 20]).self 0)) = none := by
  decide

/-- C19, for a value that is not an element of the vector and a byte count
that does not wrap: the fused helper `change_cap_push_back(new_cap, value)`
against `change_capacity(new_cap)` followed by
`push_back_without_extend_checking(value)`.  For a vector holding `a`, a
`new_cap > a.length` with `new_cap * sizeof(T) < 2 ^ 64`, and a reference
`value` to `x` whose referent is not in the buffer of the vector: when no call
throws both return the same members, with size `a.length + 1`, capacity
`new_cap` and elements `a ++ [x]`; when the `k`-th copy of an existing element
throws both propagate `copy_failed` and leave members and elements
unchanged. -/
theorem change_cap_push_back_exact_fused (sizeof_T : Nat) (m : Memory T) (v : vector)
    (a : List T) (new_cap : Nat) (value : Ref T) (x : T) (h : Holds m v a)
    (hc : a.length < new_cap) (hs : 0 < sizeof_T) (hw : new_cap * sizeof_T < 2 ^ 64)
    (hx : m.deref value = some x)
    (hout : ∀ p, value = .element p → p.block ≠ v.data_.block) :
    (NoFail m →
      (change_cap_push_back_exact sizeof_T m v new_cap value).ret = .returned () ∧
      (change_capacity_then_push_back_exact sizeof_T m v new_cap value).ret = .returned () ∧
      (change_cap_push_back_exact sizeof_T m v new_cap value).self =
        (change_capacity_then_push_back_exact sizeof_T m v new_cap value).self ∧
      size (change_cap_push_back_exact sizeof_T m v new_cap value).self = a.length + 1 ∧
      capacity (change_cap_push_back_exact sizeof_T m v new_cap value).self = new_cap ∧
      elements (change_cap_push_back_exact sizeof_T m v new_cap value).mem
        (change_cap_push_back_exact sizeof_T m v new_cap value).self = (a ++ [x]).map some ∧
      elements (change_capacity_then_push_back_exact sizeof_T m v new_cap value).mem
        (change_capacity_then_push_back_exact sizeof_T m v new_cap value).self
          = (a ++ [x]).map some) ∧
    (∀ k, m.new_throws (m.news + 1) = false → 1 ≤ k → k ≤ a.length →
      (∀ j, 1 ≤ j → j < k → m.copy_throws (m.copies + j) = false) →
      m.copy_throws (m.copies + k) = true →
      (change_cap_push_back_exact sizeof_T m v new_cap value).ret = .threw .copy_failed ∧
      (change_capacity_then_push_back_exact sizeof_T m v new_cap value).ret
        = .threw .copy_failed ∧
      (change_cap_push_back_exact sizeof_T m v new_cap value).self = v ∧
      (change_capacity_then_push_back_exact sizeof_T m v new_cap value).self = v ∧
      elements (change_cap_push_back_exact sizeof_T m v new_cap value).mem
        (change_cap_push_back_exact sizeof_T m v new_cap value).self = elements m v ∧
      elements (change_capacity_then_push_back_exact sizeof_T m v new_cap value).mem
        (change_capacity_then_push_back_exact sizeof_T m v new_cap value).self
          = elements m v) := by
  rw [change_cap_push_back_exact_eq sizeof_T m v new_cap value x hs hw hx,
    change_capacity_then_push_back_exact_eq sizeof_T m v new_cap value x hs hw hx hout]
  exact change_cap_push_back_fused_value m v a new_cap x h hc

theorem change_cap_push_back_exact_fused_witness :
    (pushed_two [10, 20] [7]).1.deref (.element (index (pushed_two [10, 20] [7]).2.2 0))
      = some 7 ∧
    (change_cap_push_back_exact 4 (pushed_two [10, 20] [7]).1 (pushed_two [10, 20] [7]).2.1 5
        (.element (index (pushed_two [10, 20] [7]).2.2 0))).self =
      (change_capacity_then_push_back_exact 4 (pushed_two [10, 20] [7]).1
        (pushed_two [10, 20] [7]).2.1 5 (.element (index (pushed_two [10, 20] [7]).2.2 0))).self ∧
    elements
      (change_capacity_then_push_back_exact 4 (pushed_two [10, 20] [7]).1
        (pushed_two [10, 20] [7]).2.1 5 (.element (index (pushed_two [10, 20] [7]).2.2 0))).mem
      (change_capacity_then_push_back_exact 4 (pushed_two [10, 20] [7]).1
        (pushed_two [10, 20] [7]).2.1 5 (.element (index (pushed_two [10, 20] [7]).2.2 0))).self
      = [some 10, some 20, some 7] ∧
    (change_capacity_then_push_back_exact 4 ((pushed [10, 20]).mem.with_copy_failure 2)
      (pushed [10, 20]).self 5 (.object 30)).ret = .threw .copy_failed :=
  have h := change_cap_push_back_exact_fused 4 (pushed_two [10, 20] [7]).1
    (pushed_two [10, 20] [7]).2.1 [10, 20] 5 (.element (index (pushed_two [10, 20] [7]).2.2 0)) 7
    (pushed_two_holds [10, 20] [7]).2.1 (by decide) (by decide) (by decide) (by decide)
    (by
      intro p hp
      cases hp
      decide)
  have g := change_cap_push_back_exact_fused 4 ((pushed [10, 20]).mem.with_copy_failure 2)
    (pushed [10, 20]).self [10, 20] 5 (.object 30) 30 (pushed_holds [10, 20]).2 (by decide)
    (by decide) (by decide) rfl (fun p hp => Ref.noConfusion hp)
  ⟨by decide, (h.1 (pushed_two_holds [10, 20] [7]).1).2.2.1,
    (h.1 (pushed_two_holds [10, 20] [7]).1).2.2.2.2.2.2,
    (g.2 2 rfl (by decide) (by decide)
      (by
        intro j h1 h2
        have : j = 1 := by omega
        subst this
        decide)
      (by decide)).2.1⟩
end cpp_vector
